import Mathlib

/-!
Verification of the photo-to-profile extraction pipeline of the
arch-2d-illustrator project (src/src/utils/photoToProfile.ts, the later
`ExtractProfileResult` variant, which the spec designates as canonical).

The pipeline is embedded shallowly:
* JavaScript numbers that carry pixel intensities, thresholds and profile
  coordinates are modelled as exact rationals (`ℚ`); the pipeline's
  arithmetic (luma weights, box-blur averages, Otsu means and variances,
  fractions of foreground pixels, normalized coordinates) is rational, so
  this model is exact real arithmetic, abstracting only from IEEE-754
  rounding, which the spec does not constrain.
* `Uint8ClampedArray` pixel data is a total function from byte index to
  byte value; `getImageData(0,0,w,h).data` always has length `4*w*h`, so
  the grayscale loop reads indices `4*p, 4*p+1, 4*p+2` for `p < w*h`.
* raw image dimensions (`naturalWidth`/`naturalHeight`) are JavaScript
  numbers that may be non-finite; they are modelled by `JSNum`.
* mutable row-major arrays become `List`s transformed by folds over
  `List.range`, visiting indices in exactly the source's loop order.
* `Array.prototype.sort` with comparator `(a,b) => a.y - b.y` (resp.
  `(a,b) => a-b`) is, per the ECMAScript spec, a stable sort by `≤` on the
  key; it is embedded as the stable `List.insertionSort`.
* `Math.floor` on a rational is `Int.floor`, implemented computably below;
  `Math.floor(x * Math.sqrt(q))` for natural `x` and rational `q ≥ 0` is
  `Nat.sqrt`-style integer square root of `⌊x^2 * q⌋`, which is exactly
  `⌊x * Real.sqrt q⌋`; it is implemented computably as `isqrt`.

The drawing of the input image onto the resized canvas is performed by the
browser; it is modelled by letting the image supply, for every requested
target size, the byte buffer that `getImageData` would return.
-/

namespace PhotoProfile

set_option maxRecDepth 200000

attribute [local semireducible] Rat.add Rat.mul Rat.inv Rat.sub Rat.ofScientific

/-- Computable floor of a rational number, Math.floor on exact values.
Lean's `/` on `ℤ` is Euclidean division, which for a positive denominator
is floor division, so this agrees with `Int.floor`. -/
def jsFloor (q : ℚ) : ℤ := q.num / (q.den : ℤ)

theorem jsFloor_eq (q : ℚ) : jsFloor q = ⌊q⌋ := (Rat.floor_def).symm

/-- Structurally recursive integer square root (greatest `r` with `r*r ≤ n`),
used to embed `Math.floor(... * Math.sqrt(...))` computably. The first
argument is recursion fuel; any fuel `≥ n` computes the square root of `n`. -/
def isqrtAux : ℕ → ℕ → ℕ
  | 0, n => n
  | fuel + 1, n =>
    if n < 2 then n
    else
      let r := 2 * isqrtAux fuel (n / 4)
      if (r + 1) * (r + 1) ≤ n then r + 1 else r

/-- Integer square root: greatest `r` with `r * r ≤ n`. -/
def isqrt (n : ℕ) : ℕ := isqrtAux n n

theorem isqrtAux_bounds (fuel n : ℕ) (h : n ≤ fuel) :
    isqrtAux fuel n * isqrtAux fuel n ≤ n ∧ n < (isqrtAux fuel n + 1) * (isqrtAux fuel n + 1) := by
  induction fuel generalizing n with
  | zero =>
    have hn : n = 0 := by omega
    subst hn
    simp [isqrtAux]
  | succ f ih =>
    rw [isqrtAux]
    by_cases h2 : n < 2
    · simp only [if_pos h2]
      have : n = 0 ∨ n = 1 := by omega
      rcases this with hn | hn <;> subst hn <;> simp
    · simp only [if_neg h2]
      push_neg at h2
      have hq : n / 4 ≤ f := by omega
      obtain ⟨ihl, ihr⟩ := ih (n / 4) hq
      set s := isqrtAux f (n / 4) with hs
      have hrl : (2 * s) * (2 * s) ≤ n := by
        have h1 : (2 * s) * (2 * s) = 4 * (s * s) := by ring
        omega
      have hru : n < (2 * s + 2) * (2 * s + 2) := by
        have h1 : (2 * s + 2) * (2 * s + 2) = 4 * ((s + 1) * (s + 1)) := by ring
        omega
      by_cases hc : (2 * s + 1) * (2 * s + 1) ≤ n
      · simp only [if_pos hc]
        refine ⟨hc, ?_⟩
        have h1 : (2 * s + 1 + 1) * (2 * s + 1 + 1) = (2 * s + 2) * (2 * s + 2) := by ring
        omega
      · simp only [if_neg hc]
        exact ⟨hrl, by omega⟩

theorem isqrt_bounds (n : ℕ) :
    isqrt n * isqrt n ≤ n ∧ n < (isqrt n + 1) * (isqrt n + 1) :=
  isqrtAux_bounds n n le_rfl

theorem isqrt_le_of_lt_sq {n k : ℕ} (h : n < (k + 1) * (k + 1)) : isqrt n ≤ k := by
  by_contra hc
  push_neg at hc
  have h1 : (k + 1) * (k + 1) ≤ isqrt n * isqrt n :=
    Nat.mul_le_mul hc hc
  have h2 := (isqrt_bounds n).1
  omega

/-- Floor of `x * sqrt q` for nonnegative rationals `x` and `q`:
`⌊x * √q⌋ = ⌊√(x^2 q)⌋ = isqrt ⌊x^2 q⌋`, since for any real `y ≥ 0`,
`⌊√y⌋ = isqrt ⌊y⌋`. Used only for the `MAX_PIXELS` downscale. -/
def floorMulSqrt (x q : ℚ) : ℕ := isqrt (jsFloor (x * x * q)).toNat

/-- Maximum processing width, the `MAX_WIDTH` constant. -/
def MAX_WIDTH : ℕ := 500

/-- Maximum number of processed pixels, the `MAX_PIXELS` constant (500 * 800). -/
def MAX_PIXELS : ℕ := 500 * 800

/-- Default number of output profile points. -/
def DEFAULT_TARGET_POINTS : ℕ := 18

/-- A JavaScript number as far as the dimension-validation code observes it:
either a finite (exact) value or one of the non-finite values. -/
inductive JSNum where
  | val (q : ℚ)
  | nan
  | posInf
  | negInf
deriving DecidableEq

/-- Whether `Number.isFinite` holds. -/
def JSNum.isFinite : JSNum → Bool
  | JSNum.val _ => true
  | _ => false

/-- Dimension preprocessing of `extractProfileFromImage` (lines 548-564):
validate raw dimensions, clamp the width to `MAX_WIDTH` preserving aspect
ratio, downscale by `sqrt(MAX_PIXELS / (w*h))` if the pixel count exceeds
`MAX_PIXELS`, floor, and reject non-positive results. `none` is the path
that returns the empty result. -/
def processDims (rawW rawH : JSNum) : Option (ℕ × ℕ) :=
  match rawW, rawH with
  | JSNum.val wq, JSNum.val hq =>
    if wq < 1 ∨ hq < 1 then none
    else
      let w1 : ℚ := if (MAX_WIDTH : ℚ) < wq then (MAX_WIDTH : ℚ) else wq
      let h1 : ℚ := if (MAX_WIDTH : ℚ) < wq then (jsFloor (hq * MAX_WIDTH / wq) : ℚ) else hq
      let w2 : ℚ :=
        if (MAX_PIXELS : ℚ) < w1 * h1 then
          (max 1 (floorMulSqrt w1 ((MAX_PIXELS : ℚ) / (w1 * h1))) : ℕ)
        else w1
      let h2 : ℚ :=
        if (MAX_PIXELS : ℚ) < w1 * h1 then
          (max 1 (floorMulSqrt h1 ((MAX_PIXELS : ℚ) / (w1 * h1))) : ℕ)
        else h1
      let w3 : ℤ := jsFloor w2
      let h3 : ℤ := jsFloor h2
      if w3 < 1 ∨ h3 < 1 then none else some (w3.toNat, h3.toNat)
  | _, _ => none

/-- A decoded input image. `rawW`/`rawH` are the raw dimensions
(`naturalWidth`/`naturalHeight` or canvas `width`/`height`). `data w h i`
is byte `i` of the RGBA buffer `getImageData` returns after the browser
draws the image resized to `w × h`; that buffer has length `4*w*h` and
bytes in `0..255`, and only indices below `4*w*h` are ever read. -/
structure ImageInput where
  rawW : JSNum
  rawH : JSNum
  data : ℕ → ℕ → ℕ → ℕ

/-- A normalized profile point, `{x, y}` with both intended in `[0,1]`. -/
structure ProfilePoint where
  x : ℚ
  y : ℚ
deriving DecidableEq

/-- Decoration band placeholder (the pipeline always returns none of them). -/
structure DecorationBand where
deriving DecidableEq

/-- Result record of `extractProfileFromImage`. -/
structure ExtractProfileResult where
  profile : List ProfilePoint
  decorationBands : List DecorationBand
deriving DecidableEq

/-- Options record `ExtractProfileOptions`. The UI supplies `blur ∈ {0,1,2}`,
`smoothing ∈ 0..5`, `targetPoints ∈ 8..24` and `cleanup ∈ {0,1,2}` as
integers (they are integer-typed or integer-clamped at every call site), so
those fields are embedded as `Option ℕ`; `thresholdBias` is any number. -/
structure ExtractProfileOptions where
  blur : Option ℕ
  smoothing : Option ℕ
  invert : Option Bool
  targetPoints : Option ℕ
  thresholdBias : Option ℚ
  cleanup : Option ℕ
  contrastStretch : Option Bool
deriving DecidableEq

/-- Grayscale conversion (`toGrayscale`): BT.601 luma per RGBA pixel, the
loop `for (i = 0; i < data.length; i += 4)` over a buffer of length `4*w*h`. -/
def toGrayscale (data : ℕ → ℕ) (w h : ℕ) : List ℚ :=
  (List.range (w * h)).map fun p =>
    (299 / 1000 : ℚ) * data (4 * p) + (587 / 1000 : ℚ) * data (4 * p + 1) +
      (114 / 1000 : ℚ) * data (4 * p + 2)

/-- Contrast stretch (`contrastStretch`): linear remap of the global
min/max intensity to `[0,255]`, with denominator `max - min || 1`. -/
def contrastStretchFn (gray : List ℚ) : List ℚ :=
  let mn := gray.foldl min 255
  let mx := gray.foldl max 0
  let range := if mx - mn = 0 then 1 else mx - mn
  gray.map fun v => max 0 (min 255 ((v - mn) / range * 255))

/-- 3x3 box blur (`blur3x3`): interior pixels are replaced by the mean of
their 3x3 neighbourhood; border pixels keep their value (the source copies
`gray` and only overwrites the interior). In the pipeline `gray` always has
length `w*h`. -/
def blur3x3 (gray : List ℚ) (w h : ℕ) : List ℚ :=
  (List.range (w * h)).map fun i =>
    let y := i / w
    let x := i % w
    if 1 ≤ y ∧ y + 1 < h ∧ 1 ≤ x ∧ x + 1 < w then
      ((List.range 3).flatMap fun dy =>
        (List.range 3).map fun dx => gray.getD ((y + dy - 1) * w + (x + dx - 1)) 0).sum / 9
    else gray.getD i 0

/-- 5x5 box blur (`blur5x5`), as `blur3x3` with a 5x5 window and a 2-pixel
border. -/
def blur5x5 (gray : List ℚ) (w h : ℕ) : List ℚ :=
  (List.range (w * h)).map fun i =>
    let y := i / w
    let x := i % w
    if 2 ≤ y ∧ y + 2 < h ∧ 2 ≤ x ∧ x + 2 < w then
      ((List.range 5).flatMap fun dy =>
        (List.range 5).map fun dx => gray.getD ((y + dy - 2) * w + (x + dx - 2)) 0).sum / 25
    else gray.getD i 0

/-- Histogram bin of one gray value: `Math.min(255, Math.floor(g))`. -/
def jsBin (g : ℚ) : ℤ := min 255 (jsFloor g)

/-- Intensity histogram: `hist[t]` for `t = 0..255` is the number of gray
values binned to `t` (the source increments `hist[min(255, floor(g))]`;
bins outside `0..255`, possible only for negative values, are never read
back by the threshold loop, matching JavaScript's sparse-array behaviour). -/
def histOf (gray : List ℚ) (t : ℕ) : ℕ :=
  (gray.filter fun g => jsBin g == (t : ℤ)).length

/-- State of the Otsu threshold scan: running background weight and sum,
best variance and threshold so far, and whether the loop has hit `break`. -/
structure OtsuState where
  wB : ℕ
  sumB : ℕ
  maxVar : ℚ
  bestT : ℕ
  done : Bool
deriving DecidableEq

/-- One iteration of the Otsu candidate-threshold loop (`for t = 0..255`). -/
def otsuStep (hist : ℕ → ℕ) (total sum : ℕ) (s : OtsuState) (t : ℕ) : OtsuState :=
  if s.done then s
  else
    let wB := s.wB + hist t
    if wB = 0 then ⟨wB, s.sumB, s.maxVar, s.bestT, false⟩
    else
      let wF := total - wB
      if wF = 0 then ⟨wB, s.sumB, s.maxVar, s.bestT, true⟩
      else
        let sumB := s.sumB + t * hist t
        let mB : ℚ := (sumB : ℚ) / (wB : ℚ)
        let mF : ℚ := ((sum : ℚ) - (sumB : ℚ)) / (wF : ℚ)
        let varBetween : ℚ := (wB : ℚ) * (wF : ℚ) * (mB - mF) ^ 2
        if s.maxVar < varBetween then ⟨wB, sumB, varBetween, t, false⟩
        else ⟨wB, sumB, s.maxVar, s.bestT, false⟩

/-- Otsu threshold (`otsuThreshold`): scan `t = 0..255` maximizing the
between-class variance `wB*wF*(mB-mF)^2`, with strict `>` so ties keep the
lowest candidate; `continue` while the background class is empty, `break`
once the foreground class is empty. -/
def otsuThreshold (gray : List ℚ) : ℕ :=
  let total := gray.length
  let sum := (List.range 256).foldl (fun a i => a + i * histOf gray i) 0
  ((List.range 256).foldl (otsuStep (histOf gray) total sum) ⟨0, 0, 0, 0, false⟩).bestT

/-- Binarization (`binarize`): a pixel is foreground iff
`darkIsForeground ? g <= threshold : g >= threshold`. -/
def binarize (gray : List ℚ) (threshold : ℚ) (darkIsForeground : Bool) : List Bool :=
  gray.map fun g => if darkIsForeground then decide (g ≤ threshold) else decide (threshold ≤ g)

/-- Border-sampling background detector (`detectBackgroundColor`): average
the top row, bottom row, left column and right column; the background is
called dark when the average is below 128. -/
def detectBackgroundColor (gray : List ℚ) (w h : ℕ) : Bool × ℚ :=
  let borderPixels : List ℚ :=
    ((List.range w).flatMap fun x => [gray.getD x 0, gray.getD ((h - 1) * w + x) 0]) ++
      ((List.range h).flatMap fun y => [gray.getD (y * w) 0, gray.getD (y * w + w - 1) 0])
  let avgBorder := borderPixels.sum / (borderPixels.length : ℚ)
  (decide (avgBorder < 128), avgBorder)

/-- Path-compressing union-find `find` (the recursive
`find = x => parent[x] === x ? x : (parent[x] = find(parent[x]))`),
with explicit fuel and the updated parent array returned. Throughout the
labeling pass `parent[x] ≤ x` holds for live labels, so fuel `x + 1`
always suffices. -/
def ufFind : ℕ → List ℕ → ℕ → ℕ × List ℕ
  | 0, parent, x => (x, parent)
  | fuel + 1, parent, x =>
    let p := parent.getD x 0
    if p = x then (x, parent)
    else
      let r := ufFind fuel parent p
      (r.1, r.2.set x r.1)

/-- State of the labeling scan: per-pixel labels, union-find parent array
(index 0 unused), and the next fresh label. -/
structure LabState where
  labels : List ℕ
  parent : List ℕ
  next : ℕ
deriving DecidableEq

/-- One pixel of the `labelComponents` raster scan: look at the left and up
neighbours' labels (`0` when off-grid or background), union their roots
taking the minimum as the new root, inherit a single label, or allocate a
fresh one. -/
def labelStep (fg : List Bool) (w : ℕ) (s : LabState) (i : ℕ) : LabState :=
  if !fg.getD i false then s
  else
    let left := if 0 < i % w then s.labels.getD (i - 1) 0 else 0
    let up := if w ≤ i then s.labels.getD (i - w) 0 else 0
    if left ≠ 0 ∧ up ≠ 0 then
      let fl := ufFind (left + 1) s.parent left
      let fu := ufFind (up + 1) fl.2 up
      let r := min fl.1 fu.1
      ⟨s.labels.set i r, (fu.2.set fl.1 r).set fu.1 r, s.next⟩
    else if left ≠ 0 then
      let fl := ufFind (left + 1) s.parent left
      ⟨s.labels.set i fl.1, fl.2, s.next⟩
    else if up ≠ 0 then
      let fu := ufFind (up + 1) s.parent up
      ⟨s.labels.set i fu.1, fu.2, s.next⟩
    else
      ⟨s.labels.set i s.next, s.parent ++ [s.next], s.next + 1⟩

/-- The root-resolution pass of `labelComponents`
(`for i: if (labels[i]) labels[i] = root(labels[i])`), threading the
path-compressed parent array. -/
def resolveStep (s : List ℕ × List ℕ) (i : ℕ) : List ℕ × List ℕ :=
  let l := s.1.getD i 0
  if l = 0 then s
  else
    let f := ufFind (l + 1) s.2 l
    (s.1.set i f.1, f.2)

/-- Connected-component labeling (`labelComponents`): 4-connectivity by a
single row-major scan with union-find, then root resolution; `count` is the
number of distinct positive labels. -/
def labelComponents (fg : List Bool) (width height : ℕ) : List ℕ × ℕ :=
  let n := width * height
  let init : LabState := ⟨List.replicate n 0, [0], 1⟩
  let scanned := (List.range n).foldl (labelStep fg width) init
  let resolved := (List.range n).foldl resolveStep (scanned.labels, scanned.parent)
  (resolved.1, (resolved.1.filter fun l => 0 < l).dedup.length)

/-- Label-frequency accumulator: the JavaScript `Map` keeps insertion
order, so counts are an association list in order of first occurrence. -/
def bumpCount (cs : List (ℕ × ℕ)) (l : ℕ) : List (ℕ × ℕ) :=
  if cs.any fun p => p.1 == l then
    cs.map fun p => if p.1 == l then (p.1, p.2 + 1) else p
  else cs ++ [(l, 1)]

/-- Pixel counts per positive label, in first-occurrence order. -/
def countsOf (labels : List ℕ) : List (ℕ × ℕ) :=
  labels.foldl (fun cs l => if 0 < l then bumpCount cs l else cs) []

/-- The label with the strictly greatest count (`c > bestCount`), ties
keeping the earlier entry; `0` when there are no counts. -/
def bestLabelOf (counts : List (ℕ × ℕ)) : ℕ × ℕ :=
  counts.foldl (fun b p => if b.2 < p.2 then p else b) (0, 0)

/-- Keep only the largest connected component (`keepLargestComponent`). -/
def keepLargestComponent (fg : List Bool) (width height : ℕ) : List Bool :=
  let labels := (labelComponents fg width height).1
  let bestLabel := (bestLabelOf (countsOf labels)).1
  fg.mapIdx fun i v => v && (labels.getD i 0 == bestLabel)

/-- 3x3 dilation (`dilate3`): an interior background pixel becomes
foreground if any pixel of its 3x3 box is foreground; border pixels are
copied unchanged. -/
def dilate3 (fg : List Bool) (w h : ℕ) : List Bool :=
  (List.range (w * h)).map fun i =>
    let y := i / w
    let x := i % w
    if 1 ≤ y ∧ y + 1 < h ∧ 1 ≤ x ∧ x + 1 < w then
      if fg.getD i false then true
      else
        (List.range 3).any fun dy =>
          (List.range 3).any fun dx => fg.getD ((y + dy - 1) * w + (x + dx - 1)) false
    else fg.getD i false

/-- 3x3 erosion (`erode3`): an interior foreground pixel survives only if
every pixel of its 3x3 box is foreground; border pixels are copied. -/
def erode3 (fg : List Bool) (w h : ℕ) : List Bool :=
  (List.range (w * h)).map fun i =>
    let y := i / w
    let x := i % w
    if 1 ≤ y ∧ y + 1 < h ∧ 1 ≤ x ∧ x + 1 < w then
      if fg.getD i false then
        (List.range 3).all fun dy =>
          (List.range 3).all fun dx => fg.getD ((y + dy - 1) * w + (x + dx - 1)) false
      else false
    else fg.getD i false

/-- Morphological close (`morphClose`): dilate then erode. -/
def morphClose (fg : List Bool) (w h : ℕ) : List Bool :=
  erode3 (dilate3 fg w h) w h

/-- Morphological open (`morphOpen`): erode then dilate. -/
def morphOpen (fg : List Bool) (w h : ℕ) : List Bool :=
  dilate3 (erode3 fg w h) w h

/-- The BFS of `fillFromEdges`: pop the queue head; an unvisited
non-foreground pixel is marked background and its in-grid unvisited
non-foreground 4-neighbours are enqueued. Fuel bounds the number of pops
(every pop either discards or visits a fresh pixel, and each visited pixel
enqueues at most 4 indices, so `initialQueue + 4*w*h + 1` pops suffice). -/
def bfsFill (fg : List Bool) (w h : ℕ) :
    ℕ → List Bool → List ℕ → List ℕ → List Bool
  | 0, isBg, _, _ => isBg
  | _ + 1, isBg, _, [] => isBg
  | fuel + 1, isBg, visited, idx :: rest =>
    if visited.contains idx || fg.getD idx false then
      bfsFill fg w h fuel isBg visited rest
    else
      let visited2 := idx :: visited
      let isBg2 := isBg.set idx true
      let x := idx % w
      let y := idx / w
      let neighbors : List ℤ :=
        [if 0 < x then (idx : ℤ) - 1 else -1,
         if x + 1 < w then (idx : ℤ) + 1 else -1,
         if 0 < y then (idx : ℤ) - w else -1,
         if y + 1 < h then (idx : ℤ) + w else -1]
      let pushes := (neighbors.filter fun n =>
        0 ≤ n && !visited2.contains n.toNat && !fg.getD n.toNat false).map Int.toNat
      bfsFill fg w h fuel isBg2 visited2 (rest ++ pushes)

/-- Edge flood fill (`fillFromEdges`): flood the background inward from the
top, left and right borders (never the bottom); everything not reached is
treated as inside the vessel. -/
def fillFromEdges (fg : List Bool) (w h : ℕ) : List Bool :=
  let queue0 : List ℕ :=
    ((List.range w).filter fun x => !fg.getD x false) ++
      ((List.range h).flatMap fun y =>
        (if !fg.getD (y * w) false then [y * w] else []) ++
          (if !fg.getD (y * w + w - 1) false then [y * w + w - 1] else []))
  let isBg := bfsFill fg w h (w + 2 * h + 4 * (w * h) + 1)
    (List.replicate (w * h) false) [] queue0
  isBg.map fun v => !v

/-- Index of the first `true` in a row (the `for x = 0.. break` scan);
`none` when the row is all background (JavaScript `leftmost = -1`). -/
def firstTrue : List Bool → Option ℕ
  | [] => none
  | b :: rest => if b then some 0 else (firstTrue rest).map (· + 1)

/-- Index of the last `true` in a row (the `for x = w-1.. break` scan). -/
def lastTrue : List Bool → Option ℕ
  | [] => none
  | b :: rest =>
    match lastTrue rest with
    | some i => some (i + 1)
    | none => if b then some 0 else none

/-- Row `y` of a flat row-major mask. -/
def rowOf (fg : List Bool) (w y : ℕ) : List Bool :=
  (fg.drop (y * w)).take w

/-- Span fill of one row of `extractOuterContour`: fill every pixel between
the leftmost and rightmost foreground pixel, everything else false. -/
def spanFillRow (row : List Bool) : List Bool :=
  match firstTrue row, lastTrue row with
  | some l, some r =>
    if l ≤ r then (List.range row.length).map fun x => decide (l ≤ x ∧ x ≤ r)
    else List.replicate row.length false
  | _, _ => List.replicate row.length false

/-- Outer-contour extraction (`extractOuterContour`): per-row span fill of
the current mask. -/
def extractOuterContour (fg : List Bool) (w h : ℕ) : List Bool :=
  (List.range h).flatMap fun y => spanFillRow (rowOf fg w y)

/-- 1D median filter (`medianFilter`): replicate-clamped window of width
`2*halfWindow+1` around each index, sorted ascending (the comparator
`(a,b) => a-b` under a stable engine sort), middle element taken. -/
def medianFilter (arr : List ℚ) (halfWindow : ℕ) : List ℚ :=
  let n := arr.length
  (List.range n).map fun (i : ℕ) =>
    let buf := (List.range (2 * halfWindow + 1)).map fun (j : ℕ) =>
      arr.getD (max 0 (min ((n : ℤ) - 1) ((i : ℤ) + (j : ℤ) - (halfWindow : ℤ)))).toNat 0
    let sorted := List.insertionSort (· ≤ ·) buf
    sorted.getD (sorted.length / 2) 0

/-- Foreground bounding box, accumulated exactly as the source's
`yMin/yMax/xMin/xMax` loop with initial values `h, 0, w, 0`. -/
structure BBox where
  yMin : ℕ
  yMax : ℕ
  xMin : ℕ
  xMax : ℕ
deriving DecidableEq

/-- Bounding-box scan over all pixels in row-major order. -/
def bboxOf (fg : List Bool) (w h : ℕ) : BBox :=
  (List.range (w * h)).foldl
    (fun b i =>
      if fg.getD i false then
        ⟨min b.yMin (i / w), max b.yMax (i / w), min b.xMin (i % w), max b.xMax (i % w)⟩
      else b)
    ⟨h, 0, w, 0⟩

/-- The `height` of the bounding box, `yMax - yMin + 1` over JavaScript
integers (which can be non-positive when no foreground pixel exists). -/
def bboxHeight (b : BBox) : ℤ := (b.yMax : ℤ) - (b.yMin : ℤ) + 1

/-- The x-coordinates of all foreground pixels inside the vertical
bounding box, in scan order (rows `yMin..yMax`, columns `0..w-1`). -/
def xPositionsOf (fg : List Bool) (w yMin yMax : ℕ) : List ℕ :=
  (List.range (yMax + 1 - yMin)).flatMap fun dy =>
    (List.range w).filter fun x => fg.getD ((yMin + dy) * w + x) false

/-- Centerline estimate: median of the sorted foreground x-positions, or
the bounding-box midpoint when there are none. -/
def centerlineOf (fg : List Bool) (w : ℕ) (b : BBox) : ℕ :=
  let xPositions := xPositionsOf fg w b.yMin b.yMax
  if 0 < xPositions.length then
    (List.insertionSort (· ≤ ·) xPositions).getD (xPositions.length / 2) 0
  else (b.xMin + b.xMax) / 2

/-- Side selection: count foreground pixels strictly left and strictly
right of the centerline; extract the right side when `right >= left`. -/
def extractRightSideOf (fg : List Bool) (w : ℕ) (b : BBox) (c : ℕ) : Bool :=
  let xs := xPositionsOf fg w b.yMin b.yMax
  let leftPixels := xs.countP fun x => decide (x < c)
  let rightPixels := xs.countP fun x => decide (c < x)
  decide (leftPixels ≤ rightPixels)

/-- Radius of one row: maximum distance from the centerline to a
foreground pixel on the selected side (`x = c..w-1` rightward or
`x = c..0` leftward), `0` when the side has none. -/
def rowRadius (fg : List Bool) (w y c : ℕ) (rightSide : Bool) : ℕ :=
  if rightSide then
    (List.range (w - c)).foldl
      (fun m d => if fg.getD (y * w + c + d) false then max m d else m) 0
  else
    (List.range (c + 1)).foldl
      (fun m d => if fg.getD (y * w + (c - d)) false then max m d else m) 0

/-- Per-row radii across the vertical bounding box. -/
def radiusByRowOf (fg : List Bool) (w : ℕ) (b : BBox) (c : ℕ) (rightSide : Bool) : List ℕ :=
  (List.range (b.yMax + 1 - b.yMin)).map fun dy =>
    rowRadius fg w (b.yMin + dy) c rightSide

/-- Raw normalized points, one per bounding-box row: `y` runs from 1 at the
top row down to 0 at the bottom row (`i = 0` is `yMin`, the top), `x` is the
radius over the maximum radius clamped to at most 1. -/
def buildRawPoints (smoothed : List ℚ) (maxRadius : ℚ) : List ProfilePoint :=
  let len := smoothed.length
  (List.range len).map fun i =>
    ⟨if 0 < maxRadius then min 1 (smoothed.getD i 0 / maxRadius) else 0,
     if 1 < len then 1 - (i : ℚ) / ((len : ℚ) - 1) else 1 / 2⟩

/-- Nearest-neighbour pick of the downsampler: start from `rawPoints[0]`
and scan `i = 1..` keeping the first strictly closer point in `y`. -/
def nearestPoint (pts : List ProfilePoint) (yTarget : ℚ) : ProfilePoint :=
  let d0 := pts.headD ⟨0, 0⟩
  ((pts.drop 1).foldl
    (fun b p => if |p.y - yTarget| < b.2 then (p, |p.y - yTarget|) else b)
    (d0, |d0.y - yTarget|)).1

/-- Downsample to `targetPoints` evenly spaced target heights. -/
def downsample (pts : List ProfilePoint) (targetPoints : ℕ) : List ProfilePoint :=
  (List.range targetPoints).map fun (k : ℕ) =>
    nearestPoint pts (if 1 < targetPoints then (k : ℚ) / ((targetPoints : ℚ) - 1) else 1 / 2)

/-- Force exact boundary coverage: `out[0].y = 0; out[out.length-1].y = 1`. -/
def forceEnds (out : List ProfilePoint) : List ProfilePoint :=
  let o1 := out.set 0 ⟨(out.headD ⟨0, 0⟩).x, 0⟩
  o1.set (o1.length - 1) ⟨(o1.getD (o1.length - 1) ⟨0, 0⟩).x, 1⟩

/-- Final re-sort by ascending `y` (`out.sort((a,b) => a.y - b.y)`). -/
def sortByY (pts : List ProfilePoint) : List ProfilePoint :=
  List.insertionSort (fun a b => a.y ≤ b.y) pts

/-- The normalization/resampling tail of the pipeline (lines 843-868). -/
def finalize (smoothed : List ℚ) (maxRadius : ℚ) (targetPoints : ℕ) : List ProfilePoint :=
  sortByY (forceEnds (downsample (buildRawPoints smoothed maxRadius) targetPoints))

/-- The clamped output point count `max(8, min(24, targetPoints ?? 18))`. -/
def targetPointsOf (opts : ExtractProfileOptions) : ℕ :=
  max 8 (min 24 (opts.targetPoints.getD DEFAULT_TARGET_POINTS))

/-- The bias actually applied to the threshold:
`Math.max(-50, Math.min(50, thresholdBias ?? 0))`. -/
def appliedBias (opts : ExtractProfileOptions) : ℚ :=
  max (-50) (min 50 (opts.thresholdBias.getD 0))

/-- Grayscale stage with optional contrast stretch and blur (blur level
`options.blur ?? 1`). -/
def pipeGray (w h : ℕ) (data : ℕ → ℕ) (opts : ExtractProfileOptions) : List ℚ :=
  let gray := toGrayscale data w h
  let gray := if opts.contrastStretch.getD false then contrastStretchFn gray else gray
  let blurLevel := opts.blur.getD 1
  if blurLevel = 1 then blur3x3 gray w h
  else if blurLevel = 2 then blur5x5 gray w h
  else gray

/-- The effective binarization threshold: Otsu plus the clamped bias,
clamped to `[0, 255]`. -/
def effectiveThreshold (gray : List ℚ) (opts : ExtractProfileOptions) : ℚ :=
  max 0 (min 255 ((otsuThreshold gray : ℚ) + appliedBias opts))

/-- The automatic-polarity mask (lines 596-636, `options.invert` unset):
start from the border-heuristic polarity, flip once if the foreground
fraction is outside `[0.12, 0.88]`, and if still outside try a threshold
shifted by 30 toward the background with the background-implied polarity,
adopting it only when its fraction is inside the band. -/
def autoMask (gray : List ℚ) (w h : ℕ) (t : ℚ) : List Bool :=
  let bgIsDark := (detectBackgroundColor gray w h).1
  let dark0 := !bgIsDark
  let fg0 := binarize gray t dark0
  let total := gray.length
  let frac0 := (fg0.countP id : ℚ) / (total : ℚ)
  let fg1 :=
    if frac0 < 12 / 100 ∨ 88 / 100 < frac0 then binarize gray t (!dark0) else fg0
  let frac1 := (fg1.countP id : ℚ) / (total : ℚ)
  if frac1 < 12 / 100 ∨ 88 / 100 < frac1 then
    let threshAlt := if bgIsDark then max 0 (min 255 (t - 30)) else max 0 (min 255 (t + 30))
    let fgAlt := binarize gray threshAlt (!bgIsDark)
    let fracAlt := (fgAlt.countP id : ℚ) / (total : ℚ)
    if 12 / 100 ≤ fracAlt ∧ fracAlt ≤ 88 / 100 then fgAlt else fg1
  else fg1

/-- The binarized mask: forced polarity when `invert` is set, otherwise the
three-tier automatic mask. -/
def chosenMask (gray : List ℚ) (w h : ℕ) (t : ℚ) (invert : Option Bool) : List Bool :=
  match invert with
  | some b => binarize gray t b
  | none => autoMask gray w h t

/-- Mask post-processing (lines 638-762): keep the largest component,
optional morphological cleanup with re-selection, the conditional
edge-flood fallback, and the always-applied outer-contour span fill. -/
def maskAfterCleanup (fg0 : List Bool) (w h : ℕ) (cleanupLevel : ℕ) : List Bool :=
  let fg := keepLargestComponent fg0 w h
  let fg := if 1 ≤ cleanupLevel then keepLargestComponent (morphClose fg w h) w h else fg
  let fg :=
    if 2 ≤ cleanupLevel then
      keepLargestComponent (morphClose (morphOpen fg w h) w h) w h
    else fg
  let fg :=
    if 1 ≤ cleanupLevel then
      let fracOriginal := (fg.countP id : ℚ) / ((w * h : ℕ) : ℚ)
      if fracOriginal < 12 / 100 ∨ 88 / 100 < fracOriginal then
        let fgFilled := fillFromEdges fg w h
        let fracFilled := (fgFilled.countP id : ℚ) / ((w * h : ℕ) : ℚ)
        if 12 / 100 ≤ fracFilled ∧ fracFilled ≤ 88 / 100 then
          keepLargestComponent fgFilled w h
        else fg
      else fg
    else fg
  extractOuterContour fg w h

/-- The final measured foreground mask for given processed dimensions. -/
def pipeFg (w h : ℕ) (data : ℕ → ℕ) (opts : ExtractProfileOptions) : List Bool :=
  let gray := pipeGray w h data opts
  maskAfterCleanup (chosenMask gray w h (effectiveThreshold gray opts) opts.invert) w h
    (opts.cleanup.getD 0)

/-- Bounding box of the final mask. -/
def pipeBBox (w h : ℕ) (data : ℕ → ℕ) (opts : ExtractProfileOptions) : BBox :=
  bboxOf (pipeFg w h data opts) w h

/-- Per-row radii of the final mask (centerline and side chosen as in the
source). -/
def pipeRadii (w h : ℕ) (data : ℕ → ℕ) (opts : ExtractProfileOptions) : List ℕ :=
  let fg := pipeFg w h data opts
  let b := pipeBBox w h data opts
  let c := centerlineOf fg w b
  radiusByRowOf fg w b c (extractRightSideOf fg w b c)

/-- The maximum radius across all bounding-box rows. -/
def pipeMaxRadius (w h : ℕ) (data : ℕ → ℕ) (opts : ExtractProfileOptions) : ℕ :=
  (pipeRadii w h data opts).foldl max 0

/-- The profile computation for validated dimensions: the two degenerate
guards (`height < 10`, `maxRadius < 2`) and the smoothing, normalization and
resampling tail. -/
def extractCore (w h : ℕ) (data : ℕ → ℕ) (opts : ExtractProfileOptions) : List ProfilePoint :=
  if bboxHeight (pipeBBox w h data opts) < 10 then []
  else if pipeMaxRadius w h data opts < 2 then []
  else
    let smoothing := opts.smoothing.getD 2
    let radiiQ := (pipeRadii w h data opts).map fun (r : ℕ) => (r : ℚ)
    let smoothed := if 0 < smoothing then medianFilter radiiQ (min smoothing 5) else radiiQ
    finalize smoothed ((pipeMaxRadius w h data opts : ℕ) : ℚ) (targetPointsOf opts)

/-- The empty result, returned on every degenerate path. -/
def emptyResult : ExtractProfileResult := ⟨[], []⟩

/-- The full pipeline `extractProfileFromImage` (lines 536-871):
dimension validation and resizing, then the profile computation;
`decorationBands` is always empty. -/
def extractProfileFromImage (img : ImageInput) (opts : ExtractProfileOptions) :
    ExtractProfileResult :=
  match processDims img.rawW img.rawH with
  | none => emptyResult
  | some (w, h) => ⟨extractCore w h (img.data w h) opts, []⟩

/-! Specification-side models. The following definitions are written from
the spec's words, to be compared with the source-derived definitions
above. -/

/-- Modelled from the spec: a mask is degenerate when its foreground
fraction is below 12% or above 88%. -/
def specDegenerate (m : List Bool) (total : ℕ) : Bool :=
  decide ((m.countP id : ℚ) / (total : ℚ) < 12 / 100) ||
    decide (88 / 100 < (m.countP id : ℚ) / (total : ℚ))

/-- Modelled from the spec (claim C6): the three-tier polarity fallback.
Tier 1 binarizes with the border-heuristic polarity (light foreground over
a dark border and vice versa); if degenerate, tier 2 flips the polarity and
rebinarizes; if still degenerate, tier 3 binarizes with the threshold
shifted by 30 toward the detected background value using the
background-implied polarity and is adopted iff its fraction lies within
the band; no further retries occur. -/
def specThreeTier (gray : List ℚ) (w h : ℕ) (t : ℚ) : List Bool :=
  let borderDark := (detectBackgroundColor gray w h).1
  let borderPolarity := !borderDark
  let tier1 := binarize gray t borderPolarity
  if specDegenerate tier1 gray.length then
    let tier2 := binarize gray t (!borderPolarity)
    if specDegenerate tier2 gray.length then
      let tShifted := if borderDark then max 0 (min 255 (t - 30)) else max 0 (min 255 (t + 30))
      let alt := binarize gray tShifted (!borderDark)
      if !specDegenerate alt gray.length then alt else tier2
    else tier2
  else tier1

/-- 4-neighbour adjacency of flat row-major indices for width `w`:
horizontal neighbours must not wrap across a row boundary. -/
def adjacent (w i j : ℕ) : Prop :=
  (j + 1 = i ∧ 0 < i % w) ∨ (i + 1 = j ∧ 0 < j % w) ∨ j + w = i ∨ i + w = j

/-- One step between two foreground pixels that are 4-adjacent. -/
def connStep (fg : List Bool) (w : ℕ) (i j : ℕ) : Prop :=
  fg.getD i false = true ∧ fg.getD j false = true ∧ adjacent w i j

/-- 4-connectivity: reflexive-transitive closure of `connStep`. -/
def conn (fg : List Bool) (w : ℕ) (i j : ℕ) : Prop :=
  Relation.ReflTransGen (connStep fg w) i j

/-! Concrete inputs used by the witnesses below. -/

/-- A 7x12 image, columns 0-4 black and columns 5-6 white (all channels
equal, so the grayscale is exact). -/
def stripeData : ℕ → ℕ → ℕ → ℕ := fun _ _ i => if (i / 4) % 7 ≤ 4 then 0 else 255

/-- The stripe image with raw dimensions 7 x 12. -/
def imgStripes : ImageInput := ⟨JSNum.val 7, JSNum.val 12, stripeData⟩

/-- A 7x12 image whose top five rows are black and the rest white: its
foreground bounding box is only 5 rows tall. -/
def shortData : ℕ → ℕ → ℕ → ℕ := fun _ _ i => if (i / 4) / 7 ≤ 4 then 0 else 255

/-- The short-blob image with raw dimensions 7 x 12. -/
def imgShort : ImageInput := ⟨JSNum.val 7, JSNum.val 12, shortData⟩

/-- A 7x12 image with a single black column (column 2): its maximum radius
is 0. -/
def thinData : ℕ → ℕ → ℕ → ℕ := fun _ _ i => if (i / 4) % 7 = 2 then 0 else 255

/-- The thin-blob image with raw dimensions 7 x 12. -/
def imgThin : ImageInput := ⟨JSNum.val 7, JSNum.val 12, thinData⟩

/-- An image with an unusable (zero) raw width. -/
def imgZeroWidth : ImageInput := ⟨JSNum.val 0, JSNum.val 10, stripeData⟩

/-- An image with a non-finite raw height. -/
def imgNanHeight : ImageInput := ⟨JSNum.val 10, JSNum.nan, stripeData⟩

/-- Options forcing dark foreground with no blur, no smoothing, no cleanup
and 8 output points. -/
def optsForced : ExtractProfileOptions :=
  ⟨some 0, some 0, some true, some 8, some 0, some 0, some false⟩

/-- Options with automatic polarity (`invert` unset). -/
def optsAuto : ExtractProfileOptions :=
  ⟨some 0, some 0, none, some 8, some 0, some 0, some false⟩

/-- A two-blob mask on a 3x2 grid: pixel 0 is one blob, pixels 4 and 5 the
other. -/
def twoBlobMask : List Bool := [true, false, false, false, true, true]

/-- A one-row mask with an interior gap, for the outer-contour witness. -/
def gapMask : List Bool := [true, false, true, false]

/-! Union-find and connected-component labeling machinery for the
`keepLargestComponent` claim. -/

/-- Fuel-based root of a union-find parent forest: follow `parent` until a
fixpoint is reached. -/
def rootF : ℕ → List ℕ → ℕ → ℕ
  | 0, _, x => x
  | fuel + 1, parent, x =>
    if parent.getD x 0 = x then x else rootF fuel parent (parent.getD x 0)

/-- The root of label `x`: since live labels satisfy `parent[x] ≤ x`, fuel
`x + 1` always suffices. -/
def rootOf (parent : List ℕ) (x : ℕ) : ℕ := rootF (x + 1) parent x

/-- Well-formedness of the union-find parent array for live labels
`1 ≤ x < next`: the length is `next` and every live label's parent is a
live label no greater than itself. -/
def ParentWF (parent : List ℕ) (next : ℕ) : Prop :=
  parent.length = next ∧
  ∀ x, 1 ≤ x → x < next → 1 ≤ parent.getD x 0 ∧ parent.getD x 0 ≤ x

/-- 4-connectivity of two pixels using only pixels of index `< k` (the
prefix of the raster scan already processed). -/
def connUpTo (fg : List Bool) (w k : ℕ) (i j : ℕ) : Prop :=
  Relation.ReflTransGen (fun a b => a < k ∧ b < k ∧ connStep fg w a b) i j

/-- Invariant of the `labelComponents` raster scan after processing the
first `k` pixels: labels of processed foreground pixels are live, all other
labels are `0`, the parent array is well-formed, and two processed
foreground pixels carry labels with equal roots exactly when they are
4-connected within the processed prefix. -/
def ScanInv (fg : List Bool) (w n k : ℕ) (s : LabState) : Prop :=
  s.labels.length = n ∧
  1 ≤ s.next ∧
  ParentWF s.parent s.next ∧
  (∀ i, i < k → fg.getD i false = true →
    1 ≤ s.labels.getD i 0 ∧ s.labels.getD i 0 < s.next) ∧
  (∀ i, ¬(i < k ∧ fg.getD i false = true) → s.labels.getD i 0 = 0) ∧
  ∀ i j, i < k → j < k → fg.getD i false = true → fg.getD j false = true →
    (rootOf s.parent (s.labels.getD i 0) = rootOf s.parent (s.labels.getD j 0) ↔
      connUpTo fg w k i j)

/-- Invariant of the root-resolution pass after processing the first `k`
pixels: roots are unchanged, processed positive labels have been replaced
by their roots. -/
def ResolveInv (labels0 parent0 : List ℕ) (next k : ℕ)
    (s : List ℕ × List ℕ) : Prop :=
  s.1.length = labels0.length ∧
  ParentWF s.2 next ∧
  (∀ y, 1 ≤ y → y < next → rootOf s.2 y = rootOf parent0 y) ∧
  (∀ i, k ≤ i → s.1.getD i 0 = labels0.getD i 0) ∧
  ∀ i, i < k → s.1.getD i 0 =
    (if labels0.getD i 0 = 0 then 0 else rootOf parent0 (labels0.getD i 0))

/-- Invariant of the label-count accumulator over a processed prefix `P`:
keys are distinct, and the entries are exactly the positive values of `P`
paired with their multiplicities. -/
def CountsInv (P : List ℕ) (cs : List (ℕ × ℕ)) : Prop :=
  (cs.map Prod.fst).Nodup ∧
  (∀ l, 0 < l → l ∈ P → (l, P.count l) ∈ cs) ∧
  ∀ lc, lc ∈ cs → 0 < lc.1 ∧ lc.1 ∈ P ∧ lc.2 = P.count lc.1

/-! Theorems. -/

/-- C9: `extractProfileFromImage` is deterministic: it is a pure function
of the raster (the dimension fields and the per-size pixel buffer) and the
options, with no hidden or persistent state in the embedding, so two
invocations on the same input are identical; moreover `decorationBands` is
always empty. -/
theorem extractProfileFromImage_deterministic (img : ImageInput)
    (opts : ExtractProfileOptions) :
    extractProfileFromImage img opts = extractProfileFromImage img opts ∧
      (extractProfileFromImage img opts).decorationBands = [] := by
  refine ⟨rfl, ?_⟩
  unfold extractProfileFromImage
  cases hp : processDims img.rawW img.rawH with
  | none => rfl
  | some p => cases p with | mk w h => rfl

/-- C8: for every `thresholdBias` value (clamped or not) and every gray
image, the bias actually applied lies in `[-50, 50]` and the effective
threshold after adding it lies in `[0, 255]`. -/
theorem appliedBias_and_threshold_clamped (gray : List ℚ)
    (opts : ExtractProfileOptions) :
    -50 ≤ appliedBias opts ∧ appliedBias opts ≤ 50 ∧
      0 ≤ effectiveThreshold gray opts ∧ effectiveThreshold gray opts ≤ 255 := by
  refine ⟨le_max_left _ _, ?_, le_max_left _ _, ?_⟩
  · exact max_le (by norm_num) (min_le_left _ _)
  · exact max_le (by norm_num) (min_le_left _ _)

/-- Floor of a natural-number cast is itself. -/
theorem jsFloor_natCast (n : ℕ) : jsFloor ((n : ℕ) : ℚ) = (n : ℤ) := by
  rw [jsFloor_eq]
  exact_mod_cast Int.floor_natCast n

/-- A bound on the downscale helper: if `0 ≤ x ≤ 500` and `0 ≤ q ≤ 1` then
`⌊x√q⌋ ≤ 500`. -/
theorem floorMulSqrt_le_500 (x q : ℚ) (hx0 : 0 ≤ x) (hx : x ≤ 500)
    (_hq0 : 0 ≤ q) (hq1 : q ≤ 1) : floorMulSqrt x q ≤ 500 := by
  unfold floorMulSqrt
  apply isqrt_le_of_lt_sq
  have h1 : x * x * q ≤ 250000 := by
    have h2 : x * x ≤ 500 * 500 := mul_le_mul hx hx hx0 (by norm_num)
    have h3 : x * x * q ≤ x * x * 1 := by
      apply mul_le_mul_of_nonneg_left hq1 (mul_nonneg hx0 hx0)
    nlinarith
  have h4 : jsFloor (x * x * q) ≤ 250000 := by
    rw [jsFloor_eq]
    have := Int.floor_le_floor h1
    simpa using this
  have h5 : (jsFloor (x * x * q)).toNat ≤ 250000 := by omega
  omega

/-- C4 (amended): for every finite positive raw width and height for which
the resizer produces processing dimensions, those dimensions are integers
at least 1 and the width is at most 500 (the `MAX_WIDTH` clamp; the height
and the pixel product have no such cap, see the counterexample). -/
theorem processDims_bounds (wq hq : ℚ) (w h : ℕ)
    (hp : processDims (JSNum.val wq) (JSNum.val hq) = some (w, h)) :
    1 ≤ w ∧ w ≤ 500 ∧ 1 ≤ h := by
  simp only [processDims] at hp
  by_cases h1 : wq < 1 ∨ hq < 1
  · rw [if_pos h1] at hp
    exact absurd hp (by simp)
  rw [if_neg h1] at hp
  push_neg at h1
  set w1 : ℚ := if (MAX_WIDTH : ℚ) < wq then (MAX_WIDTH : ℚ) else wq with hw1
  set h1q : ℚ := if (MAX_WIDTH : ℚ) < wq then (jsFloor (hq * MAX_WIDTH / wq) : ℚ) else hq
    with hh1
  have hw1pos : 0 ≤ w1 := by
    rw [hw1]
    split
    · norm_num [MAX_WIDTH]
    · linarith [h1.1]
  have hw1le : w1 ≤ 500 := by
    rw [hw1]
    split
    · norm_num [MAX_WIDTH]
    · rename_i hcc
      push_neg at hcc
      norm_num [MAX_WIDTH] at hcc ⊢
      linarith
  set w2 : ℚ :=
    if (MAX_PIXELS : ℚ) < w1 * h1q then
      ((max 1 (floorMulSqrt w1 ((MAX_PIXELS : ℚ) / (w1 * h1q))) : ℕ) : ℚ)
    else w1 with hw2
  set h2q : ℚ :=
    if (MAX_PIXELS : ℚ) < w1 * h1q then
      ((max 1 (floorMulSqrt h1q ((MAX_PIXELS : ℚ) / (w1 * h1q))) : ℕ) : ℚ)
    else h1q with hh2
  by_cases h3 : jsFloor w2 < 1 ∨ jsFloor h2q < 1
  · rw [if_pos h3] at hp
    exact absurd hp (by simp)
  rw [if_neg h3] at hp
  push_neg at h3
  obtain ⟨hw3, hh3⟩ := h3
  have hww : w = (jsFloor w2).toNat := by
    have := Option.some.inj hp
    exact (Prod.mk.injEq _ _ _ _ ▸ this).1.symm
  have hhh : h = (jsFloor h2q).toNat := by
    have := Option.some.inj hp
    exact (Prod.mk.injEq _ _ _ _ ▸ this).2.symm
  refine ⟨by omega, ?_, by omega⟩
  have hle : jsFloor w2 ≤ 500 := by
    rw [hw2]
    split
    · rename_i hcond
      rw [jsFloor_natCast]
      have hprod : (0 : ℚ) < w1 * h1q := lt_trans (by norm_num [MAX_PIXELS]) hcond
      have hqle : (MAX_PIXELS : ℚ) / (w1 * h1q) ≤ 1 :=
        (div_le_one hprod).mpr (le_of_lt hcond)
      have hq0a : (0 : ℚ) ≤ (MAX_PIXELS : ℚ) / (w1 * h1q) :=
        div_nonneg (by norm_num [MAX_PIXELS]) (le_of_lt hprod)
      have := floorMulSqrt_le_500 w1 _ hw1pos hw1le hq0a hqle
      omega
    · rw [jsFloor_eq]
      have : (⌊w1⌋ : ℤ) ≤ ⌊(500 : ℚ)⌋ := Int.floor_le_floor hw1le
      simpa using this
  omega

/-- C4 counterexample: the claim's bounds fail on the code. With raw
dimensions 1 x 501 the produced height is 501 > 500 (only the width is
clamped to 500); with raw 1 x 1600000 the produced pixel count is
800000 > 400000 (the `max(1, ...)` floor lets the other dimension exceed
the budget); with raw 1000 x 999 the produced 500 x 499 does not preserve
the aspect ratio exactly (1000 * 499 is not 999 * 500); and with raw 1000 x 1
(finite and positive) no dimensions are produced at all. -/
theorem processDims_claim_counterexample :
    processDims (JSNum.val 1) (JSNum.val 501) = some (1, 501) ∧ ¬(501 ≤ 500) ∧
      processDims (JSNum.val 1) (JSNum.val 1600000) = some (1, 800000) ∧
      ¬(1 * 800000 ≤ MAX_PIXELS) ∧
      processDims (JSNum.val 1000) (JSNum.val 999) = some (500, 499) ∧
      ¬(1000 * 499 = 999 * 500) ∧
      processDims (JSNum.val 1000) (JSNum.val 1) = none := by
  exact ⟨by decide, by decide, by decide, by decide, by decide, by decide, by decide⟩

/-- C4 witness: the amended bounds at the concrete raw size 7 x 12. -/
theorem processDims_bounds_witness : 1 ≤ 7 ∧ 7 ≤ 500 ∧ 1 ≤ 12 :=
  processDims_bounds 7 12 7 12 (by decide)

/-- C3: `extractProfileFromImage` never throws (it is a total function of
the embedding) and returns the empty result on every degenerate input:
when a raw dimension is non-finite, when a raw dimension is non-positive,
when the foreground bounding box is less than 10 rows tall, and when the
maximum radius across all rows is less than 2 pixels. -/
theorem extractProfileFromImage_empty_on_degenerate (img : ImageInput)
    (opts : ExtractProfileOptions) :
    (img.rawW.isFinite = false ∨ img.rawH.isFinite = false →
        extractProfileFromImage img opts = emptyResult) ∧
      (∀ wq hq : ℚ, img.rawW = JSNum.val wq → img.rawH = JSNum.val hq →
        wq ≤ 0 ∨ hq ≤ 0 → extractProfileFromImage img opts = emptyResult) ∧
      (∀ w h : ℕ, processDims img.rawW img.rawH = some (w, h) →
        bboxHeight (pipeBBox w h (img.data w h) opts) < 10 →
        (extractProfileFromImage img opts).profile = []) ∧
      (∀ w h : ℕ, processDims img.rawW img.rawH = some (w, h) →
        pipeMaxRadius w h (img.data w h) opts < 2 →
        (extractProfileFromImage img opts).profile = []) := by
  refine ⟨?_, ?_, ?_, ?_⟩
  · intro hfin
    have hnone : processDims img.rawW img.rawH = none := by
      cases hw : img.rawW <;> cases hh : img.rawH <;>
        simp [processDims, JSNum.isFinite, hw, hh] at hfin ⊢
    simp [extractProfileFromImage, hnone]
  · intro wq hq hw hh hnp
    have hnone : processDims img.rawW img.rawH = none := by
      rw [hw, hh]
      simp only [processDims]
      rw [if_pos]
      rcases hnp with hc | hc
      · exact Or.inl (by linarith)
      · exact Or.inr (by linarith)
    simp [extractProfileFromImage, hnone]
  · intro w h hp h10
    simp only [extractProfileFromImage, hp]
    simp only [extractCore, if_pos h10]
  · intro w h hp hr
    simp only [extractProfileFromImage, hp]
    simp only [extractCore]
    by_cases h10 : bboxHeight (pipeBBox w h (img.data w h) opts) < 10
    · rw [if_pos h10]
    · rw [if_neg h10, if_pos hr]

/-- C3 witness: the four degenerate paths at concrete inputs: a NaN
height, a zero width, a 5-row-tall blob, and a single-column blob. -/
theorem extractProfileFromImage_empty_on_degenerate_witness :
    extractProfileFromImage imgNanHeight optsForced = emptyResult ∧
      extractProfileFromImage imgZeroWidth optsForced = emptyResult ∧
      (extractProfileFromImage imgShort optsForced).profile = [] ∧
      (extractProfileFromImage imgThin optsForced).profile = [] :=
  ⟨(extractProfileFromImage_empty_on_degenerate imgNanHeight optsForced).1
      (Or.inr (by decide)),
    (extractProfileFromImage_empty_on_degenerate imgZeroWidth optsForced).2.1
      0 10 rfl rfl (Or.inl (by norm_num)),
    (extractProfileFromImage_empty_on_degenerate imgShort optsForced).2.2.1
      7 12 (by decide) (by decide),
    (extractProfileFromImage_empty_on_degenerate imgThin optsForced).2.2.2
      7 12 (by decide) (by decide)⟩

/-- A `getD` value is a member of the list or the default. -/
theorem getD_mem_or {α : Type} (l : List α) (i : ℕ) (d : α) :
    l.getD i d ∈ l ∨ l.getD i d = d := by
  by_cases h : i < l.length
  · left
    rw [List.getD_eq_getElem l d h]
    exact List.getElem_mem h
  · right
    exact List.getD_eq_default l d (by omega)

/-- A `getD` at a valid index is a member of the list. -/
theorem getD_mem {α : Type} (l : List α) (i : ℕ) (d : α) (h : i < l.length) :
    l.getD i d ∈ l := by
  rw [List.getD_eq_getElem l d h]
  exact List.getElem_mem h

/-- The median filter preserves length. -/
theorem medianFilter_length (arr : List ℚ) (hw : ℕ) :
    (medianFilter arr hw).length = arr.length := by
  unfold medianFilter
  rw [List.length_map, List.length_range]

/-- The median filter preserves nonnegativity: every output entry is
either an input entry or the default 0. -/
theorem medianFilter_nonneg (arr : List ℚ) (hw : ℕ) (h0 : ∀ a ∈ arr, 0 ≤ a) :
    ∀ q ∈ medianFilter arr hw, 0 ≤ q := by
  intro q hq
  simp only [medianFilter, List.mem_map, List.mem_range] at hq
  obtain ⟨i, _, rfl⟩ := hq
  rcases getD_mem_or (List.insertionSort (· ≤ ·)
      ((List.range (2 * hw + 1)).map fun (j : ℕ) =>
        arr.getD (max 0 (min ((arr.length : ℤ) - 1)
          ((i : ℤ) + (j : ℤ) - (hw : ℤ)))).toNat 0)) _ 0 with
    hmem | hdef
  · have hbuf := (List.perm_insertionSort (· ≤ ·)
      ((List.range (2 * hw + 1)).map fun (j : ℕ) =>
        arr.getD (max 0 (min ((arr.length : ℤ) - 1)
          ((i : ℤ) + (j : ℤ) - (hw : ℤ)))).toNat 0)).mem_iff.mp hmem
    simp only [List.mem_map, List.mem_range] at hbuf
    obtain ⟨j, _, hj⟩ := hbuf
    rw [← hj]
    rcases getD_mem_or arr
        (max 0 (min ((arr.length : ℤ) - 1) ((i : ℤ) + (j : ℤ) - (hw : ℤ)))).toNat 0 with
      hm | hd
    · exact h0 _ hm
    · rw [hd]
  · rw [hdef]

/-- Every raw normalized point has both coordinates in `[0,1]` when the
smoothed radii are nonnegative. -/
theorem buildRawPoints_bounds (smoothed : List ℚ) (maxR : ℚ)
    (h0 : ∀ a ∈ smoothed, 0 ≤ a) :
    ∀ p ∈ buildRawPoints smoothed maxR, 0 ≤ p.x ∧ p.x ≤ 1 ∧ 0 ≤ p.y ∧ p.y ≤ 1 := by
  intro p hp
  simp only [buildRawPoints, List.mem_map, List.mem_range] at hp
  obtain ⟨i, hi, rfl⟩ := hp
  constructor
  · dsimp only
    split
    · rename_i hpos
      refine le_min (by norm_num) (div_nonneg ?_ (le_of_lt hpos))
      rcases getD_mem_or smoothed i 0 with hm | hd
      · exact h0 _ hm
      · rw [hd]
    · exact le_refl 0
  constructor
  · dsimp only
    split
    · exact min_le_left _ _
    · norm_num
  · dsimp only
    split
    · rename_i hlen
      have hq : (0 : ℚ) < (smoothed.length : ℚ) - 1 := by
        have : (2 : ℚ) ≤ (smoothed.length : ℚ) := by exact_mod_cast hlen
        linarith
      have hile : (i : ℚ) ≤ (smoothed.length : ℚ) - 1 := by
        have : (i : ℕ) + 1 ≤ smoothed.length := hi
        have h2 : ((i : ℕ) : ℚ) + 1 ≤ ((smoothed.length : ℕ) : ℚ) := by exact_mod_cast this
        linarith
      have hd0 : 0 ≤ (i : ℚ) / ((smoothed.length : ℚ) - 1) :=
        div_nonneg (by positivity) (le_of_lt hq)
      have hd1 : (i : ℚ) / ((smoothed.length : ℚ) - 1) ≤ 1 :=
        (div_le_one hq).mpr hile
      constructor <;> linarith
    · norm_num

/-- The picking fold of `nearestPoint` stays inside any set containing the
start and the scanned points. -/
theorem nearestPick_mem (yT : ℚ) (S : List ProfilePoint) :
    ∀ (l : List ProfilePoint) (acc : ProfilePoint × ℚ), acc.1 ∈ S → (∀ p ∈ l, p ∈ S) →
      ((l.foldl (fun b p => if |p.y - yT| < b.2 then (p, |p.y - yT|) else b) acc).1 ∈ S) := by
  intro l
  induction l with
  | nil => intro acc ha _; exact ha
  | cons a t ih =>
    intro acc ha hl
    simp only [List.foldl_cons]
    apply ih
    · dsimp only
      split
      · exact hl a (List.mem_cons_self a t)
      · exact ha
    · intro p hp
      exact hl p (List.mem_cons_of_mem a hp)

/-- The nearest-neighbour pick returns a member of a nonempty point list. -/
theorem nearestPoint_mem (pts : List ProfilePoint) (yT : ℚ) (hne : pts ≠ []) :
    nearestPoint pts yT ∈ pts := by
  unfold nearestPoint
  apply nearestPick_mem
  · cases pts with
    | nil => exact absurd rfl hne
    | cons a t => exact List.mem_cons_self a t
  · intro p hp
    exact List.mem_of_mem_drop hp

/-- Downsampled points come from the raw points. -/
theorem downsample_mem (pts : List ProfilePoint) (tp : ℕ) (hne : pts ≠ []) :
    ∀ p ∈ downsample pts tp, p ∈ pts := by
  intro p hp
  simp only [downsample, List.mem_map, List.mem_range] at hp
  obtain ⟨k, _, rfl⟩ := hp
  exact nearestPoint_mem pts _ hne

/-- The downsampler outputs exactly `targetPoints` points. -/
theorem downsample_length (pts : List ProfilePoint) (tp : ℕ) :
    (downsample pts tp).length = tp := by
  unfold downsample
  rw [List.length_map, List.length_range]

/-- Forcing the endpoint `y` values preserves length. -/
theorem forceEnds_length (out : List ProfilePoint) :
    (forceEnds out).length = out.length := by
  simp [forceEnds]

/-- The sort of `sortByY` really sorts by `y`. -/
theorem sortByY_sorted (l : List ProfilePoint) :
    (sortByY l).Sorted fun a b => a.y ≤ b.y := by
  unfold sortByY
  haveI : IsTotal ProfilePoint fun a b => a.y ≤ b.y := ⟨fun a b => le_total a.y b.y⟩
  haveI : IsTrans ProfilePoint fun a b => a.y ≤ b.y := ⟨fun a b c h1 h2 => le_trans h1 h2⟩
  exact List.sorted_insertionSort _ l

/-- The sort of `sortByY` is a permutation. -/
theorem sortByY_perm (l : List ProfilePoint) : (sortByY l).Perm l :=
  List.perm_insertionSort _ l

/-- Head of a `y`-sorted list containing a `y = 0` point, all of whose
points have `y ≥ 0`, has `y = 0`. -/
theorem headD_y_eq_zero (l : List ProfilePoint)
    (hs : l.Sorted fun a b => a.y ≤ b.y) (hex : ∃ p ∈ l, p.y = 0)
    (hall : ∀ p ∈ l, 0 ≤ p.y) : (l.headD ⟨0, 0⟩).y = 0 := by
  obtain ⟨p, hp, hpy⟩ := hex
  cases l with
  | nil => cases hp
  | cons a t =>
    simp only [List.headD]
    rcases List.mem_cons.mp hp with hpa | hpt
    · rw [← hpa]
      exact hpy
    · rw [List.sorted_cons] at hs
      have h1 := hs.1 p hpt
      have h2 := hall a (List.mem_cons_self a t)
      have h3 : a.y ≤ 0 := hpy ▸ h1
      linarith

/-- Last element of a `y`-sorted list containing a `y = 1` point, all of
whose points have `y ≤ 1`, has `y = 1`. -/
theorem getLastD_y_eq_one (l : List ProfilePoint) (d : ProfilePoint)
    (hs : l.Sorted fun a b => a.y ≤ b.y) (hex : ∃ p ∈ l, p.y = 1)
    (hall : ∀ p ∈ l, p.y ≤ 1) : (l.getLastD d).y = 1 := by
  induction l generalizing d with
  | nil => obtain ⟨p, hp, _⟩ := hex; cases hp
  | cons a t ih =>
    rw [List.getLastD_cons]
    cases t with
    | nil =>
      obtain ⟨p, hp, hpy⟩ := hex
      rcases List.mem_cons.mp hp with hpa | hpt
      · rw [List.getLastD]
        rw [← hpa]
        exact hpy
      · cases hpt
    | cons b t2 =>
      rw [List.sorted_cons] at hs
      apply ih a hs.2
      · obtain ⟨p, hp, hpy⟩ := hex
        rcases List.mem_cons.mp hp with hpa | hpt
        · refine ⟨b, List.mem_cons_self b t2, ?_⟩
          have h1 := hs.1 b (List.mem_cons_self b t2)
          have h2 := hall b (List.mem_cons_of_mem a (List.mem_cons_self b t2))
          rw [hpa] at hpy
          have h3 : (1 : ℚ) ≤ b.y := hpy ▸ h1
          linarith
        · exact ⟨p, hpt, hpy⟩
      · intro p hp
        exact hall p (List.mem_cons_of_mem a hp)

/-- The bounds, endpoint values and sortedness of `finalize`, for any
nonempty nonnegative smoothed radii and at least two target points. -/
theorem finalize_invariants (smoothed : List ℚ) (maxR : ℚ) (tp : ℕ)
    (h0 : ∀ a ∈ smoothed, 0 ≤ a) (hne : smoothed ≠ []) (htp : 2 ≤ tp) :
    ((finalize smoothed maxR tp).Sorted fun a b => a.y ≤ b.y) ∧
      ((finalize smoothed maxR tp).headD ⟨0, 0⟩).y = 0 ∧
      ((finalize smoothed maxR tp).getLastD ⟨0, 0⟩).y = 1 ∧
      ∀ p ∈ finalize smoothed maxR tp, 0 ≤ p.x ∧ p.x ≤ 1 ∧ 0 ≤ p.y ∧ p.y ≤ 1 := by
  have hrawne : buildRawPoints smoothed maxR ≠ [] := by
    have hl : (buildRawPoints smoothed maxR).length = smoothed.length := by
      unfold buildRawPoints
      rw [List.length_map, List.length_range]
    intro hcon
    rw [hcon] at hl
    exact hne (List.length_eq_zero.mp hl.symm)
  have hrawb := buildRawPoints_bounds smoothed maxR h0
  set dn := downsample (buildRawPoints smoothed maxR) tp with hdn
  have hdnb : ∀ p ∈ dn, 0 ≤ p.x ∧ p.x ≤ 1 ∧ 0 ≤ p.y ∧ p.y ≤ 1 := fun p hp =>
    hrawb p (downsample_mem _ _ hrawne p hp)
  have hdnl : dn.length = tp := downsample_length _ _
  set p0 : ProfilePoint := ⟨(dn.headD ⟨0, 0⟩).x, 0⟩ with hp0
  set o1 := dn.set 0 p0 with ho1
  set p1 : ProfilePoint := ⟨(o1.getD (o1.length - 1) ⟨0, 0⟩).x, 1⟩ with hp1
  have hfe : forceEnds dn = o1.set (o1.length - 1) p1 := rfl
  have ho1l : o1.length = tp := by rw [ho1, List.length_set, hdnl]
  have hp0b : 0 ≤ p0.x ∧ p0.x ≤ 1 ∧ 0 ≤ p0.y ∧ p0.y ≤ 1 := by
    have hh : dn.headD ⟨0, 0⟩ ∈ dn := by
      cases hd : dn with
      | nil => rw [hd, List.length_nil] at hdnl; omega
      | cons a t => simp [List.headD]
    have := hdnb _ hh
    exact ⟨this.1, this.2.1, by norm_num [hp0], by norm_num [hp0]⟩
  have hp1b : 0 ≤ p1.x ∧ p1.x ≤ 1 ∧ 0 ≤ p1.y ∧ p1.y ≤ 1 := by
    have hidx : o1.length - 1 < o1.length := by rw [ho1l]; omega
    have hmem : o1.getD (o1.length - 1) ⟨0, 0⟩ ∈ o1 := getD_mem _ _ _ hidx
    rcases List.mem_or_eq_of_mem_set (ho1 ▸ hmem) with hmm | hmm
    · have := hdnb _ hmm
      exact ⟨this.1, this.2.1, by norm_num [hp1], by norm_num [hp1]⟩
    · have := hp0b
      rw [hp1]
      rw [hmm]
      exact ⟨this.1, this.2.1, by norm_num, by norm_num⟩
  have hfb : ∀ p ∈ forceEnds dn, 0 ≤ p.x ∧ p.x ≤ 1 ∧ 0 ≤ p.y ∧ p.y ≤ 1 := by
    intro p hp
    rw [hfe] at hp
    rcases List.mem_or_eq_of_mem_set hp with hm1 | hm1
    · rcases List.mem_or_eq_of_mem_set hm1 with hm2 | hm2
      · exact hdnb p hm2
      · rw [hm2]; exact hp0b
    · rw [hm1]; exact hp1b
  have hfl : (forceEnds dn).length = tp := by rw [forceEnds_length, hdnl]
  have hfzero : ∃ p ∈ forceEnds dn, p.y = 0 := by
    refine ⟨(forceEnds dn).getD 0 ⟨0, 0⟩, getD_mem _ _ _ (by rw [hfl]; omega), ?_⟩
    rw [hfe]
    have hne1 : o1.length - 1 ≠ 0 := by rw [ho1l]; omega
    rw [List.getD_eq_getElem?_getD, List.getElem?_set_ne hne1]
    rw [ho1, List.getElem?_set_self (by rw [hdnl]; omega)]
    simp [hp0]
  have hfone : ∃ p ∈ forceEnds dn, p.y = 1 := by
    refine ⟨(forceEnds dn).getD (o1.length - 1) ⟨0, 0⟩,
      getD_mem _ _ _ (by rw [hfl, ho1l]; omega), ?_⟩
    rw [hfe]
    rw [List.getD_eq_getElem?_getD,
      List.getElem?_set_self (by rw [ho1l]; omega)]
    simp [hp1]
  have hperm := sortByY_perm (forceEnds dn)
  have hsorted := sortByY_sorted (forceEnds dn)
  have hfinb : ∀ p ∈ finalize smoothed maxR tp, 0 ≤ p.x ∧ p.x ≤ 1 ∧ 0 ≤ p.y ∧ p.y ≤ 1 := by
    intro p hp
    exact hfb p (hperm.mem_iff.mp hp)
  refine ⟨hsorted, ?_, ?_, hfinb⟩
  · apply headD_y_eq_zero _ hsorted
    · obtain ⟨p, hp, hpy⟩ := hfzero
      exact ⟨p, hperm.mem_iff.mpr hp, hpy⟩
    · intro p hp
      exact (hfinb p hp).2.2.1
  · apply getLastD_y_eq_one _ _ hsorted
    · obtain ⟨p, hp, hpy⟩ := hfone
      exact ⟨p, hperm.mem_iff.mpr hp, hpy⟩
    · intro p hp
      exact (hfinb p hp).2.2.2

/-- A nonempty profile comes from the non-degenerate branch: the
dimensions validated, both guards passed, and the profile is the
`finalize` of the (possibly median-filtered) radii. -/
theorem profile_branch (img : ImageInput) (opts : ExtractProfileOptions)
    (hne : (extractProfileFromImage img opts).profile ≠ []) :
    ∃ w h, processDims img.rawW img.rawH = some (w, h) ∧
      ¬bboxHeight (pipeBBox w h (img.data w h) opts) < 10 ∧
      ¬pipeMaxRadius w h (img.data w h) opts < 2 ∧
      (extractProfileFromImage img opts).profile =
        finalize
          (if 0 < opts.smoothing.getD 2 then
            medianFilter ((pipeRadii w h (img.data w h) opts).map fun (r : ℕ) => (r : ℚ))
              (min (opts.smoothing.getD 2) 5)
          else (pipeRadii w h (img.data w h) opts).map fun (r : ℕ) => (r : ℚ))
          ((pipeMaxRadius w h (img.data w h) opts : ℕ) : ℚ) (targetPointsOf opts) := by
  cases hp : processDims img.rawW img.rawH with
  | none =>
    exfalso
    apply hne
    simp [extractProfileFromImage, hp, emptyResult]
  | some p =>
    obtain ⟨w, h⟩ := p
    refine ⟨w, h, rfl, ?_⟩
    simp only [extractProfileFromImage, hp] at hne ⊢
    by_cases h10 : bboxHeight (pipeBBox w h (img.data w h) opts) < 10
    · exfalso
      apply hne
      simp [extractCore, if_pos h10]
    by_cases hr : pipeMaxRadius w h (img.data w h) opts < 2
    · exfalso
      apply hne
      simp only [extractCore, if_neg h10, if_pos hr]
    refine ⟨h10, hr, ?_⟩
    simp only [extractCore, if_neg h10, if_neg hr]

/-- Entries of the smoothed radii are nonnegative (for either smoothing
branch). -/
theorem smoothed_nonneg (radii : List ℕ) (sm : ℕ) (hw : ℕ) :
    ∀ a ∈ (if 0 < sm then medianFilter (radii.map fun (r : ℕ) => (r : ℚ)) hw
      else radii.map fun (r : ℕ) => (r : ℚ)), 0 ≤ a := by
  have hbase : ∀ a ∈ radii.map fun r => ((r : ℕ) : ℚ), 0 ≤ a := by
    intro a ha
    rw [List.mem_map] at ha
    obtain ⟨r, _, rfl⟩ := ha
    positivity
  split
  · exact medianFilter_nonneg _ _ hbase
  · exact hbase

/-- The per-row radius list has one entry per bounding-box row. -/
theorem pipeRadii_length (w h : ℕ) (data : ℕ → ℕ) (opts : ExtractProfileOptions) :
    (pipeRadii w h data opts).length =
      (pipeBBox w h data opts).yMax + 1 - (pipeBBox w h data opts).yMin := by
  simp [pipeRadii, radiusByRowOf]

/-- C1: whenever `extractProfileFromImage` returns a nonempty profile, the
points are sorted non-decreasing by `y`, the first point has `y = 0`, the
last point has `y = 1`, and every coordinate lies in `[0, 1]`. -/
theorem profile_invariants (img : ImageInput) (opts : ExtractProfileOptions)
    (hne : (extractProfileFromImage img opts).profile ≠ []) :
    ((extractProfileFromImage img opts).profile.Sorted fun a b => a.y ≤ b.y) ∧
      (((extractProfileFromImage img opts).profile.headD ⟨0, 0⟩).y = 0) ∧
      (((extractProfileFromImage img opts).profile.getLastD ⟨0, 0⟩).y = 1) ∧
      ∀ p ∈ (extractProfileFromImage img opts).profile,
        0 ≤ p.x ∧ p.x ≤ 1 ∧ 0 ≤ p.y ∧ p.y ≤ 1 := by
  obtain ⟨w, h, hp, h10, hr, heq⟩ := profile_branch img opts hne
  rw [heq]
  apply finalize_invariants
  · exact smoothed_nonneg _ _ _
  · have hlen10 : 10 ≤ (pipeRadii w h (img.data w h) opts).length := by
      rw [pipeRadii_length]
      unfold bboxHeight at h10
      omega
    split
    · intro hcon
      have := medianFilter_length
        ((pipeRadii w h (img.data w h) opts).map fun (r : ℕ) => (r : ℚ))
        (min (opts.smoothing.getD 2) 5)
      rw [hcon, List.length_nil, List.length_map] at this
      omega
    · intro hcon
      have := congrArg List.length hcon
      rw [List.length_map, List.length_nil] at this
      omega
  · have h8 : 8 ≤ targetPointsOf opts := le_max_left _ _
    omega

/-- C1 witness: the stripe image with forced polarity yields a nonempty
profile satisfying all the invariants. -/
theorem profile_invariants_witness :
    (extractProfileFromImage imgStripes optsForced).profile ≠ [] ∧
      ((extractProfileFromImage imgStripes optsForced).profile.Sorted
        fun a b => a.y ≤ b.y) ∧
      (((extractProfileFromImage imgStripes optsForced).profile.headD ⟨0, 0⟩).y = 0) ∧
      (((extractProfileFromImage imgStripes optsForced).profile.getLastD ⟨0, 0⟩).y = 1) ∧
      ∀ p ∈ (extractProfileFromImage imgStripes optsForced).profile,
        0 ≤ p.x ∧ p.x ≤ 1 ∧ 0 ≤ p.y ∧ p.y ≤ 1 := by
  have hne : (extractProfileFromImage imgStripes optsForced).profile ≠ [] := by decide
  exact ⟨hne, profile_invariants imgStripes optsForced hne⟩

/-- C2: whenever `extractProfileFromImage` returns a nonempty profile, its
length is the requested `targetPoints` clamped to `[8, 24]` (default 18),
and in particular lies between 8 and 24. -/
theorem profile_length_clamped (img : ImageInput) (opts : ExtractProfileOptions)
    (hne : (extractProfileFromImage img opts).profile ≠ []) :
    (extractProfileFromImage img opts).profile.length =
        max 8 (min 24 (opts.targetPoints.getD DEFAULT_TARGET_POINTS)) ∧
      8 ≤ (extractProfileFromImage img opts).profile.length ∧
      (extractProfileFromImage img opts).profile.length ≤ 24 := by
  obtain ⟨w, h, hp, h10, hr, heq⟩ := profile_branch img opts hne
  have hlen : (extractProfileFromImage img opts).profile.length = targetPointsOf opts := by
    rw [heq]
    unfold finalize sortByY
    rw [List.length_insertionSort, forceEnds_length, downsample_length]
  refine ⟨hlen, ?_, ?_⟩
  · rw [hlen]
    exact le_max_left _ _
  · rw [hlen]
    exact max_le (by norm_num) (min_le_left _ _)

/-- C2 witness: the stripe image with `targetPoints = 8` yields a profile
of length exactly 8. -/
theorem profile_length_clamped_witness :
    (extractProfileFromImage imgStripes optsForced).profile ≠ [] ∧
      (extractProfileFromImage imgStripes optsForced).profile.length =
        max 8 (min 24 (optsForced.targetPoints.getD DEFAULT_TARGET_POINTS)) ∧
      8 ≤ (extractProfileFromImage imgStripes optsForced).profile.length ∧
      (extractProfileFromImage imgStripes optsForced).profile.length ≤ 24 := by
  have hne : (extractProfileFromImage imgStripes optsForced).profile ≠ [] := by decide
  exact ⟨hne, profile_length_clamped imgStripes optsForced hne⟩

/-- A replicate of `false` reads `false` everywhere. -/
theorem replicate_false_getD (n i : ℕ) :
    (List.replicate n false).getD i false = false := by
  rcases getD_mem_or (List.replicate n false) i false with hm | hd
  · exact List.eq_of_mem_replicate hm
  · exact hd

/-- Reading a mapped range at a valid index. -/
theorem map_range_getD {α : Type} (f : ℕ → α) (n x : ℕ) (d : α) (hx : x < n) :
    ((List.range n).map f).getD x d = f x := by
  rw [List.getD_eq_getElem?_getD, List.getElem?_map, List.getElem?_range hx]
  rfl

/-- `firstTrue` finds a true entry, and nothing before it is true. -/
theorem firstTrue_some (row : List Bool) (l : ℕ) (h : firstTrue row = some l) :
    l < row.length ∧ row.getD l false = true ∧ ∀ x < l, row.getD x false = false := by
  induction row generalizing l with
  | nil => cases h
  | cons b t ih =>
    rw [firstTrue] at h
    by_cases hb : b = true
    · rw [if_pos hb] at h
      obtain rfl : l = 0 := by cases h; rfl
      exact ⟨by simp, hb, by omega⟩
    · rw [if_neg hb] at h
      cases hf : firstTrue t with
      | none => rw [hf] at h; cases h
      | some l' =>
        rw [hf] at h
        obtain rfl : l = l' + 1 := by cases h; rfl
        obtain ⟨h1, h2, h3⟩ := ih l' hf
        refine ⟨by simpa using h1, by simpa using h2, ?_⟩
        intro x hx
        cases x with
        | zero => simpa using Bool.eq_false_iff.mpr hb
        | succ x' => simpa using h3 x' (by omega)

/-- If `firstTrue` finds nothing, the row is all false. -/
theorem firstTrue_none (row : List Bool) (h : firstTrue row = none) :
    ∀ x, row.getD x false = false := by
  induction row with
  | nil => intro x; cases x <;> rfl
  | cons b t ih =>
    rw [firstTrue] at h
    by_cases hb : b = true
    · rw [if_pos hb] at h; cases h
    · rw [if_neg hb] at h
      intro x
      cases x with
      | zero => simpa using Bool.eq_false_iff.mpr hb
      | succ x' =>
        have ht : firstTrue t = none := by
          cases hf : firstTrue t with
          | none => rfl
          | some l' => rw [hf] at h; cases h
        simpa using ih ht x'

/-- Characterize `firstTrue` from a pointwise description. -/
theorem firstTrue_intro (row : List Bool) (l : ℕ) (h1 : l < row.length)
    (h2 : row.getD l false = true) (h3 : ∀ x < l, row.getD x false = false) :
    firstTrue row = some l := by
  induction row generalizing l with
  | nil => simp at h1
  | cons b t ih =>
    rw [firstTrue]
    by_cases hb : b = true
    · rw [if_pos hb]
      cases l with
      | zero => rfl
      | succ l' =>
        have := h3 0 (by omega)
        simp [hb] at this
    · rw [if_neg hb]
      cases l with
      | zero =>
        simp only [List.getD_cons_zero] at h2
        exact absurd h2 hb
      | succ l' =>
        have ht : firstTrue t = some l' := by
          apply ih l' (by simpa using h1) (by simpa using h2)
          intro x hx
          simpa using h3 (x + 1) (by omega)
        rw [ht]
        rfl

/-- If `lastTrue` finds nothing, the row is all false. -/
theorem lastTrue_none_all (row : List Bool) (h : lastTrue row = none) :
    ∀ x, row.getD x false = false := by
  induction row with
  | nil => intro x; cases x <;> rfl
  | cons b t ih =>
    rw [lastTrue] at h
    cases hl : lastTrue t with
    | some i => rw [hl] at h; cases h
    | none =>
      rw [hl] at h
      by_cases hb : b = true
      · rw [if_pos hb] at h; cases h
      · rw [if_neg hb] at h
        intro x
        cases x with
        | zero => simpa using Bool.eq_false_iff.mpr hb
        | succ x' => simpa using ih hl x'

/-- `lastTrue` finds a true entry, and nothing after it is true. -/
theorem lastTrue_some (row : List Bool) (r : ℕ) (h : lastTrue row = some r) :
    r < row.length ∧ row.getD r false = true ∧ ∀ x, r < x → row.getD x false = false := by
  induction row generalizing r with
  | nil => cases h
  | cons b t ih =>
    rw [lastTrue] at h
    cases hl : lastTrue t with
    | some i =>
      rw [hl] at h
      obtain rfl : r = i + 1 := by cases h; rfl
      obtain ⟨h1, h2, h3⟩ := ih i hl
      refine ⟨by simpa using h1, by simpa using h2, ?_⟩
      intro x hx
      cases x with
      | zero => omega
      | succ x' => simpa using h3 x' (by omega)
    | none =>
      rw [hl] at h
      by_cases hb : b = true
      · rw [if_pos hb] at h
        obtain rfl : r = 0 := by cases h; rfl
        refine ⟨by simp, by simpa using hb, ?_⟩
        intro x hx
        cases x with
        | zero => omega
        | succ x' => simpa using lastTrue_none_all t hl x'
      · rw [if_neg hb] at h
        cases h

/-- Characterize `lastTrue` from a pointwise description. -/
theorem lastTrue_intro (row : List Bool) (r : ℕ) (h1 : r < row.length)
    (h2 : row.getD r false = true) (h3 : ∀ x, r < x → row.getD x false = false) :
    lastTrue row = some r := by
  induction row generalizing r with
  | nil => simp at h1
  | cons b t ih =>
    rw [lastTrue]
    cases r with
    | zero =>
      have ht : lastTrue t = none := by
        cases hl : lastTrue t with
        | none => rfl
        | some i =>
          obtain ⟨hi1, hi2, _⟩ := lastTrue_some t i hl
          have := h3 (i + 1) (by omega)
          simp only [List.getD_cons_succ] at this
          rw [this] at hi2
          cases hi2
      rw [ht]
      simp only [List.getD_cons_zero] at h2
      rw [if_pos h2]
    | succ r' =>
      have ht : lastTrue t = some r' := by
        apply ih r' (by simpa using h1) (by simpa using h2)
        intro x hx
        simpa using h3 (x + 1) (by omega)
      rw [ht]

/-- The span fill preserves row length. -/
theorem spanFillRow_length (row : List Bool) :
    (spanFillRow row).length = row.length := by
  unfold spanFillRow
  cases firstTrue row <;> cases lastTrue row <;>
    simp [List.length_replicate, List.length_map, List.length_range]
  split <;> simp [List.length_replicate, List.length_map, List.length_range]

/-- If the row has a first and a last true entry, the first is at or before
the last. -/
theorem firstTrue_le_lastTrue (row : List Bool) (l r : ℕ)
    (hf : firstTrue row = some l) (hl : lastTrue row = some r) : l ≤ r := by
  obtain ⟨_, hf2, _⟩ := firstTrue_some row l hf
  obtain ⟨_, _, hl3⟩ := lastTrue_some row r hl
  by_contra hc
  push_neg at hc
  have := hl3 l hc
  rw [this] at hf2
  cases hf2

/-- Reading the span fill when the row has foreground. -/
theorem spanFillRow_getD_some (row : List Bool) (l r x : ℕ)
    (hf : firstTrue row = some l) (hl : lastTrue row = some r) (hx : x < row.length) :
    (spanFillRow row).getD x false = decide (l ≤ x ∧ x ≤ r) := by
  have hlr := firstTrue_le_lastTrue row l r hf hl
  simp only [spanFillRow, hf, hl]
  rw [if_pos hlr]
  exact map_range_getD _ _ _ _ hx

/-- Reading the span fill of an all-background row. -/
theorem spanFillRow_getD_none (row : List Bool) (x : ℕ)
    (h : firstTrue row = none ∨ lastTrue row = none) :
    (spanFillRow row).getD x false = false := by
  rcases h with h | h
  · simp only [spanFillRow, h]
    exact replicate_false_getD _ _
  · cases hf : firstTrue row with
    | none =>
      simp only [spanFillRow, hf]
      exact replicate_false_getD _ _
    | some l =>
      simp only [spanFillRow, hf, h]
      exact replicate_false_getD _ _

/-- The span fill is idempotent on one row. -/
theorem spanFillRow_idem (row : List Bool) :
    spanFillRow (spanFillRow row) = spanFillRow row := by
  cases hf : firstTrue row with
  | none =>
    have hrow : spanFillRow row = List.replicate row.length false := by
      simp only [spanFillRow, hf]
    rw [hrow]
    have hfn : firstTrue (List.replicate row.length false) = none := by
      cases hff : firstTrue (List.replicate row.length false) with
      | none => rfl
      | some l =>
        obtain ⟨h1, h2, _⟩ := firstTrue_some _ l hff
        rw [replicate_false_getD] at h2
        cases h2
    simp only [spanFillRow, hfn]
    rw [List.length_replicate]
  | some l =>
    cases hl : lastTrue row with
    | none =>
      obtain ⟨_, hf2, _⟩ := firstTrue_some row l hf
      have := lastTrue_none_all row hl l
      rw [this] at hf2
      cases hf2
    | some r =>
      have hlr : l ≤ r := firstTrue_le_lastTrue row l r hf hl
      obtain ⟨hfl, _, _⟩ := firstTrue_some row l hf
      obtain ⟨hrl, _, _⟩ := lastTrue_some row r hl
      have hrow : spanFillRow row =
          (List.range row.length).map fun x => decide (l ≤ x ∧ x ≤ r) := by
        simp only [spanFillRow, hf, hl]
        rw [if_pos hlr]
      have hlen : (spanFillRow row).length = row.length := spanFillRow_length row
      have hgd : ∀ x < row.length,
          (spanFillRow row).getD x false = decide (l ≤ x ∧ x ≤ r) := fun x hx =>
        spanFillRow_getD_some row l r x hf hl hx
      have hf2 : firstTrue (spanFillRow row) = some l := by
        apply firstTrue_intro _ _ (by omega)
        · rw [hgd l hfl]
          simp [hlr]
        · intro x hx
          rw [hgd x (by omega)]
          simp
          omega
      have hl2 : lastTrue (spanFillRow row) = some r := by
        apply lastTrue_intro _ _ (by omega)
        · rw [hgd r hrl]
          simp [hlr]
        · intro x hx
          by_cases hxl : x < (spanFillRow row).length
          · rw [hgd x (by omega)]
            simp
            omega
          · exact List.getD_eq_default _ _ (by omega)
      set F := spanFillRow row with hFdef
      calc spanFillRow F
          = (List.range F.length).map fun x => decide (l ≤ x ∧ x ≤ r) := by
            simp only [spanFillRow, hf2, hl2]
            rw [if_pos hlr]
        _ = F := by rw [hlen, hrow]

/-- Reading one pixel out of a flat map of uniform-width rows. -/
theorem flatMap_getD_uniform {α : Type} (g : ℕ → List α) (w : ℕ) (d : α) :
    ∀ (ys : List ℕ), (∀ y ∈ ys, (g y).length = w) → ∀ k x : ℕ, x < w → k < ys.length →
      (ys.flatMap g).getD (k * w + x) d = (g (ys.getD k 0)).getD x d := by
  intro ys
  induction ys with
  | nil => intro _ k x _ hk; simp at hk
  | cons y t ih =>
    intro hlen k x hx hk
    rw [List.flatMap_cons]
    cases k with
    | zero =>
      rw [List.getD_append _ _ _ _ (by rw [hlen y (List.mem_cons_self y t)]; omega)]
      simp
    | succ k' =>
      rw [List.getD_append_right _ _ _ _
        (by rw [hlen y (List.mem_cons_self y t)]; ring_nf; omega)]
      rw [hlen y (List.mem_cons_self y t)]
      have harith : (k' + 1) * w + x - w = k' * w + x := by ring_nf; omega
      rw [harith]
      rw [ih (fun z hz => hlen z (List.mem_cons_of_mem y hz)) k' x hx (by simpa using hk)]
      simp

/-- The row of a flat map of uniform-width rows. -/
theorem flatMap_rowOf {g : ℕ → List Bool} {w : ℕ} :
    ∀ (ys : List ℕ), (∀ y ∈ ys, (g y).length = w) → ∀ k : ℕ, k < ys.length →
      rowOf (ys.flatMap g) w k = g (ys.getD k 0) := by
  intro ys
  induction ys with
  | nil => intro _ k hk; simp at hk
  | cons y t ih =>
    intro hlen k hk
    rw [List.flatMap_cons]
    cases k with
    | zero =>
      unfold rowOf
      simp only [Nat.zero_mul, List.drop_zero]
      rw [← hlen y (List.mem_cons_self y t), List.take_append_of_le_length le_rfl,
        List.take_length]
      simp
    | succ k' =>
      unfold rowOf
      have harith : (k' + 1) * w = (g y).length + k' * w := by
        rw [hlen y (List.mem_cons_self y t)]; ring
      rw [harith, List.drop_append]
      have := ih (fun z hz => hlen z (List.mem_cons_of_mem y hz)) k' (by simpa using hk)
      unfold rowOf at this
      rw [this]
      simp

/-- Pointwise-equal row functions give the same flat map. -/
theorem flatMap_congr_mem {α : Type} (f g : ℕ → List α) :
    ∀ (l : List ℕ), (∀ a ∈ l, f a = g a) → l.flatMap f = l.flatMap g := by
  intro l
  induction l with
  | nil => intro _; rfl
  | cons a t ih =>
    intro h
    rw [List.flatMap_cons, List.flatMap_cons, h a (List.mem_cons_self a t),
      ih fun z hz => h z (List.mem_cons_of_mem a hz)]

/-- Rows of a `w*h` mask have length `w`. -/
theorem rowOf_length (fg : List Bool) (w h y : ℕ) (hlen : fg.length = w * h)
    (hy : y < h) : (rowOf fg w y).length = w := by
  unfold rowOf
  rw [List.length_take, List.length_drop, hlen]
  have h1 : y * w + w ≤ w * h := by
    calc y * w + w = (y + 1) * w := by ring
      _ ≤ h * w := Nat.mul_le_mul_right w hy
      _ = w * h := Nat.mul_comm h w
  omega

/-- Reading a row of a flat mask. -/
theorem rowOf_getD (fg : List Bool) (w y x : ℕ) (hx : x < w) :
    (rowOf fg w y).getD x false = fg.getD (y * w + x) false := by
  unfold rowOf
  rw [List.getD_eq_getElem?_getD, List.getD_eq_getElem?_getD,
    List.getElem?_take, if_pos hx, List.getElem?_drop]

/-- Reading the outer contour at pixel `(x, y)`. -/
theorem extractOuterContour_getD (fg : List Bool) (w h y x : ℕ)
    (hlen : fg.length = w * h) (hy : y < h) (hx : x < w) :
    (extractOuterContour fg w h).getD (y * w + x) false =
      (spanFillRow (rowOf fg w y)).getD x false := by
  unfold extractOuterContour
  have hu : ∀ z ∈ List.range h, (spanFillRow (rowOf fg w z)).length = w := by
    intro z hz
    rw [spanFillRow_length, rowOf_length fg w h z hlen (List.mem_range.mp hz)]
  rw [flatMap_getD_uniform _ w false (List.range h) hu y x hx (by simpa using hy)]
  congr 2
  rw [List.getD_eq_getElem, List.getElem_range]
  rwa [List.length_range]

/-- C10: the per-row span fill `extractOuterContour` is extensive (every
foreground pixel stays foreground), produces rows that are single
contiguous runs, and is idempotent. -/
theorem extractOuterContour_props (fg : List Bool) (w h : ℕ)
    (hlen : fg.length = w * h) :
    (∀ i < w * h, fg.getD i false = true →
        (extractOuterContour fg w h).getD i false = true) ∧
      (∀ y < h, ∀ x1 x2 x3 : ℕ, x1 ≤ x2 → x2 ≤ x3 → x3 < w →
        (extractOuterContour fg w h).getD (y * w + x1) false = true →
        (extractOuterContour fg w h).getD (y * w + x3) false = true →
        (extractOuterContour fg w h).getD (y * w + x2) false = true) ∧
      extractOuterContour (extractOuterContour fg w h) w h =
        extractOuterContour fg w h := by
  have hw : ∀ i, i < w * h → 0 < w := by
    intro i hi
    rcases Nat.eq_zero_or_pos w with hw0 | hw0
    · rw [hw0] at hi; simp at hi
    · exact hw0
  refine ⟨?_, ?_, ?_⟩
  · intro i hi hfg
    have hwpos := hw i hi
    have hy : i / w < h := Nat.div_lt_of_lt_mul hi
    have hx : i % w < w := Nat.mod_lt i hwpos
    have hieq : i / w * w + i % w = i := by
      rw [Nat.mul_comm]
      exact Nat.div_add_mod i w
    rw [← hieq] at hfg ⊢
    rw [extractOuterContour_getD fg w h _ _ hlen hy hx]
    have hrow : (rowOf fg w (i / w)).getD (i % w) false = true := by
      rw [rowOf_getD fg w _ _ hx]
      exact hfg
    have hrl : (rowOf fg w (i / w)).length = w := rowOf_length fg w h _ hlen hy
    cases hf : firstTrue (rowOf fg w (i / w)) with
    | none =>
      have := firstTrue_none _ hf (i % w)
      rw [this] at hrow
      cases hrow
    | some l =>
      cases hl : lastTrue (rowOf fg w (i / w)) with
      | none =>
        have := lastTrue_none_all _ hl (i % w)
        rw [this] at hrow
        cases hrow
      | some r =>
        rw [spanFillRow_getD_some _ l r _ hf hl (by omega)]
        obtain ⟨_, _, hf3⟩ := firstTrue_some _ l hf
        obtain ⟨_, _, hl3⟩ := lastTrue_some _ r hl
        have hlx : l ≤ i % w := by
          by_contra hc
          push_neg at hc
          have := hf3 (i % w) hc
          rw [this] at hrow
          cases hrow
        have hxr : i % w ≤ r := by
          by_contra hc
          push_neg at hc
          have := hl3 (i % w) hc
          rw [this] at hrow
          cases hrow
        simp [hlx, hxr]
  · intro y hy x1 x2 x3 h12 h23 h3w ht1 ht3
    have hx1 : x1 < w := by omega
    have hx2 : x2 < w := by omega
    rw [extractOuterContour_getD fg w h y x1 hlen hy hx1] at ht1
    rw [extractOuterContour_getD fg w h y x3 hlen hy h3w] at ht3
    rw [extractOuterContour_getD fg w h y x2 hlen hy hx2]
    have hrl : (rowOf fg w y).length = w := rowOf_length fg w h y hlen hy
    cases hf : firstTrue (rowOf fg w y) with
    | none =>
      rw [spanFillRow_getD_none _ _ (Or.inl hf)] at ht1
      cases ht1
    | some l =>
      cases hl : lastTrue (rowOf fg w y) with
      | none =>
        rw [spanFillRow_getD_none _ _ (Or.inr hl)] at ht1
        cases ht1
      | some r =>
        rw [spanFillRow_getD_some _ l r _ hf hl (by omega)] at ht1
        rw [spanFillRow_getD_some _ l r _ hf hl (by omega)] at ht3
        rw [spanFillRow_getD_some _ l r _ hf hl (by omega)]
        simp only [decide_eq_true_eq] at ht1 ht3 ⊢
        omega
  · unfold extractOuterContour
    have hu : ∀ z ∈ List.range h, (spanFillRow (rowOf fg w z)).length = w := by
      intro z hz
      rw [spanFillRow_length, rowOf_length fg w h z hlen (List.mem_range.mp hz)]
    apply flatMap_congr_mem
    intro y hy
    have hyh := List.mem_range.mp hy
    have hrow := flatMap_rowOf (List.range h) hu y (by simpa using hyh)
    have hyy : (List.range h).getD y 0 = y := by
      rw [List.getD_eq_getElem, List.getElem_range]
      rwa [List.length_range]
    rw [hyy] at hrow
    rw [hrow]
    exact spanFillRow_idem _

/-- C10 witness: the gap mask `[true, false, true, false]` on a 4x1 grid. -/
theorem extractOuterContour_props_witness :
    gapMask.length = 4 * 1 ∧
      (∀ i < 4 * 1, gapMask.getD i false = true →
        (extractOuterContour gapMask 4 1).getD i false = true) ∧
      (∀ y < 1, ∀ x1 x2 x3 : ℕ, x1 ≤ x2 → x2 ≤ x3 → x3 < 4 →
        (extractOuterContour gapMask 4 1).getD (y * 4 + x1) false = true →
        (extractOuterContour gapMask 4 1).getD (y * 4 + x3) false = true →
        (extractOuterContour gapMask 4 1).getD (y * 4 + x2) false = true) ∧
      extractOuterContour (extractOuterContour gapMask 4 1) 4 1 =
        extractOuterContour gapMask 4 1 := by
  have hlen : gapMask.length = 4 * 1 := by decide
  exact ⟨hlen, extractOuterContour_props gapMask 4 1 hlen⟩

/-- Binning a natural-valued intensity at most 255 is the identity. -/
theorem jsBin_natCast (n : ℕ) (hn : n ≤ 255) : jsBin ((n : ℕ) : ℚ) = (n : ℤ) := by
  unfold jsBin
  rw [jsFloor_natCast]
  omega

/-- The histogram is a `countP`. -/
theorem histOf_eq_countP (gray : List ℚ) (t : ℕ) :
    histOf gray t = gray.countP fun g => jsBin g == (t : ℤ) :=
  (List.countP_eq_length_filter _ _).symm

/-- A step of the Otsu scan on a zero histogram bin from the initial
all-background state is a no-op (the `continue` branch). -/
theorem otsuStep_zero (hist : ℕ → ℕ) (total sum : ℕ) (M : ℚ) (T t : ℕ)
    (h : hist t = 0) :
    otsuStep hist total sum ⟨0, 0, M, T, false⟩ t = ⟨0, 0, M, T, false⟩ := by
  simp [otsuStep, h]

/-- A step of the Otsu scan on a state that is already done is a no-op. -/
theorem otsuStep_done (hist : ℕ → ℕ) (total sum : ℕ) (s : OtsuState) (t : ℕ)
    (h : s.done = true) : otsuStep hist total sum s t = s := by
  simp [otsuStep, h]

/-- A step of the Otsu scan on a zero bin, from a live state whose
recomputed variance does not beat the maximum, is a no-op. -/
theorem otsuStep_stall (hist : ℕ → ℕ) (total sum : ℕ) (s : OtsuState) (t : ℕ)
    (h : hist t = 0) (hdone : s.done = false) (hwB : s.wB ≠ 0)
    (hwF : total - s.wB ≠ 0)
    (hvar : ¬ s.maxVar < (s.wB : ℚ) * ((total - s.wB : ℕ) : ℚ) *
      ((s.sumB : ℚ) / (s.wB : ℚ) -
        ((sum : ℚ) - (s.sumB : ℚ)) / ((total - s.wB : ℕ) : ℚ)) ^ 2) :
    otsuStep hist total sum s t = s := by
  obtain ⟨wB, sumB, maxVar, bestT, done⟩ := s
  simp only at hdone
  subst hdone
  simp only [otsuStep, Bool.false_eq_true, if_false, h, Nat.add_zero, Nat.mul_zero] at *
  rw [if_neg hwB, if_neg hwF, if_neg hvar]

/-- The Otsu scan hitting the first spike `a` of a two-spike histogram
from the initial state: the background becomes the `a`-class, the
between-class variance `na*nb*(a-b)^2` is positive, and `a` is recorded as
the best threshold. -/
theorem otsuStep_first (hist : ℕ → ℕ) (total sum a b na nb : ℕ)
    (hha : hist a = na) (hna : 0 < na) (hnb : 0 < nb) (htot : total = na + nb)
    (hsum : sum = a * na + b * nb) (hab : a < b) :
    otsuStep hist total sum ⟨0, 0, 0, 0, false⟩ a =
      ⟨na, a * na, (na : ℚ) * (nb : ℚ) * ((a : ℚ) - (b : ℚ)) ^ 2, a, false⟩ := by
  have hwB : ¬ (0 + hist a = 0) := by omega
  have hwF : ¬ (total - (0 + hist a) = 0) := by omega
  simp only [otsuStep, Bool.false_eq_true, if_false]
  rw [if_neg hwB, if_neg hwF]
  have e1 : 0 + hist a = na := by omega
  have e2 : total - (0 + hist a) = nb := by omega
  have e3 : 0 + a * hist a = a * na := by rw [hha]; omega
  rw [e2, e1, e3]
  have hmB : ((a * na : ℕ) : ℚ) / (na : ℚ) = (a : ℚ) := by
    have hna' : (na : ℚ) ≠ 0 := by exact_mod_cast hna.ne'
    push_cast
    field_simp
  have hmF : ((sum : ℚ) - ((a * na : ℕ) : ℚ)) / (nb : ℚ) = (b : ℚ) := by
    have hnb' : (nb : ℚ) ≠ 0 := by exact_mod_cast hnb.ne'
    rw [hsum]
    push_cast
    field_simp
  rw [hmB, hmF]
  have hpos : (0 : ℚ) < (na : ℚ) * (nb : ℚ) * ((a : ℚ) - (b : ℚ)) ^ 2 := by
    have hne : (a : ℚ) - (b : ℚ) ≠ 0 := by
      have : (a : ℚ) ≠ (b : ℚ) := by exact_mod_cast hab.ne
      exact sub_ne_zero.mpr this
    have h1 : (0 : ℚ) < (na : ℚ) := by exact_mod_cast hna
    have h2 : (0 : ℚ) < (nb : ℚ) := by exact_mod_cast hnb
    have h3 : (0 : ℚ) < ((a : ℚ) - (b : ℚ)) ^ 2 := pow_two_pos_of_ne_zero hne
    exact mul_pos (mul_pos h1 h2) h3
  rw [if_pos hpos]

/-- The Otsu scan hitting the second spike `b` of a two-spike histogram:
the background absorbs the whole image and the loop breaks, leaving the
recorded best threshold unchanged. -/
theorem otsuStep_second (hist : ℕ → ℕ) (total sum b na nb : ℕ) (sB : ℕ) (V : ℚ) (T : ℕ)
    (hhb : hist b = nb) (hna : 0 < na) (htot : total = na + nb) :
    otsuStep hist total sum ⟨na, sB, V, T, false⟩ b = ⟨total, sB, V, T, true⟩ := by
  have hwB : ¬ (na + hist b = 0) := by omega
  have hwF : total - (na + hist b) = 0 := by omega
  simp only [otsuStep, Bool.false_eq_true, if_false]
  rw [if_neg hwB, if_pos hwF]
  rw [hhb, htot]

/-- A step of the Otsu scan between the two spikes: the recomputed
variance equals the recorded maximum exactly, so the strict `>` keeps the
earlier best threshold and the state is unchanged. -/
theorem otsuStep_mid (hist : ℕ → ℕ) (total sum a b na nb t : ℕ)
    (h0 : hist t = 0) (hna : 0 < na) (hnb : 0 < nb) (htot : total = na + nb)
    (hsum : sum = a * na + b * nb) :
    otsuStep hist total sum
        ⟨na, a * na, (na : ℚ) * (nb : ℚ) * ((a : ℚ) - (b : ℚ)) ^ 2, a, false⟩ t =
      ⟨na, a * na, (na : ℚ) * (nb : ℚ) * ((a : ℚ) - (b : ℚ)) ^ 2, a, false⟩ := by
  have hwB : ¬ (na + hist t = 0) := by omega
  have hwF : ¬ (total - (na + hist t) = 0) := by omega
  simp only [otsuStep, Bool.false_eq_true, if_false]
  rw [if_neg hwB, if_neg hwF]
  have e2 : total - (na + hist t) = nb := by omega
  have e1 : na + hist t = na := by omega
  have e3 : a * na + t * hist t = a * na := by rw [h0]; omega
  rw [e2, e1, e3]
  have hmB : ((a * na : ℕ) : ℚ) / (na : ℚ) = (a : ℚ) := by
    have hna' : (na : ℚ) ≠ 0 := by exact_mod_cast hna.ne'
    push_cast
    field_simp
  have hmF : ((sum : ℚ) - ((a * na : ℕ) : ℚ)) / (nb : ℚ) = (b : ℚ) := by
    have hnb' : (nb : ℚ) ≠ 0 := by exact_mod_cast hnb.ne'
    rw [hsum]
    push_cast
    field_simp
  rw [hmB, hmF]
  rw [if_neg (lt_irrefl _)]

/-- Folding an accumulating sum is adding the mapped sum. -/
theorem foldl_add_map (f : ℕ → ℕ) :
    ∀ (l : List ℕ) (z : ℕ), l.foldl (fun acc i => acc + f i) z = z + (l.map f).sum := by
  intro l
  induction l with
  | nil => intro z; simp
  | cons x t ih =>
    intro z
    rw [List.foldl_cons, ih, List.map_cons, List.sum_cons]
    omega

/-- The sum of a two-point indicator over an initial range. -/
theorem two_point_sum (va vb a b : ℕ) (hab : a ≠ b) :
    ∀ n : ℕ, ((List.range n).map fun i => if i = a then va else if i = b then vb else 0).sum =
      (if a < n then va else 0) + (if b < n then vb else 0) := by
  intro n
  induction n with
  | zero => simp
  | succ m ih =>
    rw [List.range_succ, List.map_append, List.sum_append, ih]
    simp only [List.map_cons, List.map_nil, List.sum_cons, List.sum_nil]
    split_ifs <;> omega

/-- C5 (amended): on a two-spike histogram with well-separated peaks at
`a < b ≤ 255`, both classes nonempty, `otsuThreshold` returns exactly `a`:
every candidate in `[a, b)` attains the same (maximal) between-class
variance, and the strict `>` comparison retains the lowest, so the result
satisfies `a ≤ t < b` but never `a < t`. -/
theorem otsuThreshold_two_spike (gray : List ℚ) (a b : ℕ)
    (hab : a < b) (hb : b ≤ 255)
    (hmem : ∀ g ∈ gray, g = ((a : ℕ) : ℚ) ∨ g = ((b : ℕ) : ℚ))
    (hea : ((a : ℕ) : ℚ) ∈ gray) (heb : ((b : ℕ) : ℚ) ∈ gray) :
    otsuThreshold gray = a := by
  have hbina : jsBin ((a : ℕ) : ℚ) = (a : ℤ) := jsBin_natCast a (by omega)
  have hbinb : jsBin ((b : ℕ) : ℚ) = (b : ℤ) := jsBin_natCast b hb
  have hna : 0 < histOf gray a := by
    rw [histOf_eq_countP, List.countP_pos_iff]
    exact ⟨_, hea, by rw [hbina]; exact beq_self_eq_true _⟩
  have hnb : 0 < histOf gray b := by
    rw [histOf_eq_countP, List.countP_pos_iff]
    exact ⟨_, heb, by rw [hbinb]; exact beq_self_eq_true _⟩
  have hzero : ∀ t : ℕ, t ≠ a → t ≠ b → histOf gray t = 0 := by
    intro t hta htb
    rw [histOf_eq_countP]
    rw [List.countP_eq_zero]
    intro g hg
    rcases hmem g hg with rfl | rfl
    · rw [hbina]
      simp only [beq_iff_eq, Int.natCast_inj]
      omega
    · rw [hbinb]
      simp only [beq_iff_eq, Int.natCast_inj]
      omega
  have htot : gray.length = histOf gray a + histOf gray b := by
    rw [histOf_eq_countP, histOf_eq_countP]
    rw [List.length_eq_countP_add_countP (fun g => jsBin g == (a : ℤ)) gray]
    congr 1
    apply List.countP_congr
    intro g hg
    rcases hmem g hg with rfl | rfl
    · simp [hbina, Int.natCast_inj]
      omega
    · simp [hbinb, Int.natCast_inj]
      omega
  have hsum : (List.range 256).foldl (fun acc i => acc + i * histOf gray i) 0 =
      a * histOf gray a + b * histOf gray b := by
    rw [foldl_add_map]
    have hmap : (List.range 256).map (fun i => i * histOf gray i) =
        (List.range 256).map fun i =>
          if i = a then a * histOf gray a else if i = b then b * histOf gray b else 0 := by
      apply List.map_congr_left
      intro i _
      rcases eq_or_ne i a with rfl | hia
      · rw [if_pos rfl]
      · rcases eq_or_ne i b with rfl | hib
        · rw [if_neg hia, if_pos rfl]
        · rw [if_neg hia, if_neg hib, hzero i hia hib, Nat.mul_zero]
    rw [hmap, two_point_sum _ _ _ _ (by omega)]
    rw [if_pos (by omega : a < 256), if_pos (by omega : b < 256)]
    omega
  have hfold : ∀ k : ℕ,
      (List.range k).foldl
          (otsuStep (histOf gray) gray.length
            (a * histOf gray a + b * histOf gray b))
          ⟨0, 0, 0, 0, false⟩ =
        if k ≤ a then (⟨0, 0, 0, 0, false⟩ : OtsuState)
        else if k ≤ b then
          ⟨histOf gray a, a * histOf gray a,
            (histOf gray a : ℚ) * (histOf gray b : ℚ) * ((a : ℚ) - (b : ℚ)) ^ 2, a, false⟩
        else
          ⟨gray.length, a * histOf gray a,
            (histOf gray a : ℚ) * (histOf gray b : ℚ) * ((a : ℚ) - (b : ℚ)) ^ 2, a, true⟩ := by
    intro k
    induction k with
    | zero => simp
    | succ m ih =>
      rw [List.range_succ, List.foldl_append, ih]
      simp only [List.foldl_cons, List.foldl_nil]
      rcases lt_trichotomy m a with hma | hma | hma
      · rw [if_pos (by omega : m ≤ a)]
        rw [otsuStep_zero _ _ _ _ _ _ (hzero m (by omega) (by omega))]
        rw [if_pos (by omega : m + 1 ≤ a)]
      · subst hma
        rw [if_pos le_rfl]
        rw [otsuStep_first _ _ _ _ b (histOf gray m) (histOf gray b) rfl hna hnb htot rfl
          hab]
        rw [if_neg (by omega : ¬ m + 1 ≤ m), if_pos (by omega : m + 1 ≤ b)]
      · rcases lt_trichotomy m b with hmb | hmb | hmb
        · rw [if_neg (by omega : ¬ m ≤ a), if_pos (by omega : m ≤ b)]
          rw [otsuStep_mid _ _ _ _ _ _ _ _ (hzero m (by omega) (by omega)) hna hnb htot rfl]
          rw [if_neg (by omega : ¬ m + 1 ≤ a), if_pos (by omega : m + 1 ≤ b)]
        · subst hmb
          rw [if_neg (by omega : ¬ m ≤ a), if_pos le_rfl]
          rw [otsuStep_second _ _ _ _ _ _ _ _ _ rfl hna htot]
          rw [if_neg (by omega : ¬ m + 1 ≤ a), if_neg (by omega : ¬ m + 1 ≤ m)]
        · rw [if_neg (by omega : ¬ m ≤ a), if_neg (by omega : ¬ m ≤ b)]
          rw [otsuStep_done _ _ _ _ _ rfl]
          rw [if_neg (by omega : ¬ m + 1 ≤ a), if_neg (by omega : ¬ m + 1 ≤ b)]
  show ((List.range 256).foldl
      (otsuStep (histOf gray) gray.length
        ((List.range 256).foldl (fun acc i => acc + i * histOf gray i) 0))
      ⟨0, 0, 0, 0, false⟩).bestT = a
  rw [hsum, hfold 256]
  rw [if_neg (by omega : ¬ 256 ≤ a), if_neg (by omega : ¬ 256 ≤ b)]

/-- C5 counterexample: the claim's strict bound `a < t` fails. On the
two-spike image `[10, 200]` the returned threshold is exactly 10, the
lower spike, not strictly between 10 and 200. -/
theorem otsuThreshold_strict_counterexample :
    otsuThreshold [((10 : ℕ) : ℚ), ((200 : ℕ) : ℚ)] = 10 ∧
      ¬(10 < otsuThreshold [((10 : ℕ) : ℚ), ((200 : ℕ) : ℚ)] ∧
        otsuThreshold [((10 : ℕ) : ℚ), ((200 : ℕ) : ℚ)] < 200) := by
  constructor
  · decide
  · intro hc
    have h10 : otsuThreshold [((10 : ℕ) : ℚ), ((200 : ℕ) : ℚ)] = 10 := by decide
    omega

/-- C5 witness: the amended theorem applied to the two-pixel image
`[10, 200]`. -/
theorem otsuThreshold_two_spike_witness :
    otsuThreshold [((10 : ℕ) : ℚ), ((200 : ℕ) : ℚ)] = 10 :=
  otsuThreshold_two_spike [((10 : ℕ) : ℚ), ((200 : ℕ) : ℚ)] 10 200
    (by omega) (by omega) (by decide) (by decide) (by decide)

/-- The degeneracy test of the spec decides the fraction condition. -/
theorem specDegenerate_iff (m : List Bool) (total : ℕ) :
    specDegenerate m total = true ↔
      ((m.countP id : ℚ) / (total : ℚ) < 12 / 100 ∨
        88 / 100 < (m.countP id : ℚ) / (total : ℚ)) := by
  unfold specDegenerate
  simp [Bool.or_eq_true, decide_eq_true_eq]

/-- The code's automatic-polarity mask coincides with the spec's
three-tier fallback description. -/
theorem autoMask_eq_specThreeTier (gray : List ℚ) (w h : ℕ) (t : ℚ) :
    autoMask gray w h t = specThreeTier gray w h t := by
  unfold autoMask specThreeTier
  dsimp only
  set bg := (detectBackgroundColor gray w h).1 with hbg
  set m1 := binarize gray t (!bg) with hm1
  set m2 := binarize gray t (!(!bg)) with hm2
  set mAlt := binarize gray
    (if bg then max 0 (min 255 (t - 30)) else max 0 (min 255 (t + 30))) (!bg) with hmAlt
  by_cases h1 : (m1.countP id : ℚ) / (gray.length : ℚ) < 12 / 100 ∨
      88 / 100 < (m1.countP id : ℚ) / (gray.length : ℚ)
  · rw [if_pos h1]
    have hb1 : specDegenerate m1 gray.length = true := (specDegenerate_iff _ _).mpr h1
    rw [if_pos hb1]
    by_cases h2 : (m2.countP id : ℚ) / (gray.length : ℚ) < 12 / 100 ∨
        88 / 100 < (m2.countP id : ℚ) / (gray.length : ℚ)
    · rw [if_pos h2]
      have hb2 : specDegenerate m2 gray.length = true := (specDegenerate_iff _ _).mpr h2
      rw [if_pos hb2]
      by_cases h3 : 12 / 100 ≤ (mAlt.countP id : ℚ) / (gray.length : ℚ) ∧
          (mAlt.countP id : ℚ) / (gray.length : ℚ) ≤ 88 / 100
      · rw [if_pos h3]
        have hb3 : specDegenerate mAlt gray.length = false := by
          rw [Bool.eq_false_iff]
          intro hc
          rcases (specDegenerate_iff _ _).mp hc with hc1 | hc1
          · linarith [h3.1]
          · linarith [h3.2]
        rw [hb3]
        rfl
      · rw [if_neg h3]
        have hb3 : specDegenerate mAlt gray.length = true := by
          rw [specDegenerate_iff]
          rcases not_and_or.mp h3 with hc | hc
          · exact Or.inl (by linarith [not_le.mp hc])
          · exact Or.inr (by linarith [not_le.mp hc])
        rw [hb3]
        rfl
    · rw [if_neg h2]
      have hb2 : ¬ specDegenerate m2 gray.length = true := by
        rw [specDegenerate_iff]
        exact h2
      rw [if_neg hb2]
  · rw [if_neg h1, if_neg h1]
    have hb1 : ¬ specDegenerate m1 gray.length = true := by
      rw [specDegenerate_iff]
      exact h1
    rw [if_neg hb1]

/-- C6: when `options.invert` is unset, the mask entering the
post-processing stage is exactly the spec's three-tier polarity fallback
of the effective threshold, with no further retries. -/
theorem pipeFg_three_tier (w h : ℕ) (data : ℕ → ℕ) (opts : ExtractProfileOptions)
    (hinv : opts.invert = none) :
    pipeFg w h data opts =
      maskAfterCleanup
        (specThreeTier (pipeGray w h data opts) w h
          (effectiveThreshold (pipeGray w h data opts) opts)) w h
        (opts.cleanup.getD 0) := by
  unfold pipeFg chosenMask
  rw [hinv]
  dsimp only
  rw [autoMask_eq_specThreeTier]

/-- C6 witness: the three-tier description of the mask at a concrete
image and automatic-polarity options. -/
theorem pipeFg_three_tier_witness :
    optsAuto.invert = none ∧
      pipeFg 7 12 (imgStripes.data 7 12) optsAuto =
        maskAfterCleanup
          (specThreeTier (pipeGray 7 12 (imgStripes.data 7 12) optsAuto) 7 12
            (effectiveThreshold (pipeGray 7 12 (imgStripes.data 7 12) optsAuto) optsAuto))
          7 12 (optsAuto.cleanup.getD 0) :=
  ⟨rfl, pipeFg_three_tier 7 12 (imgStripes.data 7 12) optsAuto rfl⟩

theorem getD_set_self (l : List ℕ) (i a : ℕ) (h : i < l.length) :
    (l.set i a).getD i 0 = a := by
  rw [List.getD_eq_getElem?_getD, List.getElem?_set_self (by simpa using h)]
  rfl

theorem getD_set_ne (l : List ℕ) (i j a : ℕ) (h : i ≠ j) :
    (l.set i a).getD j 0 = l.getD j 0 := by
  rw [List.getD_eq_getElem?_getD, List.getElem?_set_ne h, ← List.getD_eq_getElem?_getD]

theorem getD_append_lt (l l' : List ℕ) (i : ℕ) (h : i < l.length) :
    (l ++ l').getD i 0 = l.getD i 0 := by
  rw [List.getD_eq_getElem?_getD, List.getElem?_append_left h,
    ← List.getD_eq_getElem?_getD]

theorem getD_pos_lt (l : List ℕ) (i : ℕ) (h : l.getD i 0 ≠ 0) : i < l.length := by
  by_contra hc
  rw [List.getD_eq_default _ _ (le_of_not_lt hc)] at h
  exact h rfl

theorem fgp_lt (fg : List Bool) (i : ℕ) (h : fg.getD i false = true) :
    i < fg.length := by
  by_contra hc
  rw [List.getD_eq_default _ _ (le_of_not_lt hc)] at h
  exact Bool.false_ne_true h

theorem rootF_succ (fuel : ℕ) (parent : List ℕ) (x : ℕ) :
    rootF (fuel + 1) parent x =
      if parent.getD x 0 = x then x else rootF fuel parent (parent.getD x 0) := rfl

/-- The root function does not depend on the fuel once it exceeds the
label, thanks to `parent[x] ≤ x`. -/
theorem rootF_fuel (parent : List ℕ) (next : ℕ) (hwf : ParentWF parent next) :
    ∀ x, 1 ≤ x → x < next → ∀ f1 f2, x < f1 → x < f2 →
      rootF f1 parent x = rootF f2 parent x := by
  intro x
  induction x using Nat.strong_induction_on with
  | _ x ih =>
    intro hx1 hxn f1 f2 hf1 hf2
    obtain ⟨g1, rfl⟩ : ∃ g, f1 = g + 1 := ⟨f1 - 1, by omega⟩
    obtain ⟨g2, rfl⟩ : ∃ g, f2 = g + 1 := ⟨f2 - 1, by omega⟩
    rw [rootF_succ, rootF_succ]
    by_cases hp : parent.getD x 0 = x
    · rw [if_pos hp, if_pos hp]
    · rw [if_neg hp, if_neg hp]
      have hb := hwf.2 x hx1 hxn
      have hlt : parent.getD x 0 < x := lt_of_le_of_ne hb.2 hp
      exact ih _ hlt hb.1 (hlt.trans hxn) g1 g2 (by omega) (by omega)

/-- The root of a live label is a live fixpoint of the parent array and is
no greater than the label. -/
theorem rootOf_spec (parent : List ℕ) (next : ℕ) (hwf : ParentWF parent next) :
    ∀ x, 1 ≤ x → x < next →
      parent.getD (rootOf parent x) 0 = rootOf parent x ∧
      1 ≤ rootOf parent x ∧ rootOf parent x ≤ x := by
  intro x
  induction x using Nat.strong_induction_on with
  | _ x ih =>
    intro hx1 hxn
    unfold rootOf
    rw [rootF_succ]
    by_cases hp : parent.getD x 0 = x
    · rw [if_pos hp]
      exact ⟨hp, hx1, le_refl x⟩
    · rw [if_neg hp]
      have hb := hwf.2 x hx1 hxn
      have hlt : parent.getD x 0 < x := lt_of_le_of_ne hb.2 hp
      have heq : rootF x parent (parent.getD x 0) = rootOf parent (parent.getD x 0) :=
        rootF_fuel parent next hwf _ hb.1 (hlt.trans hxn) x _ (by omega) (by omega)
      rw [heq]
      have h3 := ih _ hlt hb.1 (hlt.trans hxn)
      exact ⟨h3.1, h3.2.1, h3.2.2.trans (le_of_lt hlt)⟩

theorem rootOf_fix (parent : List ℕ) (x : ℕ) (h : parent.getD x 0 = x) :
    rootOf parent x = x := by
  unfold rootOf
  rw [rootF_succ, if_pos h]

theorem rootOf_step (parent : List ℕ) (next : ℕ) (hwf : ParentWF parent next)
    (x : ℕ) (hx1 : 1 ≤ x) (hxn : x < next) (hp : parent.getD x 0 ≠ x) :
    rootOf parent x = rootOf parent (parent.getD x 0) := by
  unfold rootOf
  rw [rootF_succ, if_neg hp]
  have hb := hwf.2 x hx1 hxn
  have hlt : parent.getD x 0 < x := lt_of_le_of_ne hb.2 hp
  exact rootF_fuel parent next hwf _ hb.1 (hlt.trans hxn) x _ (by omega) (by omega)

/-- A live label equal to its own root is a fixpoint of the parent array. -/
theorem rootOf_self_fix (parent : List ℕ) (next : ℕ) (hwf : ParentWF parent next)
    (x : ℕ) (hx1 : 1 ≤ x) (hxn : x < next) (h : rootOf parent x = x) :
    parent.getD x 0 = x := by
  by_contra hp
  have hb := hwf.2 x hx1 hxn
  have hlt : parent.getD x 0 < x := lt_of_le_of_ne hb.2 hp
  have hstep := rootOf_step parent next hwf x hx1 hxn hp
  have hle := (rootOf_spec parent next hwf _ hb.1 (hlt.trans hxn)).2.2
  omega

/-- Overwriting a live label's parent with its own root (path compression)
preserves well-formedness and every live label's root. -/
theorem rootOf_set (parent : List ℕ) (next : ℕ) (hwf : ParentWF parent next)
    (x r : ℕ) (hx1 : 1 ≤ x) (hxn : x < next) (hr : r = rootOf parent x) :
    ParentWF (parent.set x r) next ∧
    ∀ y, 1 ≤ y → y < next → rootOf (parent.set x r) y = rootOf parent y := by
  have hroot := rootOf_spec parent next hwf x hx1 hxn
  have hxl : x < parent.length := by rw [hwf.1]; exact hxn
  have hwf' : ParentWF (parent.set x r) next := by
    refine ⟨by rw [List.length_set]; exact hwf.1, ?_⟩
    intro z hz1 hzn
    by_cases hzx : z = x
    · subst hzx
      rw [getD_set_self _ _ _ hxl]
      exact ⟨hr ▸ hroot.2.1, hr ▸ hroot.2.2⟩
    · rw [getD_set_ne _ _ _ _ (fun he => hzx he.symm)]
      exact hwf.2 z hz1 hzn
  refine ⟨hwf', ?_⟩
  intro y
  induction y using Nat.strong_induction_on with
  | _ y ih =>
    intro hy1 hyn
    by_cases hyx : y = x
    · subst hyx
      have hg : (parent.set y r).getD y 0 = r := getD_set_self _ _ _ hxl
      by_cases hry : r = y
      · rw [rootOf_fix _ _ (hg.trans hry), ← hr, hry]
      · have hrlt : r < y := lt_of_le_of_ne (hr ▸ hroot.2.2) hry
        have hfix : (parent.set y r).getD r 0 = r := by
          rw [getD_set_ne _ _ _ _ (fun he => hry he.symm), hr]
          exact hroot.1
        rw [rootOf_step _ next hwf' y hy1 hyn (by rw [hg]; exact hry), hg,
          rootOf_fix _ _ hfix]
        exact hr
    · have hg : (parent.set x r).getD y 0 = parent.getD y 0 :=
        getD_set_ne _ _ _ _ (fun he => hyx he.symm)
      by_cases hq : parent.getD y 0 = y
      · rw [rootOf_fix _ _ (hg.trans hq), rootOf_fix _ _ hq]
      · have hb := hwf.2 y hy1 hyn
        have hlt : parent.getD y 0 < y := lt_of_le_of_ne hb.2 hq
        rw [rootOf_step _ next hwf' y hy1 hyn (hg ▸ hq), hg,
          rootOf_step _ next hwf y hy1 hyn hq]
        exact ih _ hlt hb.1 (hlt.trans hyn)

theorem ufFind_succ (fuel : ℕ) (parent : List ℕ) (x : ℕ) :
    ufFind (fuel + 1) parent x =
      if parent.getD x 0 = x then (x, parent)
      else ((ufFind fuel parent (parent.getD x 0)).1,
        (ufFind fuel parent (parent.getD x 0)).2.set x
          (ufFind fuel parent (parent.getD x 0)).1) := rfl

/-- `ufFind` does not depend on the fuel once it exceeds the label. -/
theorem ufFind_fuel (parent : List ℕ) (next : ℕ) (hwf : ParentWF parent next) :
    ∀ x, 1 ≤ x → x < next → ∀ f1 f2, x < f1 → x < f2 →
      ufFind f1 parent x = ufFind f2 parent x := by
  intro x
  induction x using Nat.strong_induction_on with
  | _ x ih =>
    intro hx1 hxn f1 f2 hf1 hf2
    obtain ⟨g1, rfl⟩ : ∃ g, f1 = g + 1 := ⟨f1 - 1, by omega⟩
    obtain ⟨g2, rfl⟩ : ∃ g, f2 = g + 1 := ⟨f2 - 1, by omega⟩
    rw [ufFind_succ, ufFind_succ]
    by_cases hp : parent.getD x 0 = x
    · rw [if_pos hp, if_pos hp]
    · rw [if_neg hp, if_neg hp]
      have hb := hwf.2 x hx1 hxn
      have hlt : parent.getD x 0 < x := lt_of_le_of_ne hb.2 hp
      rw [ih _ hlt hb.1 (hlt.trans hxn) g1 g2 (by omega) (by omega)]

/-- Correctness of path-compressing `ufFind` with fuel `x + 1`: it returns
the root of `x`, and the compressed parent array is well-formed with
unchanged roots. -/
theorem ufFind_spec (parent : List ℕ) (next : ℕ) (hwf : ParentWF parent next) :
    ∀ x, 1 ≤ x → x < next →
      (ufFind (x + 1) parent x).1 = rootOf parent x ∧
      ParentWF (ufFind (x + 1) parent x).2 next ∧
      ∀ y, 1 ≤ y → y < next →
        rootOf (ufFind (x + 1) parent x).2 y = rootOf parent y := by
  intro x
  induction x using Nat.strong_induction_on with
  | _ x ih =>
    intro hx1 hxn
    rw [ufFind_succ]
    by_cases hp : parent.getD x 0 = x
    · rw [if_pos hp]
      exact ⟨(rootOf_fix _ _ hp).symm, hwf, fun y _ _ => rfl⟩
    · rw [if_neg hp]
      have hb := hwf.2 x hx1 hxn
      have hlt : parent.getD x 0 < x := lt_of_le_of_ne hb.2 hp
      have hfuel : ufFind x parent (parent.getD x 0) =
          ufFind (parent.getD x 0 + 1) parent (parent.getD x 0) :=
        ufFind_fuel parent next hwf _ hb.1 (hlt.trans hxn) x _ hlt (by omega)
      rw [hfuel]
      obtain ⟨h1, h2, h3⟩ := ih _ hlt hb.1 (hlt.trans hxn)
      have hroot : rootOf parent x = rootOf parent (parent.getD x 0) :=
        rootOf_step parent next hwf x hx1 hxn hp
      have hr : (ufFind (parent.getD x 0 + 1) parent (parent.getD x 0)).1 =
          rootOf (ufFind (parent.getD x 0 + 1) parent (parent.getD x 0)).2 x := by
        rw [h1, h3 x hx1 hxn, hroot]
      refine ⟨by rw [h1, hroot], (rootOf_set _ next h2 x _ hx1 hxn hr).1, ?_⟩
      intro y hy1 hyn
      rw [(rootOf_set _ next h2 x _ hx1 hxn hr).2 y hy1 hyn, h3 y hy1 hyn]

/-- Allocating a fresh label keeps the parent array well-formed. -/
theorem parentWF_append (parent : List ℕ) (next : ℕ) (hwf : ParentWF parent next) :
    ParentWF (parent ++ [next]) (next + 1) := by
  refine ⟨by rw [List.length_append, hwf.1, List.length_singleton], ?_⟩
  intro x hx1 hxn
  by_cases hx : x < next
  · rw [getD_append_lt _ _ _ (by rw [hwf.1]; exact hx)]
    have := hwf.2 x hx1 hx
    omega
  · have hxx : x = next := by omega
    have hg : (parent ++ [next]).getD x 0 = next := by
      rw [hxx, List.getD_eq_getElem?_getD,
        List.getElem?_append_right (le_of_eq hwf.1), hwf.1]
      simp
    rw [hg]
    omega

/-- Allocating a fresh label does not change the roots of live labels. -/
theorem rootOf_append (parent : List ℕ) (next : ℕ) (hwf : ParentWF parent next) :
    ∀ y, 1 ≤ y → y < next → rootOf (parent ++ [next]) y = rootOf parent y := by
  intro y
  induction y using Nat.strong_induction_on with
  | _ y ih =>
    intro hy1 hyn
    have hg : (parent ++ [next]).getD y 0 = parent.getD y 0 :=
      getD_append_lt _ _ _ (by rw [hwf.1]; exact hyn)
    by_cases hq : parent.getD y 0 = y
    · rw [rootOf_fix _ _ (hg.trans hq), rootOf_fix _ _ hq]
    · have hb := hwf.2 y hy1 hyn
      have hlt : parent.getD y 0 < y := lt_of_le_of_ne hb.2 hq
      have hwf' := parentWF_append parent next hwf
      rw [rootOf_step _ (next + 1) hwf' y hy1 (by omega) (by rw [hg]; exact hq), hg,
        rootOf_step _ next hwf y hy1 hyn hq]
      exact ih _ hlt hb.1 (hlt.trans hyn)

/-- The fresh label is its own root after allocation. -/
theorem rootOf_append_new (parent : List ℕ) (next : ℕ) (hwf : ParentWF parent next) :
    rootOf (parent ++ [next]) next = next := by
  apply rootOf_fix
  rw [List.getD_eq_getElem?_getD, List.getElem?_append_right (le_of_eq hwf.1),
    hwf.1]
  simp

/-- Linking two live roots to their minimum: well-formedness is preserved
and every live label's root is rewritten through the union. -/
theorem rootOf_merge (parent : List ℕ) (next : ℕ) (hwf : ParentWF parent next)
    (rl ru : ℕ) (hl1 : 1 ≤ rl) (hln : rl < next) (hu1 : 1 ≤ ru) (hun : ru < next)
    (hlfix : parent.getD rl 0 = rl) (hufix : parent.getD ru 0 = ru) :
    ParentWF ((parent.set rl (min rl ru)).set ru (min rl ru)) next ∧
    ∀ y, 1 ≤ y → y < next →
      rootOf ((parent.set rl (min rl ru)).set ru (min rl ru)) y =
        if rootOf parent y = rl ∨ rootOf parent y = ru then min rl ru
        else rootOf parent y := by
  have hll : rl < parent.length := by rw [hwf.1]; exact hln
  have hul : ru < (parent.set rl (min rl ru)).length := by
    rw [List.length_set, hwf.1]; exact hun
  have hgu : ((parent.set rl (min rl ru)).set ru (min rl ru)).getD ru 0 = min rl ru :=
    getD_set_self _ _ _ hul
  have hgl : ((parent.set rl (min rl ru)).set ru (min rl ru)).getD rl 0 = min rl ru := by
    by_cases he : rl = ru
    · subst he; exact hgu
    · rw [getD_set_ne _ _ _ _ (fun h2 => he h2.symm)]
      exact getD_set_self _ _ _ hll
  have hother : ∀ z, z ≠ rl → z ≠ ru →
      ((parent.set rl (min rl ru)).set ru (min rl ru)).getD z 0 = parent.getD z 0 := by
    intro z hzl hzu
    rw [getD_set_ne _ _ _ _ (fun h2 => hzu h2.symm),
      getD_set_ne _ _ _ _ (fun h2 => hzl h2.symm)]
  have hwf' : ParentWF ((parent.set rl (min rl ru)).set ru (min rl ru)) next := by
    refine ⟨by rw [List.length_set, List.length_set]; exact hwf.1, ?_⟩
    intro z hz1 hzn
    by_cases hzu : z = ru
    · rw [hzu, hgu]; omega
    · by_cases hzl : z = rl
      · rw [hzl, hgl]; omega
      · rw [hother z hzl hzu]
        exact hwf.2 z hz1 hzn
  have hrfix : ((parent.set rl (min rl ru)).set ru (min rl ru)).getD (min rl ru) 0 =
      min rl ru := by
    rcases min_choice rl ru with h | h
    · nth_rewrite 3 [h]
      exact hgl
    · nth_rewrite 3 [h]
      exact hgu
  refine ⟨hwf', ?_⟩
  intro y
  induction y using Nat.strong_induction_on with
  | _ y ih =>
    intro hy1 hyn
    by_cases hyu : y = ru
    · rw [hyu, rootOf_fix _ _ hufix, if_pos (Or.inr rfl)]
      by_cases hm : min rl ru = ru
      · rw [rootOf_fix _ _ (hgu.trans hm)]
        exact hm.symm
      · rw [rootOf_step _ next hwf' ru hu1 hun (by rw [hgu]; exact hm), hgu,
          rootOf_fix _ _ hrfix]
    · by_cases hyl : y = rl
      · rw [hyl, rootOf_fix _ _ hlfix, if_pos (Or.inl rfl)]
        by_cases hm : min rl ru = rl
        · rw [rootOf_fix _ _ (hgl.trans hm)]
          exact hm.symm
        · rw [rootOf_step _ next hwf' rl hl1 hln (by rw [hgl]; exact hm), hgl,
            rootOf_fix _ _ hrfix]
      · have hg := hother y hyl hyu
        by_cases hq : parent.getD y 0 = y
        · rw [rootOf_fix _ _ (hg.trans hq), rootOf_fix _ _ hq,
            if_neg (by push_neg; exact ⟨hyl, hyu⟩)]
        · have hb := hwf.2 y hy1 hyn
          have hlt : parent.getD y 0 < y := lt_of_le_of_ne hb.2 hq
          rw [rootOf_step _ next hwf' y hy1 hyn (by rw [hg]; exact hq), hg,
            rootOf_step _ next hwf y hy1 hyn hq]
          exact ih _ hlt hb.1 (hlt.trans hyn)

theorem adjacent_symm (w i j : ℕ) (h : adjacent w i j) : adjacent w j i := by
  unfold adjacent at h ⊢
  omega

theorem connStep_symm (fg : List Bool) (w i j : ℕ) (h : connStep fg w i j) :
    connStep fg w j i :=
  ⟨h.2.1, h.1, adjacent_symm w i j h.2.2⟩

theorem conn_symm (fg : List Bool) (w i j : ℕ) (h : conn fg w i j) :
    conn fg w j i := by
  induction h with
  | refl => exact Relation.ReflTransGen.refl
  | tail _ hbc ih => exact Relation.ReflTransGen.head (connStep_symm fg w _ _ hbc) ih

theorem connUpTo_symm (fg : List Bool) (w K i j : ℕ) (h : connUpTo fg w K i j) :
    connUpTo fg w K j i := by
  induction h with
  | refl => exact Relation.ReflTransGen.refl
  | tail _ hbc ih =>
    exact Relation.ReflTransGen.head
      ⟨hbc.2.1, hbc.1, connStep_symm fg w _ _ hbc.2.2⟩ ih

theorem connUpTo_mono (fg : List Bool) (w K L i j : ℕ) (hK : K ≤ L)
    (h : connUpTo fg w K i j) : connUpTo fg w L i j := by
  induction h with
  | refl => exact Relation.ReflTransGen.refl
  | tail _ hbc ih => exact ih.tail ⟨by omega, by omega, hbc.2.2⟩

/-- Eliminator for prefix-restricted connectivity: any function constant
across restricted edges is constant along restricted paths. -/
theorem connUpTo_elim (fg : List Bool) (w K : ℕ) (F : ℕ → ℕ)
    (hedge : ∀ a b, a < K → b < K → connStep fg w a b → F a = F b) :
    ∀ i j, connUpTo fg w K i j → F i = F j := by
  intro i j h
  induction h with
  | refl => rfl
  | tail _ hbc ih => exact ih.trans (hedge _ _ hbc.1 hbc.2.1 hbc.2.2)

/-- If pixel `k` is not foreground, extending the scanned region to `k + 1`
adds no connections. -/
theorem connUpTo_succ_not_fg (fg : List Bool) (w k : ℕ)
    (hk : ¬ fg.getD k false = true) (i j : ℕ) :
    connUpTo fg w (k + 1) i j ↔ connUpTo fg w k i j := by
  constructor
  · intro h
    induction h with
    | refl => exact Relation.ReflTransGen.refl
    | tail _ hbc ih =>
      refine ih.tail ⟨?_, ?_, hbc.2.2⟩
      · have hfb := hbc.2.2.1
        have : _ ≠ k := fun he => hk (he ▸ hfb)
        omega
      · have hfc := hbc.2.2.2.1
        have : _ ≠ k := fun he => hk (he ▸ hfc)
        omega
  · exact connUpTo_mono fg w k (k + 1) i j (by omega)

/-- On a board of `n` pixels, unrestricted connectivity coincides with
connectivity within the first `n` pixels. -/
theorem conn_iff_connUpTo (fg : List Bool) (w n : ℕ) (hn : fg.length ≤ n)
    (i j : ℕ) : conn fg w i j ↔ connUpTo fg w n i j := by
  constructor
  · intro h
    induction h with
    | refl => exact Relation.ReflTransGen.refl
    | tail _ hbc ih =>
      exact ih.tail ⟨lt_of_lt_of_le (fgp_lt fg _ hbc.1) hn,
        lt_of_lt_of_le (fgp_lt fg _ hbc.2.1) hn, hbc⟩
  · intro h
    induction h with
    | refl => exact Relation.ReflTransGen.refl
    | tail _ hbc ih => exact ih.tail hbc.2.2

/-- The only possible already-scanned 4-neighbours of pixel `k` are its
left neighbour `k - 1` (same row) and its up neighbour `k - w`. -/
theorem step_to_last (w k a : ℕ) (h : a < k) (hadj : adjacent w a k) :
    (a + 1 = k ∧ 0 < k % w) ∨ (a + w = k ∧ w ≤ k ∧ 0 < w) := by
  unfold adjacent at hadj
  omega

theorem labelStep_not_fg (fg : List Bool) (w : ℕ) (s : LabState) (i : ℕ)
    (h : fg.getD i false = false) : labelStep fg w s i = s := by
  unfold labelStep
  rw [h]
  rfl

/-- Rebuilding the scan invariant at `k + 1` from a new parent array and a
new label for pixel `k`, given that the new roots are constant across edges
of the extended prefix and that equal new roots imply connectivity there. -/
theorem scanInv_rebuild (fg : List Bool) (w n k : ℕ) (hfgl : fg.length = n)
    (s : LabState) (hC1 : s.labels.length = n)
    (hC4 : ∀ i, i < k → fg.getD i false = true →
      1 ≤ s.labels.getD i 0 ∧ s.labels.getD i 0 < s.next)
    (hC5 : ∀ i, ¬(i < k ∧ fg.getD i false = true) → s.labels.getD i 0 = 0)
    (hfg : fg.getD k false = true)
    (P2 : List ℕ) (N2 lab : ℕ)
    (hnle : s.next ≤ N2) (hN2 : 1 ≤ N2)
    (hwf2 : ParentWF P2 N2)
    (hlab1 : 1 ≤ lab) (hlabN : lab < N2)
    (hedge : ∀ a b, a < k + 1 → b < k + 1 → connStep fg w a b →
      rootOf P2 ((s.labels.set k lab).getD a 0) =
        rootOf P2 ((s.labels.set k lab).getD b 0))
    (hback : ∀ i j, i < k + 1 → j < k + 1 → fg.getD i false = true →
      fg.getD j false = true →
      rootOf P2 ((s.labels.set k lab).getD i 0) =
        rootOf P2 ((s.labels.set k lab).getD j 0) →
      connUpTo fg w (k + 1) i j) :
    ScanInv fg w n (k + 1) ⟨s.labels.set k lab, P2, N2⟩ := by
  have hkn : k < n := hfgl ▸ fgp_lt fg k hfg
  have hkl : k < s.labels.length := by rw [hC1]; exact hkn
  refine ⟨by rw [List.length_set]; exact hC1, hN2, hwf2, ?_, ?_, ?_⟩
  · intro i hik hfi
    show 1 ≤ (s.labels.set k lab).getD i 0 ∧ (s.labels.set k lab).getD i 0 < N2
    by_cases hik' : i = k
    · rw [hik', getD_set_self _ _ _ hkl]
      exact ⟨hlab1, hlabN⟩
    · rw [getD_set_ne _ _ _ _ (fun he => hik' he.symm)]
      have := hC4 i (by omega) hfi
      omega
  · intro i hi
    have hik : i ≠ k := fun he => hi ⟨by omega, he ▸ hfg⟩
    rw [getD_set_ne _ _ _ _ (fun he => hik he.symm)]
    exact hC5 i (fun hcon => hi ⟨Nat.lt_succ_of_lt hcon.1, hcon.2⟩)
  · intro i j hik hjk hfi hfj
    constructor
    · exact hback i j hik hjk hfi hfj
    · exact connUpTo_elim fg w (k + 1)
        (fun a => rootOf P2 ((s.labels.set k lab).getD a 0))
        (fun a b ha hb hst => hedge a b ha hb hst) i j

/-- One step of the labeling scan preserves the invariant. -/
theorem scan_step (fg : List Bool) (w n k : ℕ) (hfgl : fg.length = n)
    (s : LabState) (h : ScanInv fg w n k s) :
    ScanInv fg w n (k + 1) (labelStep fg w s k) := by
  obtain ⟨hC1, hC2, hC3, hC4, hC5, hC6⟩ := h
  by_cases hfg : fg.getD k false = true
  case neg =>
    rw [labelStep_not_fg fg w s k (by simpa using hfg)]
    refine ⟨hC1, hC2, hC3, ?_, ?_, ?_⟩
    · intro i hik hf
      have hik' : i ≠ k := fun he => hfg (he ▸ hf)
      exact hC4 i (by omega) hf
    · intro i hi
      exact hC5 i (fun hcon => hi ⟨Nat.lt_succ_of_lt hcon.1, hcon.2⟩)
    · intro i j hik hjk hfi hfj
      have hik' : i < k := by
        have : i ≠ k := fun he => hfg (he ▸ hfi)
        omega
      have hjk' : j < k := by
        have : j ≠ k := fun he => hfg (he ▸ hfj)
        omega
      rw [connUpTo_succ_not_fg fg w k hfg i j]
      exact hC6 i j hik' hjk' hfi hfj
  case pos =>
    have hkn : k < n := hfgl ▸ fgp_lt fg k hfg
    have hmodk : 0 < k % w → 0 < k := by
      intro hm
      rcases Nat.eq_zero_or_pos k with h0 | h0
      · rw [h0, Nat.zero_mod] at hm
        exact absurd hm (lt_irrefl 0)
      · exact h0
    unfold labelStep
    rw [hfg]
    simp only [Bool.not_true, Bool.false_eq_true, if_false]
    set lv := (if 0 < k % w then s.labels.getD (k - 1) 0 else 0) with hlv
    set uv := (if w ≤ k then s.labels.getD (k - w) 0 else 0) with huv
    have hlv_ne : lv ≠ 0 → 0 < k % w ∧ fg.getD (k - 1) false = true ∧
        lv = s.labels.getD (k - 1) 0 ∧ 1 ≤ lv ∧ lv < s.next := by
      intro hne
      by_cases hmod : 0 < k % w
      · have hk0 := hmodk hmod
        have hl : lv = s.labels.getD (k - 1) 0 := by rw [hlv, if_pos hmod]
        have hfk : fg.getD (k - 1) false = true := by
          by_contra hc
          apply hne
          rw [hl]
          exact hC5 _ (fun hcon => hc hcon.2)
        have hb := hC4 (k - 1) (by omega) hfk
        exact ⟨hmod, hfk, hl, by omega, by omega⟩
      · exact absurd (by rw [hlv, if_neg hmod]) hne
    have huv_ne : uv ≠ 0 → w ≤ k ∧ 0 < w ∧ fg.getD (k - w) false = true ∧
        uv = s.labels.getD (k - w) 0 ∧ 1 ≤ uv ∧ uv < s.next := by
      intro hne
      by_cases hwk : w ≤ k
      · have hu : uv = s.labels.getD (k - w) 0 := by rw [huv, if_pos hwk]
        have hlt : (k - w) < k ∧ fg.getD (k - w) false = true := by
          by_contra hc
          apply hne
          rw [hu]
          exact hC5 _ (fun hcon => hc hcon)
        have hb := hC4 (k - w) hlt.1 hlt.2
        exact ⟨hwk, by omega, hlt.2, hu, by omega, by omega⟩
      · exact absurd (by rw [huv, if_neg hwk]) hne
    have hlv_of : 0 < k % w → fg.getD (k - 1) false = true → lv ≠ 0 := by
      intro hmod hfk
      have hk0 := hmodk hmod
      have hb := hC4 (k - 1) (by omega) hfk
      rw [hlv, if_pos hmod]
      omega
    have huv_of : w ≤ k → 0 < w → fg.getD (k - w) false = true → uv ≠ 0 := by
      intro hwk hw hfk
      have hb := hC4 (k - w) (by omega) hfk
      rw [huv, if_pos hwk]
      omega
    have hedgek : ∀ a, a < k → connStep fg w a k →
        (a = k - 1 ∧ 0 < k % w ∧ fg.getD (k - 1) false = true) ∨
        (a = k - w ∧ w ≤ k ∧ 0 < w ∧ fg.getD (k - w) false = true) := by
      intro a hak hstepa
      rcases step_to_last w k a hak hstepa.2.2 with ⟨h1, h2⟩ | ⟨h1, h2, h3⟩
      · left
        have ha : a = k - 1 := by omega
        exact ⟨ha, h2, ha ▸ hstepa.1⟩
      · right
        have ha : a = k - w := by omega
        exact ⟨ha, h2, h3, ha ▸ hstepa.1⟩
    have hstep_left : 0 < k % w → fg.getD (k - 1) false = true →
        connStep fg w (k - 1) k := by
      intro hmod hfk
      have hk0 := hmodk hmod
      exact ⟨hfk, hfg, Or.inr (Or.inl ⟨by omega, hmod⟩)⟩
    have hstep_up : w ≤ k → 0 < w → fg.getD (k - w) false = true →
        connStep fg w (k - w) k := by
      intro hwk hw hfk
      exact ⟨hfk, hfg, Or.inr (Or.inr (Or.inr (by omega)))⟩
    by_cases hL : lv = 0
    · by_cases hU : uv = 0
      · -- fresh label
        rw [if_neg (fun hc => hc.1 hL), if_neg (fun hc => hc hL),
          if_neg (fun hc => hc hU)]
        have hwf2 := parentWF_append s.parent s.next hC3
        have hkl : k < s.labels.length := by rw [hC1]; exact hkn
        have hFold : ∀ i, i < k → fg.getD i false = true →
            rootOf (s.parent ++ [s.next]) ((s.labels.set k s.next).getD i 0) =
              rootOf s.parent (s.labels.getD i 0) := by
          intro i hik hfi
          have hb := hC4 i hik hfi
          rw [getD_set_ne _ _ _ _ (by omega)]
          exact rootOf_append s.parent s.next hC3 _ (by omega) (by omega)
        have hFk : rootOf (s.parent ++ [s.next]) ((s.labels.set k s.next).getD k 0) =
            s.next := by
          rw [getD_set_self _ _ _ hkl]
          exact rootOf_append_new s.parent s.next hC3
        refine scanInv_rebuild fg w n k hfgl s hC1 hC4 hC5 hfg _ _ _
          (by omega) (by omega) hwf2 (by omega) (by omega) ?_ ?_
        · intro a b ha hb hst
          by_cases hak : a = k
          · by_cases hbk : b = k
            · rw [hak, hbk]
            · exfalso
              have hb' : b < k := by omega
              rcases hedgek b hb' (hak ▸ connStep_symm fg w a b hst) with hcase | hcase
              · exact hlv_of hcase.2.1 hcase.2.2 hL
              · exact huv_of hcase.2.1 hcase.2.2.1 hcase.2.2.2 hU
          · by_cases hbk : b = k
            · exfalso
              rcases hedgek a (by omega) (hbk ▸ hst) with hcase | hcase
              · exact hlv_of hcase.2.1 hcase.2.2 hL
              · exact huv_of hcase.2.1 hcase.2.2.1 hcase.2.2.2 hU
            · have ha' : a < k := by omega
              have hb' : b < k := by omega
              have hold := (hC6 a b ha' hb' hst.1 hst.2.1).mpr
                (Relation.ReflTransGen.single ⟨ha', hb', hst⟩)
              rw [hFold a ha' hst.1, hFold b hb' hst.2.1, hold]
        · intro i j hik hjk hfi hfj heq
          by_cases hik' : i = k
          · by_cases hjk' : j = k
            · rw [hik', hjk']
              exact Relation.ReflTransGen.refl
            · exfalso
              have hj' : j < k := by omega
              rw [hik', hFk, hFold j hj' hfj] at heq
              have hb := hC4 j hj' hfj
              have hle := (rootOf_spec s.parent s.next hC3 (s.labels.getD j 0)
                (by omega) (by omega)).2.2
              omega
          · by_cases hjk' : j = k
            · exfalso
              have hi' : i < k := by omega
              rw [hjk', hFk, hFold i hi' hfi] at heq
              have hb := hC4 i hi' hfi
              have hle := (rootOf_spec s.parent s.next hC3 (s.labels.getD i 0)
                (by omega) (by omega)).2.2
              omega
            · have hi' : i < k := by omega
              have hj' : j < k := by omega
              rw [hFold i hi' hfi, hFold j hj' hfj] at heq
              exact connUpTo_mono fg w k (k + 1) i j (by omega)
                ((hC6 i j hi' hj' hfi hfj).mp heq)
      · -- only the up neighbour is labeled
        rw [if_neg (fun hc => hc.1 hL), if_neg (fun hc => hc hL), if_pos hU]
        obtain ⟨hwk, hw0, hfku, hueq, hu1, huN⟩ := huv_ne hU
        obtain ⟨hfu1, hfu2, hfu3⟩ := ufFind_spec s.parent s.next hC3 uv hu1 huN
        set ru := (ufFind (uv + 1) s.parent uv).1 with hrudef
        set P1 := (ufFind (uv + 1) s.parent uv).2 with hP1def
        have hkl : k < s.labels.length := by rw [hC1]; exact hkn
        have hruspec := rootOf_spec s.parent s.next hC3 uv hu1 huN
        have hru1 : 1 ≤ ru := by rw [hfu1]; exact hruspec.2.1
        have hruN : ru < s.next := by
          rw [hfu1]
          omega
        have hFold : ∀ i, i < k → fg.getD i false = true →
            rootOf P1 ((s.labels.set k ru).getD i 0) =
              rootOf s.parent (s.labels.getD i 0) := by
          intro i hik hfi
          have hb := hC4 i hik hfi
          rw [getD_set_ne _ _ _ _ (by omega)]
          exact hfu3 _ (by omega) (by omega)
        have hFk : rootOf P1 ((s.labels.set k ru).getD k 0) = ru := by
          rw [getD_set_self _ _ _ hkl, hfu3 ru hru1 hruN, hfu1,
            rootOf_fix _ _ hruspec.1]
        have hRup : rootOf s.parent (s.labels.getD (k - w) 0) = ru := by
          rw [← hueq, hfu1]
        have hreach : ∀ i, i < k → fg.getD i false = true →
            rootOf s.parent (s.labels.getD i 0) = ru →
            connUpTo fg w (k + 1) i k := by
          intro i hik hfi hri
          have hkwk : k - w < k := by omega
          have hconn := (hC6 i (k - w) hik hkwk hfi hfku).mp (by rw [hri, hRup])
          exact (connUpTo_mono fg w k (k + 1) i (k - w) (by omega) hconn).tail
            ⟨by omega, by omega, hstep_up hwk hw0 hfku⟩
        refine scanInv_rebuild fg w n k hfgl s hC1 hC4 hC5 hfg _ _ _
          (le_refl _) hC2 hfu2 hru1 hruN ?_ ?_
        · intro a b ha hb hst
          by_cases hak : a = k
          · by_cases hbk : b = k
            · rw [hak, hbk]
            · have hb' : b < k := by omega
              rcases hedgek b hb' (hak ▸ connStep_symm fg w a b hst) with hcase | hcase
              · exact absurd hL (hlv_of hcase.2.1 hcase.2.2)
              · rw [hak, hFk, hFold b hb' hst.2.1, hcase.1, hRup]
          · by_cases hbk : b = k
            · have ha' : a < k := by omega
              rcases hedgek a ha' (hbk ▸ hst) with hcase | hcase
              · exact absurd hL (hlv_of hcase.2.1 hcase.2.2)
              · rw [hbk, hFk, hFold a ha' hst.1, hcase.1, hRup]
            · have ha' : a < k := by omega
              have hb' : b < k := by omega
              have hold := (hC6 a b ha' hb' hst.1 hst.2.1).mpr
                (Relation.ReflTransGen.single ⟨ha', hb', hst⟩)
              rw [hFold a ha' hst.1, hFold b hb' hst.2.1, hold]
        · intro i j hik hjk hfi hfj heq
          by_cases hik' : i = k
          · by_cases hjk' : j = k
            · rw [hik', hjk']
              exact Relation.ReflTransGen.refl
            · have hj' : j < k := by omega
              rw [hik', hFk, hFold j hj' hfj] at heq
              rw [hik']
              exact connUpTo_symm fg w (k + 1) j k (hreach j hj' hfj heq.symm)
          · by_cases hjk' : j = k
            · have hi' : i < k := by omega
              rw [hjk', hFk, hFold i hi' hfi] at heq
              rw [hjk']
              exact hreach i hi' hfi heq
            · have hi' : i < k := by omega
              have hj' : j < k := by omega
              rw [hFold i hi' hfi, hFold j hj' hfj] at heq
              exact connUpTo_mono fg w k (k + 1) i j (by omega)
                ((hC6 i j hi' hj' hfi hfj).mp heq)
    · by_cases hU : uv = 0
      · -- only the left neighbour is labeled
        rw [if_neg (fun hc => hc.2 hU), if_pos hL]
        obtain ⟨hmod, hfkl, hleq, hl1, hlN⟩ := hlv_ne hL
        obtain ⟨hfl1, hfl2, hfl3⟩ := ufFind_spec s.parent s.next hC3 lv hl1 hlN
        set rl := (ufFind (lv + 1) s.parent lv).1 with hrldef
        set P1 := (ufFind (lv + 1) s.parent lv).2 with hP1def
        have hkl : k < s.labels.length := by rw [hC1]; exact hkn
        have hrlspec := rootOf_spec s.parent s.next hC3 lv hl1 hlN
        have hrl1 : 1 ≤ rl := by rw [hfl1]; exact hrlspec.2.1
        have hrlN : rl < s.next := by
          rw [hfl1]
          omega
        have hFold : ∀ i, i < k → fg.getD i false = true →
            rootOf P1 ((s.labels.set k rl).getD i 0) =
              rootOf s.parent (s.labels.getD i 0) := by
          intro i hik hfi
          have hb := hC4 i hik hfi
          rw [getD_set_ne _ _ _ _ (by omega)]
          exact hfl3 _ (by omega) (by omega)
        have hFk : rootOf P1 ((s.labels.set k rl).getD k 0) = rl := by
          rw [getD_set_self _ _ _ hkl, hfl3 rl hrl1 hrlN, hfl1,
            rootOf_fix _ _ hrlspec.1]
        have hRleft : rootOf s.parent (s.labels.getD (k - 1) 0) = rl := by
          rw [← hleq, hfl1]
        have hreach : ∀ i, i < k → fg.getD i false = true →
            rootOf s.parent (s.labels.getD i 0) = rl →
            connUpTo fg w (k + 1) i k := by
          intro i hik hfi hri
          have hk0 := hmodk hmod
          have hk1k : k - 1 < k := by omega
          have hconn := (hC6 i (k - 1) hik hk1k hfi hfkl).mp (by rw [hri, hRleft])
          exact (connUpTo_mono fg w k (k + 1) i (k - 1) (by omega) hconn).tail
            ⟨by omega, by omega, hstep_left hmod hfkl⟩
        refine scanInv_rebuild fg w n k hfgl s hC1 hC4 hC5 hfg _ _ _
          (le_refl _) hC2 hfl2 hrl1 hrlN ?_ ?_
        · intro a b ha hb hst
          by_cases hak : a = k
          · by_cases hbk : b = k
            · rw [hak, hbk]
            · have hb' : b < k := by omega
              rcases hedgek b hb' (hak ▸ connStep_symm fg w a b hst) with hcase | hcase
              · rw [hak, hFk, hFold b hb' hst.2.1, hcase.1, hRleft]
              · exact absurd hU (huv_of hcase.2.1 hcase.2.2.1 hcase.2.2.2)
          · by_cases hbk : b = k
            · have ha' : a < k := by omega
              rcases hedgek a ha' (hbk ▸ hst) with hcase | hcase
              · rw [hbk, hFk, hFold a ha' hst.1, hcase.1, hRleft]
              · exact absurd hU (huv_of hcase.2.1 hcase.2.2.1 hcase.2.2.2)
            · have ha' : a < k := by omega
              have hb' : b < k := by omega
              have hold := (hC6 a b ha' hb' hst.1 hst.2.1).mpr
                (Relation.ReflTransGen.single ⟨ha', hb', hst⟩)
              rw [hFold a ha' hst.1, hFold b hb' hst.2.1, hold]
        · intro i j hik hjk hfi hfj heq
          by_cases hik' : i = k
          · by_cases hjk' : j = k
            · rw [hik', hjk']
              exact Relation.ReflTransGen.refl
            · have hj' : j < k := by omega
              rw [hik', hFk, hFold j hj' hfj] at heq
              rw [hik']
              exact connUpTo_symm fg w (k + 1) j k (hreach j hj' hfj heq.symm)
          · by_cases hjk' : j = k
            · have hi' : i < k := by omega
              rw [hjk', hFk, hFold i hi' hfi] at heq
              rw [hjk']
              exact hreach i hi' hfi heq
            · have hi' : i < k := by omega
              have hj' : j < k := by omega
              rw [hFold i hi' hfi, hFold j hj' hfj] at heq
              exact connUpTo_mono fg w k (k + 1) i j (by omega)
                ((hC6 i j hi' hj' hfi hfj).mp heq)
      · -- both neighbours labeled: union their roots
        rw [if_pos ⟨hL, hU⟩]
        obtain ⟨hmod, hfkl, hleq, hl1, hlN⟩ := hlv_ne hL
        obtain ⟨hwk, hw0, hfku, hueq, hu1, huN⟩ := huv_ne hU
        obtain ⟨hfl1, hfl2, hfl3⟩ := ufFind_spec s.parent s.next hC3 lv hl1 hlN
        obtain ⟨hfu1, hfu2, hfu3⟩ :=
          ufFind_spec (ufFind (lv + 1) s.parent lv).2 s.next hfl2 uv hu1 huN
        set rl := (ufFind (lv + 1) s.parent lv).1 with hrldef
        set P1 := (ufFind (lv + 1) s.parent lv).2 with hP1def
        set ru := (ufFind (uv + 1) P1 uv).1 with hrudef
        set P2 := (ufFind (uv + 1) P1 uv).2 with hP2def
        have hkl : k < s.labels.length := by rw [hC1]; exact hkn
        have hrlspec := rootOf_spec s.parent s.next hC3 lv hl1 hlN
        have hruspec := rootOf_spec s.parent s.next hC3 uv hu1 huN
        have hrl1 : 1 ≤ rl := by rw [hfl1]; exact hrlspec.2.1
        have hrlN : rl < s.next := by rw [hfl1]; omega
        have hru_par : ru = rootOf s.parent uv := by
          rw [hfu1]
          exact hfl3 uv hu1 huN
        have hru1 : 1 ≤ ru := by rw [hru_par]; exact hruspec.2.1
        have hruN : ru < s.next := by rw [hru_par]; omega
        have hfixl : P2.getD rl 0 = rl := by
          apply rootOf_self_fix P2 s.next hfu2 rl hrl1 hrlN
          rw [hfu3 rl hrl1 hrlN, hfl3 rl hrl1 hrlN, hfl1,
            rootOf_fix _ _ hrlspec.1]
        have hfixu : P2.getD ru 0 = ru := by
          apply rootOf_self_fix P2 s.next hfu2 ru hru1 hruN
          rw [hfu3 ru hru1 hruN, hru_par,
            hfl3 _ hruspec.2.1 (lt_of_le_of_lt hruspec.2.2 huN),
            rootOf_fix _ _ hruspec.1]
        obtain ⟨hwfm, hrootm⟩ :=
          rootOf_merge P2 s.next hfu2 rl ru hrl1 hrlN hru1 hruN hfixl hfixu
        have hm1 : 1 ≤ min rl ru := by omega
        have hmN : min rl ru < s.next := by omega
        have hroots : ∀ y, 1 ≤ y → y < s.next →
            rootOf ((P2.set rl (min rl ru)).set ru (min rl ru)) y =
              if rootOf s.parent y = rl ∨ rootOf s.parent y = ru then min rl ru
              else rootOf s.parent y := by
          intro y hy1 hyN
          rw [hrootm y hy1 hyN, hfu3 y hy1 hyN, hfl3 y hy1 hyN]
        have hFold : ∀ i, i < k → fg.getD i false = true →
            rootOf ((P2.set rl (min rl ru)).set ru (min rl ru))
                ((s.labels.set k (min rl ru)).getD i 0) =
              if rootOf s.parent (s.labels.getD i 0) = rl ∨
                  rootOf s.parent (s.labels.getD i 0) = ru then min rl ru
              else rootOf s.parent (s.labels.getD i 0) := by
          intro i hik hfi
          have hb := hC4 i hik hfi
          rw [getD_set_ne _ _ _ _ (by omega)]
          exact hroots _ (by omega) (by omega)
        have hfixmin : rootOf s.parent (min rl ru) = min rl ru := by
          rcases min_choice rl ru with hmc | hmc
          · rw [hmc, hfl1]
            exact rootOf_fix _ _ hrlspec.1
          · rw [hmc, hru_par]
            exact rootOf_fix _ _ hruspec.1
        have hFk : rootOf ((P2.set rl (min rl ru)).set ru (min rl ru))
            ((s.labels.set k (min rl ru)).getD k 0) = min rl ru := by
          rw [getD_set_self _ _ _ hkl, hroots _ hm1 hmN, hfixmin,
            if_pos (min_choice rl ru)]
        have hRleft : rootOf s.parent (s.labels.getD (k - 1) 0) = rl := by
          rw [← hleq, hfl1]
        have hRup : rootOf s.parent (s.labels.getD (k - w) 0) = ru := by
          rw [← hueq, hru_par]
        have hreach : ∀ i, i < k → fg.getD i false = true →
            (rootOf s.parent (s.labels.getD i 0) = rl ∨
              rootOf s.parent (s.labels.getD i 0) = ru) →
            connUpTo fg w (k + 1) i k := by
          intro i hik hfi hri
          rcases hri with hri | hri
          · have hk0 := hmodk hmod
            have hk1k : k - 1 < k := by omega
            have hconn := (hC6 i (k - 1) hik hk1k hfi hfkl).mp (by rw [hri, hRleft])
            exact (connUpTo_mono fg w k (k + 1) i (k - 1) (by omega) hconn).tail
              ⟨by omega, by omega, hstep_left hmod hfkl⟩
          · have hkwk : k - w < k := by omega
            have hconn := (hC6 i (k - w) hik hkwk hfi hfku).mp (by rw [hri, hRup])
            exact (connUpTo_mono fg w k (k + 1) i (k - w) (by omega) hconn).tail
              ⟨by omega, by omega, hstep_up hwk hw0 hfku⟩
        refine scanInv_rebuild fg w n k hfgl s hC1 hC4 hC5 hfg _ _ _
          (le_refl _) hC2 hwfm hm1 hmN ?_ ?_
        · intro a b ha hb hst
          by_cases hak : a = k
          · by_cases hbk : b = k
            · rw [hak, hbk]
            · have hb' : b < k := by omega
              rw [hak, hFk, hFold b hb' hst.2.1]
              rcases hedgek b hb' (hak ▸ connStep_symm fg w a b hst) with hcase | hcase
              · rw [hcase.1, hRleft]
                exact (if_pos (Or.inl rfl)).symm
              · rw [hcase.1, hRup]
                exact (if_pos (Or.inr rfl)).symm
          · by_cases hbk : b = k
            · have ha' : a < k := by omega
              rw [hbk, hFk, hFold a ha' hst.1]
              rcases hedgek a ha' (hbk ▸ hst) with hcase | hcase
              · rw [hcase.1, hRleft]
                exact if_pos (Or.inl rfl)
              · rw [hcase.1, hRup]
                exact if_pos (Or.inr rfl)
            · have ha' : a < k := by omega
              have hb' : b < k := by omega
              have hold := (hC6 a b ha' hb' hst.1 hst.2.1).mpr
                (Relation.ReflTransGen.single ⟨ha', hb', hst⟩)
              rw [hFold a ha' hst.1, hFold b hb' hst.2.1, hold]
        · intro i j hik hjk hfi hfj heq
          by_cases hik' : i = k
          · by_cases hjk' : j = k
            · rw [hik', hjk']
              exact Relation.ReflTransGen.refl
            · have hj' : j < k := by omega
              rw [hik', hFk, hFold j hj' hfj] at heq
              rw [hik']
              apply connUpTo_symm fg w (k + 1) j k
              apply hreach j hj' hfj
              by_cases hvj : rootOf s.parent (s.labels.getD j 0) = rl ∨
                  rootOf s.parent (s.labels.getD j 0) = ru
              · exact hvj
              · rw [if_neg hvj] at heq
                rcases min_choice rl ru with hmc | hmc
                · exact absurd (Or.inl (heq.symm.trans hmc)) hvj
                · exact absurd (Or.inr (heq.symm.trans hmc)) hvj
          · by_cases hjk' : j = k
            · have hi' : i < k := by omega
              rw [hjk', hFk, hFold i hi' hfi] at heq
              rw [hjk']
              apply hreach i hi' hfi
              by_cases hvi : rootOf s.parent (s.labels.getD i 0) = rl ∨
                  rootOf s.parent (s.labels.getD i 0) = ru
              · exact hvi
              · rw [if_neg hvi] at heq
                rcases min_choice rl ru with hmc | hmc
                · exact absurd (Or.inl (heq.trans hmc)) hvi
                · exact absurd (Or.inr (heq.trans hmc)) hvi
            · have hi' : i < k := by omega
              have hj' : j < k := by omega
              rw [hFold i hi' hfi, hFold j hj' hfj] at heq
              by_cases hvi : rootOf s.parent (s.labels.getD i 0) = rl ∨
                  rootOf s.parent (s.labels.getD i 0) = ru
              · by_cases hvj : rootOf s.parent (s.labels.getD j 0) = rl ∨
                    rootOf s.parent (s.labels.getD j 0) = ru
                · exact Relation.ReflTransGen.trans (hreach i hi' hfi hvi)
                    (connUpTo_symm fg w (k + 1) j k (hreach j hj' hfj hvj))
                · rw [if_pos hvi, if_neg hvj] at heq
                  rcases min_choice rl ru with hmc | hmc
                  · exact absurd (Or.inl (heq.symm.trans hmc)) hvj
                  · exact absurd (Or.inr (heq.symm.trans hmc)) hvj
              · by_cases hvj : rootOf s.parent (s.labels.getD j 0) = rl ∨
                    rootOf s.parent (s.labels.getD j 0) = ru
                · rw [if_neg hvi, if_pos hvj] at heq
                  rcases min_choice rl ru with hmc | hmc
                  · exact absurd (Or.inl (heq.trans hmc)) hvi
                  · exact absurd (Or.inr (heq.trans hmc)) hvi
                · rw [if_neg hvi, if_neg hvj] at heq
                  exact connUpTo_mono fg w k (k + 1) i j (by omega)
                    ((hC6 i j hi' hj' hfi hfj).mp heq)

/-- The scan invariant holds after processing any prefix of the raster. -/
theorem scan_inv (fg : List Bool) (w n : ℕ) (hfgl : fg.length = n) :
    ∀ k, ScanInv fg w n k
      ((List.range k).foldl (labelStep fg w) ⟨List.replicate n 0, [0], 1⟩) := by
  intro k
  induction k with
  | zero =>
    rw [List.range_zero, List.foldl_nil]
    refine ⟨by simp, le_refl 1, ⟨rfl, ?_⟩, ?_, ?_, ?_⟩
    · intro x hx1 hxn
      have hxn1 : x < 1 := hxn
      omega
    · intro i hik _
      omega
    · intro i _
      rw [List.getD_eq_getElem?_getD]
      rcases Nat.lt_or_ge i n with hi | hi
      · rw [List.getElem?_eq_getElem (by simpa using hi)]
        simp
      · rw [List.getElem?_eq_none (by simpa using hi)]
        rfl
    · intro i j hik _ _ _
      omega
  | succ k ih =>
    rw [List.range_succ, List.foldl_append, List.foldl_cons, List.foldl_nil]
    exact scan_step fg w n k hfgl _ ih

theorem resolve_step (labels0 parent0 : List ℕ) (next k : ℕ)
    (hl : ∀ i, 0 < labels0.getD i 0 → labels0.getD i 0 < next)
    (_hwf0 : ParentWF parent0 next)
    (s : List ℕ × List ℕ) (h : ResolveInv labels0 parent0 next k s) :
    ResolveInv labels0 parent0 next (k + 1) (resolveStep s k) := by
  obtain ⟨hR1, hR2, hR3, hR4, hR5⟩ := h
  unfold resolveStep
  by_cases hz : s.1.getD k 0 = 0
  · rw [if_pos hz]
    refine ⟨hR1, hR2, hR3, fun i hi => hR4 i (by omega), ?_⟩
    intro i hik
    by_cases hik' : i < k
    · exact hR5 i hik'
    · have hieq : i = k := by omega
      subst hieq
      have h0 : labels0.getD i 0 = 0 := by rw [← hR4 i (le_refl i)]; exact hz
      rw [hz, h0]
      simp
  · rw [if_neg hz]
    have hk0 : s.1.getD k 0 = labels0.getD k 0 := hR4 k (le_refl k)
    have hpos : 0 < labels0.getD k 0 := by omega
    have hbnd : labels0.getD k 0 < next := hl k hpos
    obtain ⟨u1, u2, u3⟩ := ufFind_spec s.2 next hR2 (s.1.getD k 0)
      (by omega) (by rw [hk0]; exact hbnd)
    have hkl : k < s.1.length := getD_pos_lt s.1 k hz
    refine ⟨by rw [List.length_set]; exact hR1, u2, ?_, ?_, ?_⟩
    · intro y hy1 hyn
      rw [u3 y hy1 hyn]
      exact hR3 y hy1 hyn
    · intro i hi
      rw [getD_set_ne _ _ _ _ (by omega)]
      exact hR4 i (by omega)
    · intro i hik
      by_cases hik' : i < k
      · rw [getD_set_ne _ _ _ _ (by omega)]
        exact hR5 i hik'
      · have hieq : i = k := by omega
        subst hieq
        rw [getD_set_self _ _ _ hkl, u1, hk0, if_neg (by omega),
          hR3 _ (by omega) hbnd]

theorem resolve_inv (labels0 parent0 : List ℕ) (next : ℕ)
    (hl : ∀ i, 0 < labels0.getD i 0 → labels0.getD i 0 < next)
    (hwf0 : ParentWF parent0 next) :
    ∀ k, ResolveInv labels0 parent0 next k
      ((List.range k).foldl resolveStep (labels0, parent0)) := by
  intro k
  induction k with
  | zero =>
    exact ⟨rfl, hwf0, fun y _ _ => rfl, fun i _ => rfl, fun i hi => by omega⟩
  | succ k ih =>
    rw [List.range_succ, List.foldl_append, List.foldl_cons, List.foldl_nil]
    exact resolve_step labels0 parent0 next k hl hwf0 _ ih

/-- The output labels of `labelComponents`: the right length, positive
exactly on foreground pixels, and equal on two foreground pixels exactly
when they are 4-connected. -/
theorem labelComponents_spec (fg : List Bool) (w h : ℕ)
    (hfgl : fg.length = w * h) :
    (labelComponents fg w h).1.length = w * h ∧
    (∀ i, ((labelComponents fg w h).1.getD i 0 ≠ 0 ↔ fg.getD i false = true)) ∧
    ∀ i j, fg.getD i false = true → fg.getD j false = true →
      ((labelComponents fg w h).1.getD i 0 = (labelComponents fg w h).1.getD j 0 ↔
        conn fg w i j) := by
  obtain ⟨hC1, hC2, hC3, hC4, hC5, hC6⟩ := scan_inv fg w (w * h) hfgl (w * h)
  have hl : ∀ i, 0 <
      ((List.range (w * h)).foldl (labelStep fg w)
        ⟨List.replicate (w * h) 0, [0], 1⟩).labels.getD i 0 →
      ((List.range (w * h)).foldl (labelStep fg w)
        ⟨List.replicate (w * h) 0, [0], 1⟩).labels.getD i 0 <
      ((List.range (w * h)).foldl (labelStep fg w)
        ⟨List.replicate (w * h) 0, [0], 1⟩).next := by
    intro i hpos
    by_cases hc : i < w * h ∧ fg.getD i false = true
    · exact (hC4 i hc.1 hc.2).2
    · rw [hC5 i hc] at hpos
      omega
  obtain ⟨hR1, hR2, hR3, hR4, hR5⟩ :=
    resolve_inv _ _ _ hl hC3 (w * h)
  have hres : labelComponents fg w h =
      (((List.range (w * h)).foldl resolveStep
        (((List.range (w * h)).foldl (labelStep fg w)
          ⟨List.replicate (w * h) 0, [0], 1⟩).labels,
         ((List.range (w * h)).foldl (labelStep fg w)
          ⟨List.replicate (w * h) 0, [0], 1⟩).parent)).1,
       (((List.range (w * h)).foldl resolveStep
        (((List.range (w * h)).foldl (labelStep fg w)
          ⟨List.replicate (w * h) 0, [0], 1⟩).labels,
         ((List.range (w * h)).foldl (labelStep fg w)
          ⟨List.replicate (w * h) 0, [0], 1⟩).parent)).1.filter
            fun l => 0 < l).dedup.length) := rfl
  rw [hres]
  have hLi : ∀ i, ((List.range (w * h)).foldl resolveStep
      (((List.range (w * h)).foldl (labelStep fg w)
        ⟨List.replicate (w * h) 0, [0], 1⟩).labels,
       ((List.range (w * h)).foldl (labelStep fg w)
        ⟨List.replicate (w * h) 0, [0], 1⟩).parent)).1.getD i 0 =
      (if ((List.range (w * h)).foldl (labelStep fg w)
          ⟨List.replicate (w * h) 0, [0], 1⟩).labels.getD i 0 = 0 then 0
        else rootOf ((List.range (w * h)).foldl (labelStep fg w)
          ⟨List.replicate (w * h) 0, [0], 1⟩).parent
          (((List.range (w * h)).foldl (labelStep fg w)
            ⟨List.replicate (w * h) 0, [0], 1⟩).labels.getD i 0)) := by
    intro i
    by_cases hik : i < w * h
    · exact hR5 i hik
    · rw [hR4 i (by omega), hC5 i (fun hc => absurd hc.1 (by omega)), if_pos rfl]
  refine ⟨by rw [hR1, hC1], ?_, ?_⟩
  · intro i
    rw [hLi i]
    by_cases hc : i < w * h ∧ fg.getD i false = true
    · have hb := hC4 i hc.1 hc.2
      rw [if_neg (by omega)]
      have hr := (rootOf_spec _ _ hC3 _ hb.1 hb.2).2.1
      constructor
      · intro _
        exact hc.2
      · intro _
        omega
    · rw [hC5 i hc, if_pos rfl]
      constructor
      · intro hne
        exact absurd rfl hne
      · intro hf
        exfalso
        apply hc
        refine ⟨?_, hf⟩
        rw [← hfgl]
        exact fgp_lt fg i hf
  · intro i j hfi hfj
    have hi : i < w * h := hfgl ▸ fgp_lt fg i hfi
    have hj : j < w * h := hfgl ▸ fgp_lt fg j hfj
    have hbi := hC4 i hi hfi
    have hbj := hC4 j hj hfj
    rw [hLi i, hLi j, if_neg (by omega), if_neg (by omega),
      conn_iff_connUpTo fg w (w * h) (le_of_eq hfgl) i j]
    exact hC6 i j hi hj hfi hfj

theorem count_append_one (P : List ℕ) (x l : ℕ) :
    (P ++ [x]).count l = P.count l + (if x = l then 1 else 0) := by
  rw [List.count_append]
  by_cases hxl : x = l
  · rw [if_pos hxl, hxl]
    simp
  · rw [if_neg hxl]
    simp [List.count_singleton', hxl]

theorem countsInv_step (P : List ℕ) (cs : List (ℕ × ℕ)) (x : ℕ)
    (h : CountsInv P cs) :
    CountsInv (P ++ [x]) (if 0 < x then bumpCount cs x else cs) := by
  obtain ⟨hnd, hE1, hE2⟩ := h
  by_cases hx : 0 < x
  · rw [if_pos hx]
    unfold bumpCount
    by_cases hmem : cs.any fun p => p.1 == x
    · rw [if_pos hmem]
      have hkeys : (cs.map fun p => if p.1 == x then (p.1, p.2 + 1) else p).map
          Prod.fst = cs.map Prod.fst := by
        rw [List.map_map]
        apply List.map_congr_left
        intro p _
        by_cases hp : p.1 == x
        · rw [Function.comp_apply, if_pos hp]
        · rw [Function.comp_apply, if_neg hp]
      refine ⟨by rw [hkeys]; exact hnd, ?_, ?_⟩
      · intro l hl hlP
        rcases List.mem_append.mp hlP with hlP | hlP
        · have hold := hE1 l hl hlP
          by_cases hlx : l = x
          · subst hlx
            refine List.mem_map.mpr ⟨(l, P.count l), hold, ?_⟩
            rw [if_pos (by simp), count_append_one, if_pos rfl]
          · refine List.mem_map.mpr ⟨(l, P.count l), hold, ?_⟩
            rw [if_neg (by simp [hlx]), count_append_one, if_neg (fun he => hlx he.symm)]
            simp
        · have hlx : l = x := by simpa using hlP
          subst hlx
          obtain ⟨p, hp, hpx⟩ := List.any_eq_true.mp hmem
          have hpe := hE2 p hp
          have hp1 : p.1 = l := by simpa using hpx
          refine List.mem_map.mpr ⟨p, hp, ?_⟩
          rw [if_pos (by simp [hp1]), count_append_one, if_pos rfl, hp1]
          have : p.2 = P.count l := hp1 ▸ hpe.2.2
          rw [this]
      · intro lc hlc
        obtain ⟨p, hp, hpe⟩ := List.mem_map.mp hlc
        have hold := hE2 p hp
        by_cases hpx : p.1 == x
        · rw [if_pos hpx] at hpe
          have hp1 : p.1 = x := by simpa using hpx
          refine ⟨by rw [← hpe]; exact hold.1, ?_, ?_⟩
          · rw [← hpe]
            exact List.mem_append_left _ hold.2.1
          · rw [← hpe, count_append_one]
            have : (p.1, p.2 + 1).2 = p.2 + 1 := rfl
            rw [this, hold.2.2, hp1, if_pos rfl]
        · rw [if_neg hpx] at hpe
          have hp1 : p.1 ≠ x := by simpa using hpx
          refine ⟨by rw [← hpe]; exact hold.1, ?_, ?_⟩
          · rw [← hpe]
            exact List.mem_append_left _ hold.2.1
          · rw [← hpe, count_append_one, if_neg (fun he => hp1 he.symm)]
            simp [hold.2.2]
    · rw [if_neg hmem]
      have hxP : x ∉ P := by
        intro hxP
        have := hE1 x hx hxP
        apply hmem
        exact List.any_eq_true.mpr ⟨(x, P.count x), this, by simp⟩
      refine ⟨?_, ?_, ?_⟩
      · rw [List.map_append]
        apply List.Nodup.append hnd (by simp)
        intro a ha hb
        have hax : a = x := by simpa using hb
        subst hax
        obtain ⟨p, hp, hpe⟩ := List.mem_map.mp ha
        exact hxP (hpe ▸ (hE2 p hp).2.1)
      · intro l hl hlP
        rcases List.mem_append.mp hlP with hlP | hlP
        · have hlx : l ≠ x := fun he => hxP (he ▸ hlP)
          apply List.mem_append_left
          rw [count_append_one, if_neg (fun he => hlx he.symm)]
          have := hE1 l hl hlP
          simpa using this
        · have hlx : l = x := by simpa using hlP
          subst hlx
          apply List.mem_append_right
          rw [count_append_one, if_pos rfl, List.count_eq_zero_of_not_mem hxP]
          simp
      · intro lc hlc
        rcases List.mem_append.mp hlc with hlc | hlc
        · have hold := hE2 lc hlc
          have hlx : lc.1 ≠ x := fun he => hxP (he ▸ hold.2.1)
          refine ⟨hold.1, List.mem_append_left _ hold.2.1, ?_⟩
          rw [count_append_one, if_neg (fun he => hlx he.symm), hold.2.2]
          omega
        · have hlx : lc = (x, 1) := by simpa using hlc
          subst hlx
          refine ⟨hx, List.mem_append_right _ (by simp), ?_⟩
          rw [count_append_one, if_pos rfl, List.count_eq_zero_of_not_mem hxP]
  · rw [if_neg hx]
    have hx0 : x = 0 := by omega
    refine ⟨hnd, ?_, ?_⟩
    · intro l hl hlP
      rcases List.mem_append.mp hlP with hlP | hlP
      · have := hE1 l hl hlP
        rw [count_append_one, if_neg (by omega)]
        simpa using this
      · have : l = x := by simpa using hlP
        omega
    · intro lc hlc
      have hold := hE2 lc hlc
      refine ⟨hold.1, List.mem_append_left _ hold.2.1, ?_⟩
      rw [count_append_one, if_neg (by omega), hold.2.2]
      omega

theorem countsInv_fold :
    ∀ (Q P : List ℕ) (cs : List (ℕ × ℕ)), CountsInv P cs →
      CountsInv (P ++ Q)
        (Q.foldl (fun cs l => if 0 < l then bumpCount cs l else cs) cs) := by
  intro Q
  induction Q with
  | nil =>
    intro P cs h
    rw [List.append_nil]
    exact h
  | cons q Q ih =>
    intro P cs h
    rw [List.foldl_cons]
    have h2 := countsInv_step P cs q h
    have h3 := ih (P ++ [q]) _ h2
    rw [List.append_assoc] at h3
    exact h3

/-- The accumulated counts of `countsOf` satisfy the invariant. -/
theorem countsOf_spec (L : List ℕ) : CountsInv L (countsOf L) := by
  have h := countsInv_fold L [] [] ⟨by simp, ?_, ?_⟩
  · rw [List.nil_append] at h
    exact h
  · intro l _ hl
    exact absurd hl (List.not_mem_nil l)
  · intro lc hlc
    exact absurd hlc (List.not_mem_nil lc)

/-- The running best of the `bestLabelOf` fold stays strictly below `m`
while only entries of count below `m` are seen. -/
theorem bestLabelOf_fold_lt (m : ℕ) :
    ∀ (pre : List (ℕ × ℕ)) (b : ℕ × ℕ), (∀ lc, lc ∈ pre → lc.2 < m) →
      b.2 < m →
      (pre.foldl (fun b p => if b.2 < p.2 then p else b) b).2 < m := by
  intro pre
  induction pre with
  | nil =>
    intro b _ hb
    exact hb
  | cons c t ih =>
    intro b ht hb
    rw [List.foldl_cons]
    apply ih _ (fun lc hlc => ht lc (List.mem_cons_of_mem c hlc))
    by_cases hlt : b.2 < c.2
    · rw [if_pos hlt]
      exact ht c (List.mem_cons_self c t)
    · rw [if_neg hlt]
      exact hb

/-- Once the running best reaches the maximal count, later entries (all of
count at most `m`) never displace it, by the strict `>` comparison. -/
theorem bestLabelOf_fold_keep (r m : ℕ) :
    ∀ (post : List (ℕ × ℕ)), (∀ lc, lc ∈ post → lc.2 ≤ m) →
      post.foldl (fun b p => if b.2 < p.2 then p else b) (r, m) = (r, m) := by
  intro post
  induction post with
  | nil =>
    intro _
    rfl
  | cons c t ih =>
    intro ht
    rw [List.foldl_cons]
    have hc := ht c (List.mem_cons_self c t)
    have hne : ¬ ((r, m).2 < c.2) := by
      have h2 : (r, m).2 = m := rfl
      omega
    rw [if_neg hne]
    exact ih (fun lc hlc => ht lc (List.mem_cons_of_mem c hlc))

/-- `bestLabelOf` returns the first entry achieving the maximal count:
ties are resolved in favour of the earlier entry. -/
theorem bestLabelOf_first_max (pre post : List (ℕ × ℕ)) (r m : ℕ)
    (hm : 0 < m) (hpre : ∀ lc, lc ∈ pre → lc.2 < m)
    (hpost : ∀ lc, lc ∈ post → lc.2 ≤ m) :
    bestLabelOf (pre ++ (r, m) :: post) = (r, m) := by
  unfold bestLabelOf
  rw [List.foldl_append, List.foldl_cons]
  have h1 : (pre.foldl (fun b p => if b.2 < p.2 then p else b) (0, 0)).2 < m :=
    bestLabelOf_fold_lt m pre (0, 0) hpre hm
  have h2 : (pre.foldl (fun b p => if b.2 < p.2 then p else b) (0, 0)).2 <
      (r, m).2 := h1
  rw [if_pos h2]
  exact bestLabelOf_fold_keep r m post hpost

/-- The bump fold never changes the key of the leading entry. -/
theorem countsOf_fold_head (Q : List ℕ) :
    ∀ (e : ℕ × ℕ) (cs : List (ℕ × ℕ)), ∃ c2 cs2,
      Q.foldl (fun cs l => if 0 < l then bumpCount cs l else cs) (e :: cs) =
        (e.1, c2) :: cs2 := by
  induction Q with
  | nil =>
    intro e cs
    exact ⟨e.2, cs, rfl⟩
  | cons q Q ih =>
    intro e cs
    rw [List.foldl_cons]
    by_cases hq : 0 < q
    · rw [if_pos hq]
      unfold bumpCount
      by_cases hmem : (e :: cs).any fun p => p.1 == q
      · rw [if_pos hmem, List.map_cons]
        by_cases hek : e.1 == q
        · rw [if_pos hek]
          exact ih (e.1, e.2 + 1) _
        · rw [if_neg hek]
          exact ih e _
      · rw [if_neg hmem, List.cons_append]
        exact ih e _
    · rw [if_neg hq]
      exact ih e cs

/-- The bump fold ignores a prefix of zero labels. -/
theorem countsOf_fold_zeros : ∀ (Z : List ℕ), (∀ z, z ∈ Z → z = 0) →
    Z.foldl (fun cs l => if 0 < l then bumpCount cs l else cs) [] = [] := by
  intro Z
  induction Z with
  | nil =>
    intro _
    rfl
  | cons z t ih =>
    intro hz
    rw [List.foldl_cons,
      if_neg (by have := hz z (List.mem_cons_self z t); omega)]
    exact ih (fun a ha => hz a (List.mem_cons_of_mem z ha))

/-- The first entry of `countsOf` carries the first positive value of the
label list (the JavaScript `Map` keeps insertion order). -/
theorem countsOf_first (Z : List ℕ) (v : ℕ) (rest : List ℕ)
    (hz : ∀ z, z ∈ Z → z = 0) (hv : 0 < v) :
    ∃ c2 cs2, countsOf (Z ++ v :: rest) = (v, c2) :: cs2 := by
  unfold countsOf
  rw [List.foldl_append, countsOf_fold_zeros Z hz, List.foldl_cons, if_pos hv]
  have hb : bumpCount [] v = [(v, 1)] := by
    unfold bumpCount
    rw [if_neg (by simp)]
    rfl
  rw [hb]
  exact countsOf_fold_head rest (v, 1) []

/-- A value's multiplicity in a list equals the number of positions
holding it. -/
theorem count_eq_countP_range (L : List ℕ) (a : ℕ) :
    L.count a = (List.range L.length).countP fun i => L.getD i 0 == a := by
  induction L with
  | nil => rfl
  | cons x t ih =>
    rw [List.count_cons, List.length_cons, List.range_succ_eq_map,
      List.countP_cons, List.countP_map]
    have h0 : (List.getD (x :: t) 0 0 == a) = (x == a) := rfl
    have hcongr : (List.range t.length).countP
        ((fun i => List.getD (x :: t) i 0 == a) ∘ Nat.succ) =
        (List.range t.length).countP fun i => t.getD i 0 == a := by
      apply List.countP_congr
      intro i _
      rfl
    rw [hcongr, h0, ← ih]

theorem card_filter_range_eq_countP (n : ℕ) (p : ℕ → Prop) [DecidablePred p] :
    ((Finset.range n).filter p).card =
      (List.range n).countP fun j => decide (p j) := by
  induction n with
  | zero => rfl
  | succ n ih =>
    rw [Finset.range_succ, Finset.filter_insert, List.range_succ,
      List.countP_append]
    by_cases hp : p n
    · rw [if_pos hp, Finset.card_insert_of_not_mem (by simp)]
      have h1 : (List.countP (fun j => decide (p j)) [n]) = 1 := by
        rw [List.countP_cons]
        simp [hp]
      rw [h1, ih]
    · rw [if_neg hp]
      have h1 : (List.countP (fun j => decide (p j)) [n]) = 0 := by
        rw [List.countP_cons]
        simp [hp]
      rw [h1, ih]
      omega

/-- The multiplicity of a nonzero value in a list is the natural
cardinality of the set of positions holding it. -/
theorem count_eq_ncard (L : List ℕ) (a : ℕ) (ha : a ≠ 0) :
    L.count a = {j | L.getD j 0 = a}.ncard := by
  classical
  have hset : {j | L.getD j 0 = a} =
      ↑((Finset.range L.length).filter fun j => L.getD j 0 = a) := by
    ext j
    simp only [Set.mem_setOf_eq, Finset.coe_filter, Finset.mem_range,
      Set.mem_setOf_eq]
    constructor
    · intro hj
      exact ⟨getD_pos_lt L j (by rw [hj]; exact ha), hj⟩
    · exact And.right
  rw [hset, Set.ncard_coe_Finset, card_filter_range_eq_countP,
    count_eq_countP_range]
  apply List.countP_congr
  intro i _
  by_cases h : L.getD i 0 = a
  · simp [h]
  · simp [h]

/-- A member of a list of naturals is a `getD` at some valid index. -/
theorem mem_imp_getD (L : List ℕ) (v : ℕ) (hv : v ∈ L) :
    ∃ i, i < L.length ∧ L.getD i 0 = v := by
  obtain ⟨i, hi, he⟩ := List.mem_iff_getElem.mp hv
  exact ⟨i, hi, by rw [List.getD_eq_getElem L 0 hi]; exact he⟩

theorem mapIdx_getD (l : List Bool) (f : ℕ → Bool → Bool) (j : ℕ)
    (hj : j < l.length) :
    (l.mapIdx f).getD j false = f j (l.getD j false) := by
  have hj2 : j < (l.mapIdx f).length := by
    rw [List.length_mapIdx]
    exact hj
  rw [List.getD_eq_getElem _ false hj2, List.getElem_mapIdx,
    List.getD_eq_getElem l false hj]

/-- C7: on a mask that splits into exactly two 4-connected foreground
blobs (witnessed by foreground pixels `p1` and `p2` that are mutually
disconnected and jointly cover all foreground), `keepLargestComponent`
keeps exactly the blob of `p1` whenever that blob is strictly larger, and
also on equal sizes whenever the blob of `p1` is the first one encountered
by the row-major scan (it contains a pixel preceding every other
foreground pixel): the output is foreground precisely on the foreground
pixels 4-connected to `p1`. -/
theorem keepLargestComponent_two_blobs (fg : List Bool) (w h p1 p2 : ℕ)
    (hlen : fg.length = w * h)
    (hp1 : fg.getD p1 false = true) (hp2 : fg.getD p2 false = true)
    (hsep : ¬ conn fg w p1 p2)
    (hcover : ∀ j, fg.getD j false = true → conn fg w j p1 ∨ conn fg w j p2)
    (hpick : {j | conn fg w j p2}.ncard < {j | conn fg w j p1}.ncard ∨
      ({j | conn fg w j p2}.ncard = {j | conn fg w j p1}.ncard ∧
        ∃ p0, conn fg w p0 p1 ∧ ∀ j, j < p0 → fg.getD j false = false)) :
    ∀ j, ((keepLargestComponent fg w h).getD j false = true ↔
      (fg.getD j false = true ∧ conn fg w j p1)) := by
  obtain ⟨hLlen, hK1, hK2⟩ := labelComponents_spec fg w h hlen
  set L := (labelComponents fg w h).1 with hLdef
  have hp1n : p1 < w * h := hlen ▸ fgp_lt fg p1 hp1
  have hp2n : p2 < w * h := hlen ▸ fgp_lt fg p2 hp2
  have hr1 : L.getD p1 0 ≠ 0 := (hK1 p1).mpr hp1
  have hr2 : L.getD p2 0 ≠ 0 := (hK1 p2).mpr hp2
  have hr12 : L.getD p1 0 ≠ L.getD p2 0 :=
    fun he => hsep ((hK2 p1 p2 hp1 hp2).mp he)
  have hfg_of_conn1 : ∀ j, conn fg w j p1 → fg.getD j false = true := by
    intro j hc
    rcases Relation.ReflTransGen.cases_head hc with he | ⟨c, hstep, _⟩
    · exact he ▸ hp1
    · exact hstep.1
  have hfg_of_conn2 : ∀ j, conn fg w j p2 → fg.getD j false = true := by
    intro j hc
    rcases Relation.ReflTransGen.cases_head hc with he | ⟨c, hstep, _⟩
    · exact he ▸ hp2
    · exact hstep.1
  have hiff1 : ∀ j, conn fg w j p1 ↔ L.getD j 0 = L.getD p1 0 := by
    intro j
    constructor
    · intro hc
      exact (hK2 j p1 (hfg_of_conn1 j hc) hp1).mpr hc
    · intro he
      have hj : fg.getD j false = true := (hK1 j).mp (by rw [he]; exact hr1)
      exact (hK2 j p1 hj hp1).mp he
  have hiff2 : ∀ j, conn fg w j p2 ↔ L.getD j 0 = L.getD p2 0 := by
    intro j
    constructor
    · intro hc
      exact (hK2 j p2 (hfg_of_conn2 j hc) hp2).mpr hc
    · intro he
      have hj : fg.getD j false = true := (hK1 j).mp (by rw [he]; exact hr2)
      exact (hK2 j p2 hj hp2).mp he
  have hcount1 : L.count (L.getD p1 0) = {j | conn fg w j p1}.ncard := by
    rw [count_eq_ncard L _ hr1]
    congr 1
    ext j
    simp only [Set.mem_setOf_eq]
    exact (hiff1 j).symm
  have hcount2 : L.count (L.getD p2 0) = {j | conn fg w j p2}.ncard := by
    rw [count_eq_ncard L _ hr2]
    congr 1
    ext j
    simp only [Set.mem_setOf_eq]
    exact (hiff2 j).symm
  obtain ⟨hnd, hE1, hE2⟩ := countsOf_spec L
  have hmem1 : L.getD p1 0 ∈ L := getD_mem L p1 0 (by rw [hLlen]; exact hp1n)
  have hp1mem : (L.getD p1 0, L.count (L.getD p1 0)) ∈ countsOf L :=
    hE1 _ (by omega) hmem1
  have hcpos : 0 < L.count (L.getD p1 0) := List.count_pos_iff.mpr hmem1
  have hkey : ∀ lc, lc ∈ countsOf L →
      lc.2 = L.count lc.1 ∧ (lc.1 = L.getD p1 0 ∨ lc.1 = L.getD p2 0) := by
    intro lc hlc
    obtain ⟨hpos, hmem, hcnt⟩ := hE2 lc hlc
    obtain ⟨i, hil, hie⟩ := mem_imp_getD L lc.1 hmem
    have hfi : fg.getD i false = true := (hK1 i).mp (by rw [hie]; omega)
    refine ⟨hcnt, ?_⟩
    rcases hcover i hfi with hc | hc
    · left
      rw [← hie]
      exact (hiff1 i).mp hc
    · right
      rw [← hie]
      exact (hiff2 i).mp hc
  have hbest : bestLabelOf (countsOf L) =
      (L.getD p1 0, L.count (L.getD p1 0)) := by
    rcases hpick with hlt | ⟨heq, p0, hconn0, hmin⟩
    · have hcountlt : L.count (L.getD p2 0) < L.count (L.getD p1 0) := by
        rw [hcount1, hcount2]
        exact hlt
      obtain ⟨pre, post, hsplit⟩ := List.append_of_mem hp1mem
      have hnd2 := hnd
      rw [hsplit, List.map_append, List.map_cons] at hnd2
      obtain ⟨hndpre, hndcons, hdisj⟩ := List.nodup_append.mp hnd2
      have hpre : ∀ lc, lc ∈ pre → lc.2 < L.count (L.getD p1 0) := by
        intro lc hlc
        have hlcc : lc ∈ countsOf L := by
          rw [hsplit]
          exact List.mem_append_left _ hlc
        obtain ⟨hcnt, hk⟩ := hkey lc hlcc
        rcases hk with hk | hk
        · exfalso
          have h1 : lc.1 ∈ pre.map Prod.fst := List.mem_map.mpr ⟨lc, hlc, rfl⟩
          apply List.disjoint_left.mp hdisj h1
          rw [hk]
          exact List.mem_cons_self _ _
        · rw [hcnt, hk]
          exact hcountlt
      have hpost : ∀ lc, lc ∈ post → lc.2 ≤ L.count (L.getD p1 0) := by
        intro lc hlc
        have hlcc : lc ∈ countsOf L := by
          rw [hsplit]
          exact List.mem_append_right _ (List.mem_cons_of_mem _ hlc)
        obtain ⟨hcnt, hk⟩ := hkey lc hlcc
        rcases hk with hk | hk
        · rw [hcnt, hk]
        · rw [hcnt, hk]
          exact le_of_lt hcountlt
      rw [hsplit]
      exact bestLabelOf_first_max pre post _ _ hcpos hpre hpost
    · have hfgp0 : fg.getD p0 false = true := hfg_of_conn1 p0 hconn0
      have hp0L : p0 < L.length := by
        rw [hLlen, ← hlen]
        exact fgp_lt fg p0 hfgp0
      have hLsplit : L = L.take p0 ++ L.getD p0 0 :: L.drop (p0 + 1) := by
        conv_lhs => rw [← List.take_append_drop p0 L]
        congr 1
        rw [List.drop_eq_getElem_cons hp0L, List.getD_eq_getElem L 0 hp0L]
      have hz : ∀ z, z ∈ L.take p0 → z = 0 := by
        intro z hzmem
        obtain ⟨i, hi, he⟩ := List.mem_iff_getElem.mp hzmem
        have hi0 : i < p0 := by
          rw [List.length_take] at hi
          omega
        have hiL : i < L.length := by
          rw [List.length_take] at hi
          omega
        have hfi : fg.getD i false = false := hmin i hi0
        have h0 : L.getD i 0 = 0 := by
          by_contra hne
          have hcon := (hK1 i).mp hne
          rw [hfi] at hcon
          exact Bool.false_ne_true hcon
        rw [← he, List.getElem_take, ← List.getD_eq_getElem L 0 hiL]
        exact h0
      have hvpos : 0 < L.getD p0 0 := by
        have := (hK1 p0).mpr hfgp0
        omega
      obtain ⟨c2, cs2, hcs⟩ := countsOf_first (L.take p0) (L.getD p0 0)
        (L.drop (p0 + 1)) hz hvpos
      rw [← hLsplit] at hcs
      have hp0r1 : L.getD p0 0 = L.getD p1 0 := (hiff1 p0).mp hconn0
      rw [hp0r1] at hcs
      have hc2 : c2 = L.count (L.getD p1 0) := by
        have hmem2 : (L.getD p1 0, c2) ∈ countsOf L := by
          rw [hcs]
          exact List.mem_cons_self _ _
        exact (hkey _ hmem2).1
      have hcounteq : L.count (L.getD p2 0) = L.count (L.getD p1 0) := by
        rw [hcount1, hcount2]
        exact heq
      have hpost : ∀ lc, lc ∈ cs2 → lc.2 ≤ L.count (L.getD p1 0) := by
        intro lc hlc
        have hlcc : lc ∈ countsOf L := by
          rw [hcs]
          exact List.mem_cons_of_mem _ hlc
        obtain ⟨hcnt, hk⟩ := hkey lc hlcc
        rcases hk with hk | hk
        · rw [hcnt, hk]
        · rw [hcnt, hk, hcounteq]
      have hfm := bestLabelOf_first_max [] cs2 (L.getD p1 0)
        (L.count (L.getD p1 0)) hcpos
        (fun lc hlc => absurd hlc (List.not_mem_nil lc)) hpost
      rw [List.nil_append] at hfm
      rw [hcs, hc2]
      exact hfm
  have hout : keepLargestComponent fg w h =
      fg.mapIdx fun i v => v && (L.getD i 0 == (bestLabelOf (countsOf L)).1) :=
    rfl
  intro j
  rw [hout, hbest]
  by_cases hjl : j < fg.length
  · rw [mapIdx_getD fg _ j hjl, Bool.and_eq_true]
    constructor
    · intro hcon
      refine ⟨hcon.1, (hiff1 j).mpr ?_⟩
      have := hcon.2
      simpa using this
    · intro hcon
      refine ⟨hcon.1, ?_⟩
      have := (hiff1 j).mp hcon.2
      simpa using this
  · rw [List.getD_eq_default _ _ (by rw [List.length_mapIdx]; omega),
      List.getD_eq_default _ _ (by omega)]
    constructor
    · intro hfalse
      exact absurd hfalse (by simp)
    · intro hcon
      exact absurd hcon.1 (by simp)

/-- Enumeration of the foreground pixels of the two-blob witness mask. -/
theorem twoBlobMask_fg : ∀ c, twoBlobMask.getD c false = true →
    c = 0 ∨ c = 4 ∨ c = 5 := by
  intro c hc
  have hc6 : c < 6 := fgp_lt twoBlobMask c hc
  have hdec : ∀ c', c' < 6 → twoBlobMask.getD c' false = true →
      c' = 0 ∨ c' = 4 ∨ c' = 5 := by decide
  exact hdec c hc6 hc

/-- The component of pixel 4 in the two-blob witness mask is `{4, 5}`. -/
theorem twoBlobMask_comp4 : ∀ j, conn twoBlobMask 3 4 j → j = 4 ∨ j = 5 := by
  intro j hj
  induction hj with
  | refl => exact Or.inl rfl
  | tail hab hbc ih =>
    have hcm := twoBlobMask_fg _ hbc.2.1
    have hadj := hbc.2.2
    rcases ih with hb | hb <;> rcases hcm with hc | hc | hc <;>
      first
        | exact Or.inl hc
        | exact Or.inr hc
        | (subst hb; subst hc; unfold adjacent at hadj; omega)

/-- The component of pixel 0 in the two-blob witness mask is `{0}`. -/
theorem twoBlobMask_comp0 : ∀ j, conn twoBlobMask 3 0 j → j = 0 := by
  intro j hj
  induction hj with
  | refl => rfl
  | tail hab hbc ih =>
    have hcm := twoBlobMask_fg _ hbc.2.1
    have hadj := hbc.2.2
    rcases hcm with hc | hc | hc
    · exact hc
    · subst ih; subst hc; unfold adjacent at hadj; omega
    · subst ih; subst hc; unfold adjacent at hadj; omega

/-- C7 witness: on the concrete 3x2 two-blob mask the hypotheses of the
two-blob theorem hold (pixels 4 and 0 witness the two blobs, of sizes 2
and 1), and its conclusion instantiated at pixel 0 evaluates as stated. -/
theorem keepLargestComponent_two_blobs_witness :
    ¬ conn twoBlobMask 3 4 0 ∧
    {j | conn twoBlobMask 3 j 0}.ncard < {j | conn twoBlobMask 3 j 4}.ncard ∧
    ((keepLargestComponent twoBlobMask 3 2).getD 0 false = true ↔
      (twoBlobMask.getD 0 false = true ∧ conn twoBlobMask 3 0 4)) := by
  have hc54 : conn twoBlobMask 3 5 4 :=
    Relation.ReflTransGen.single ⟨by decide, by decide, Or.inl ⟨by decide, by decide⟩⟩
  have hsep : ¬ conn twoBlobMask 3 4 0 := by
    intro hc
    rcases twoBlobMask_comp4 0 hc with h | h <;> omega
  have hset4 : {j | conn twoBlobMask 3 j 4} = {4, 5} := by
    ext j
    simp only [Set.mem_setOf_eq, Set.mem_insert_iff, Set.mem_singleton_iff]
    constructor
    · intro hc
      exact twoBlobMask_comp4 j (conn_symm twoBlobMask 3 j 4 hc)
    · intro hc
      rcases hc with hc | hc
      · rw [hc]
        exact Relation.ReflTransGen.refl
      · rw [hc]
        exact hc54
  have hset0 : {j | conn twoBlobMask 3 j 0} = {0} := by
    ext j
    simp only [Set.mem_setOf_eq, Set.mem_singleton_iff]
    constructor
    · intro hc
      exact twoBlobMask_comp0 j (conn_symm twoBlobMask 3 j 0 hc)
    · intro hc
      rw [hc]
      exact Relation.ReflTransGen.refl
  have hsize : {j | conn twoBlobMask 3 j 0}.ncard <
      {j | conn twoBlobMask 3 j 4}.ncard := by
    rw [hset0, hset4, Set.ncard_singleton, Set.ncard_pair (by omega)]
    omega
  have hcover : ∀ j, twoBlobMask.getD j false = true →
      conn twoBlobMask 3 j 4 ∨ conn twoBlobMask 3 j 0 := by
    intro j hj
    rcases twoBlobMask_fg j hj with hc | hc | hc
    · right
      rw [hc]
      exact Relation.ReflTransGen.refl
    · left
      rw [hc]
      exact Relation.ReflTransGen.refl
    · left
      rw [hc]
      exact hc54
  exact ⟨hsep, hsize,
    keepLargestComponent_two_blobs twoBlobMask 3 2 4 0 rfl rfl rfl hsep hcover
      (Or.inl hsize) 0⟩


end PhotoProfile
